import Mathlib

/-!
# SecureShell: a verification development

A shallow embedding of the command shell's pure core (tokenizer, command and
pipeline parser, dangerous-command matcher, matrix reduction) and theorems
about it.

Conventions of the embedding.

* A C string is the list of its characters before the terminating NUL
  (`CStr`).  A `char *` that walks a string is the list of the characters
  that remain.
* A function that reports a result through a pointer argument returns the
  pointed-to value as a further component of its result.
* A stack buffer that is read before it is written has unspecified
  contents; those contents are an explicit argument of the embedding.
* Global state (`dangerous_cmds`, `stats`) is passed explicitly.
* Allocation and thread creation are assumed to succeed.
* Machine integers are mathematical integers, with two exceptions, where a
  number is made from the text of a command: the result of `atoi`, and the
  size `rows * cols` that `parse_matrix` and `create_matrix` compute, are
  reduced to 32 bits (`to_int`).  The matrix operations take the size of a
  matrix without reduction; they agree with the code on every matrix of
  fewer than `2 ^ 31` entries.
-/

set_option autoImplicit false

namespace SecureShell

/-! ## Characters and strings -/

/-- C strings: the characters before the terminating NUL. -/
abbrev CStr := List Char

/-- The classification `isspace` of the C locale: space, `\t`, `\n`, `\v`,
`\f` and `\r`. -/
def isspace (c : Char) : Bool :=
  c = ' ' || c = '\t' || c = '\n' || c = Char.ofNat 11 || c = Char.ofNat 12 || c = '\r'

/-- The conversion `%s` of `sscanf`: skip leading white space, then read
the longest run of characters that are not white space.  When the input ends
before any such character, nothing is stored (`none`). -/
def sscanf_word (s : CStr) : Option CStr :=
  match s.dropWhile isspace with
  | [] => none
  | c :: rest => some ((c :: rest).takeWhile (fun d => !isspace d))

/-! ## The dangerous-command matcher (`dangerous_commands.c`) -/

/-- `extract_base_command(cmd, base_cmd)`: `sscanf(cmd, "%s", base_cmd)`.
The second argument is the content of the output buffer before the call and
the result is its content after the call: the return value of `sscanf` is
not inspected, so the buffer keeps its old content when no word is found. -/
def extract_base_command (cmd : CStr) (base_cmd : CStr) : CStr :=
  match sscanf_word cmd with
  | some w => w
  | none => base_cmd

/-- The unspecified initial contents of the two local buffers of
`is_dangerous_command`, neither of which is initialised. -/
structure uninit_t where
  cmd_base : CStr
  dangerous_cmd_base : CStr
  deriving DecidableEq

/-- The `for` loop of `is_dangerous_command`, from index `i` on; the first
list holds `dangerous_cmds[i .. dangerous_cmds_count)`.  The result is the
return value together with the final `*dangerous_cmd_index`. -/
def is_dangerous_scan (cmd cmd_base : CStr) (stale : CStr) :
    List CStr → Nat → Bool → Int → Int × Int
  | [], _, found_base, idx => (if found_base then 1 else 0, idx)
  | entry :: rest, i, found_base, idx =>
    let dangerous_cmd_base := extract_base_command entry stale
    if cmd_base = dangerous_cmd_base then
      if cmd = entry then
        (2, (i : Int))
      else
        is_dangerous_scan cmd cmd_base stale rest (i + 1) true (i : Int)
    else
      is_dangerous_scan cmd cmd_base stale rest (i + 1) found_base idx

/-- `is_dangerous_command(cmd, &dangerous_cmd_index)` over the global
denylist `dangerous_cmds[0 .. dangerous_cmds_count)`.  Returns the matching
level (0 no match, 1 base match, 2 exact match) and the final value of
`*dangerous_cmd_index`, whose value on entry is the last argument. -/
def is_dangerous_command (u : uninit_t) (dangerous_cmds : List CStr) (cmd : CStr)
    (dangerous_cmd_index : Int) : Int × Int :=
  let cmd_base := extract_base_command cmd u.cmd_base
  is_dangerous_scan cmd cmd_base u.dangerous_cmd_base dangerous_cmds 0 false
    dangerous_cmd_index

/-- The base command of a command string: its first word delimited by white
space, empty when the string has no word. -/
def base_command (s : CStr) : CStr :=
  (s.dropWhile isspace).takeWhile (fun d => !isspace d)

/-- A string has a word when some character of it is not white space. -/
def has_word (s : CStr) : Prop := ∃ c ∈ s, isspace c = false

instance (s : CStr) : Decidable (has_word s) := by
  unfold has_word; infer_instance


/-! ## Records (`types.h`) -/

/-- Upper bound on the number of arguments of one command. -/
def MAX_ARGS : Int := 7

/-- Upper bound on the number of denylist entries. -/
def MAX_DANGEROUS_CMDS : Nat := 100

/-- Size of the line buffers. -/
def MAX_CMD_LEN : Nat := 1024

/-- The record `command_t`: `args[0 .. argc)` are the argument strings and
`stderr_file` is `none` for a NULL pointer. -/
structure command_t where
  args : List CStr
  argc : Nat
  stderr_file : Option CStr
  deriving DecidableEq

/-- The record `pipeline_t`: `commands[0 .. cmd_count)` are the initialised
slots of the two-element array. -/
structure pipeline_t where
  commands : List command_t
  cmd_count : Nat
  is_background : Bool
  deriving DecidableEq

/-- The integer counters of `command_stats_t` (the timing fields are
floating point and are left out). -/
structure command_stats_t where
  cmds_count : Int
  blocked_cmd_count : Int
  unblocked_dangerous_cmds_count : Int
  deriving DecidableEq

/-! ## Utilities (`utils.c`) -/

/-- `has_consecutive_spaces(str)`: a tab, or a space followed by a space. -/
def has_consecutive_spaces : CStr → Bool
  | [] => false
  | c :: rest =>
    if c = '\t' ∨ (c = ' ' ∧ rest.head? = some ' ') then true
    else has_consecutive_spaces rest

/-- The white space of the tokenizer: space, tab and newline only. -/
def is_ws (c : Char) : Bool := c = ' ' || c = '\t' || c = '\n'

/-- One pass through the body of the `while` loop of `tokenize`, started
with `ptr` at the given characters.  The result is `none` when the body
leaves the loop through `break` (only white space was left), and otherwise
the token stored in `tokens_dest[count]` together with the characters at
which `ptr` stands afterwards. -/
def tokenize_step (ptr : CStr) : Option (CStr × CStr) :=
  match ptr.dropWhile is_ws with
  | [] => none
  | c :: rest =>
    if c = '"' then
      -- quoted: the token starts after the quote and runs to the next quote
      some (rest.takeWhile (fun d => d != '"'), (rest.dropWhile (fun d => d != '"')).tail)
    else
      -- unquoted: the token runs to the next white space
      some ((c :: rest).takeWhile (fun d => !is_ws d),
            ((c :: rest).dropWhile (fun d => !is_ws d)).tail)

/-- The `while (*ptr && count < max_args)` loop of `tokenize`; `count` is
the length of the token list.  Every pass that does not leave the loop
stores one token, so at most `max_args` passes happen and the first argument
bounds them: when it reaches zero with `count + fuel ≥ max_args` the loop
condition is false.  Returns the final `ptr` and the tokens. -/
def tokenize_loop : Nat → CStr → List CStr → Int → CStr × List CStr
  | 0, ptr, tokens, _ => (ptr, tokens)
  | fuel + 1, ptr, tokens, max_args =>
    if ptr ≠ [] ∧ (tokens.length : Int) < max_args then
      match tokenize_step ptr with
      | none => ([], tokens)
      | some (tok, ptr1) => tokenize_loop fuel ptr1 (tokens ++ [tok]) max_args
    else (ptr, tokens)

/-- `tokenize(str_src, tokens_dest, max_args)`: `none` is the return value
`-1`; `some tokens` is the return value `tokens.length` with the tokens in
`tokens_dest[0 .. count)` and NULL after them. -/
def tokenize (str_src : CStr) (max_args : Int) : Option (List CStr) :=
  let r := tokenize_loop max_args.toNat str_src [] max_args
  if max_args ≤ (r.2.length : Int) ∧ r.1 ≠ [] then none else some r.2

/-- `reconstruct_command_string(cmd, cmd_str)`: the content of `cmd_str`
after the call. -/
def reconstruct_command_string (cmd : command_t) : CStr :=
  ((cmd.args.take cmd.argc).enum).foldl
    (fun cmd_str ia => (if 0 < ia.1 then cmd_str ++ [' '] else cmd_str) ++ ia.2) []

/-! ## Denylist loading (`read_line.c`, `dangerous_commands.c`) -/

/-- The loop `while (pos > start && isspace(*pos)) pos--` over the string
`s`, started with `pos` at the given index; returns the final index. -/
def skip_trailing_space (s : CStr) : Nat → Nat
  | 0 => 0
  | pos + 1 => if isspace (s.getD (pos + 1) ' ') then skip_trailing_space s pos else pos + 1

/-- `trim_spaces(str)`: the content of `str` after the call. -/
def trim_spaces (str : CStr) : CStr :=
  if str = [] then str
  else
    let s := str.dropWhile isspace
    if s = [] then s else s.take (skip_trailing_space s (s.length - 1) + 1)

/-- `read_line(buffer, size, stream)` on a stream whose next line holds the
given characters (newline excluded): `fgets` keeps at most `size - 1` of
them, the rest of the line is discarded, and the buffer is trimmed. -/
def read_line (size : Nat) (next_line : CStr) : CStr :=
  trim_spaces (next_line.take (size - 1))

/-- The reading loop of `load_dangerous_commands` over the remaining lines
of the file; the second argument is the denylist stored so far. -/
def load_dangerous_loop : List CStr → List CStr → List CStr
  | [], dangerous_cmds => dangerous_cmds
  | next_line :: rest, dangerous_cmds =>
    if dangerous_cmds.length < MAX_DANGEROUS_CMDS then
      let line := read_line MAX_CMD_LEN next_line
      if 0 < line.length then
        load_dangerous_loop rest (dangerous_cmds ++ [line.take (MAX_CMD_LEN - 1)])
      else load_dangerous_loop rest dangerous_cmds
    else dangerous_cmds

/-- `load_dangerous_commands(filename)` for a file with the given lines
(`none` when the file cannot be opened): the denylist after the call. -/
def load_dangerous_commands (file : Option (List CStr)) : List CStr :=
  match file with
  | none => []
  | some lines => load_dangerous_loop lines []

/-! ## Pipeline screening (`dangerous_commands.c`) -/

/-- The line printed when a command is blocked. -/
def block_message (entry : CStr) : CStr :=
  "ERR: Dangerous command detected (\"".toList ++ entry ++ "\"). Execution prevented.".toList

/-- The line printed when a command is let through with a warning. -/
def warn_message (entry : CStr) : CStr :=
  "WARNING: Command similar to dangerous command (\"".toList ++ entry ++
    "\"). Proceed with caution.".toList

/-- The `for` loop of `check_dangerous_pipeline` from command `i` on.  The
state is the statistics and the lines printed so far; `u i` is what the
uninitialised buffers hold during the call for command `i`. -/
def check_dangerous_loop (u : Nat → uninit_t) (dangerous_cmds : List CStr) :
    List command_t → Nat → command_stats_t → List CStr → Int × command_stats_t × List CStr
  | [], _, stats, out => (0, stats, out)
  | cmd :: rest, i, stats, out =>
    let cmd_str := reconstruct_command_string cmd
    let r := is_dangerous_command (u i) dangerous_cmds cmd_str (-1)
    if r.1 = 2 then
      (-1, { stats with blocked_cmd_count := stats.blocked_cmd_count + 1 },
        out ++ [block_message (dangerous_cmds.getD r.2.toNat [])])
    else if r.1 = 1 then
      check_dangerous_loop u dangerous_cmds rest (i + 1)
        { stats with
          unblocked_dangerous_cmds_count := stats.unblocked_dangerous_cmds_count + 1 }
        (out ++ [warn_message (dangerous_cmds.getD r.2.toNat [])])
    else
      check_dangerous_loop u dangerous_cmds rest (i + 1) stats out

/-- `check_dangerous_pipeline(pipeline)`: the return value (0 or -1), the
statistics after the call and the lines printed. -/
def check_dangerous_pipeline (u : Nat → uninit_t) (dangerous_cmds : List CStr)
    (pipeline : pipeline_t) (stats : command_stats_t) :
    Int × command_stats_t × List CStr :=
  if dangerous_cmds.length = 0 then (0, stats, [])
  else
    check_dangerous_loop u dangerous_cmds (pipeline.commands.take pipeline.cmd_count) 0
      stats []

/-! ## The parser (`parse_command.c`) -/

/-- `check_background(&line)`: the content of the line after the call and
the return value.  The scan starts at the last character and stops at the
first one, and an ampersand found there is overwritten with NUL.  The shell
loop never passes an empty line; for an empty line the C code inspects the
byte in front of the buffer, and the embedding reports no ampersand. -/
def check_background (line : CStr) : CStr × Bool :=
  if line = [] then (line, false)
  else
    let pos := skip_trailing_space line (line.length - 1)
    if line.getD pos ' ' = '&' then (line.take pos, true) else (line, false)

/-- `split_on_pipe(line, &left_cmd, &right_cmd)`: the left command, the
right command (`none` for NULL) and the return value. -/
def split_on_pipe (line : CStr) : CStr × Option CStr × Bool :=
  match line.dropWhile (fun d => d != '|') with
  | [] => (line, none, false)
  | _ :: right_cmd => (line.takeWhile (fun d => d != '|'), some right_cmd, true)

/-- The `for (i = 0; i < token_count; ++i)` loop of `parse_single_command`.
The state is `i`, the arguments stored so far, `arg_index` and
`stderr_file`.  Every pass advances `i`, so `token_count` passes suffice and
the first argument bounds them. -/
def parse_args_loop (tokens : List CStr) (token_count : Nat) :
    Nat → Nat → List CStr → Nat → Option CStr → List CStr × Nat × Option CStr
  | 0, _, args, arg_index, stderr_file => (args, arg_index, stderr_file)
  | fuel + 1, i, args, arg_index, stderr_file =>
    if i < token_count then
      if tokens.getD i [] = ['2', '>'] ∧ i + 1 < token_count then
        parse_args_loop tokens token_count fuel (i + 2) args arg_index
          (some (tokens.getD (i + 1) []))
      else
        parse_args_loop tokens token_count fuel (i + 1) (args ++ [tokens.getD i []])
          (arg_index + 1) stderr_file
    else (args, arg_index, stderr_file)

/-- `parse_single_command(cmd_str, cmd)`: `none` is the return value `-1`
(after `ERR_ARGS` is printed), `some cmd` the return value 0 with the
command record filled in. -/
def parse_single_command (cmd_str : CStr) : Option command_t :=
  match tokenize cmd_str MAX_ARGS with
  | none => none
  | some tokens =>
    let token_count := tokens.length
    let r := parse_args_loop tokens token_count token_count 0 [] 0 none
    some { args := r.1, argc := r.2.1, stderr_file := r.2.2 }

/-- Steps 2 to 4 of `parse_line`, on the line left by `check_background`
and with the background flag it returned. -/
def parse_stripped (line_copy : CStr) (is_bg : Bool) : Option pipeline_t :=
  let sp := split_on_pipe line_copy
  let cmd_count := if sp.2.2 then 2 else 1
  match parse_single_command sp.1 with
  | none => none
  | some left =>
    if sp.2.2 then
      match parse_single_command (sp.2.1.getD []) with
      | none => none
      | some right =>
        some { commands := [left, right], cmd_count := cmd_count, is_background := is_bg }
    else some { commands := [left], cmd_count := cmd_count, is_background := is_bg }

/-- `parse_line(line)`: `none` is the NULL result. -/
def parse_line (line : CStr) : Option pipeline_t :=
  let bg := check_background line
  parse_stripped bg.1 bg.2

/-! ## Matrices (`builtins.c`) -/

/-- The conversion of a whole number to the 32-bit type `int`: its low 32
bits, read as a number in two's complement. -/
def to_int (v : Int) : Int := (v + 2147483648) % 4294967296 - 2147483648

/-- The record `matrix_t` over a type of numbers. -/
structure matrix_t (α : Type) where
  rows : Int
  cols : Int
  data : List α
  deriving DecidableEq

section matrix
variable {α : Type} [Zero α] [Add α] [Sub α]

/-- `create_matrix(rows, cols)`: `rows * cols` zeros, the product being the
`int` that the code passes to `calloc`. -/
def create_matrix (rows cols : Int) : matrix_t α :=
  { rows := rows, cols := cols, data := List.replicate (to_int (rows * cols)).toNat 0 }

/-- `matrices_compatible(m1, m2)`. -/
def matrices_compatible (m1 m2 : matrix_t α) : Bool :=
  m1.rows = m2.rows && m1.cols = m2.cols

/-- `matrix_operation_thread(arg)`: the value of `arg->result` afterwards,
`none` for NULL. -/
def matrix_operation_thread (left right : matrix_t α) (operation : Char) :
    Option (matrix_t α) :=
  if !matrices_compatible left right then none
  else
    let result : matrix_t α := create_matrix left.rows left.cols
    let size := (left.rows * left.cols).toNat
    if operation = 'A' then
      some { result with
        data := (List.range size).map (fun i => left.data.getD i 0 + right.data.getD i 0) }
    else if operation = 'S' then
      some { result with
        data := (List.range size).map (fun i => left.data.getD i 0 - right.data.getD i 0) }
    else some result

/-- The results of the workers of one level of the addition tree: worker
`i` combines `matrices[2 i]` and `matrices[2 i + 1]`. -/
def pair_results (matrices : List (matrix_t α)) (pairs : Nat) (operation : Char) :
    List (Option (matrix_t α)) :=
  (List.range pairs).map (fun i =>
    match matrices.get? (i * 2), matrices.get? (i * 2 + 1) with
    | some l, some r => matrix_operation_thread l r operation
    | _, _ => none)

/-- The joining loop of one level: the results of the workers in order, or
`none` as soon as one of them is NULL. -/
def collect_results : List (Option (matrix_t α)) → Option (List (matrix_t α))
  | [] => some []
  | none :: _ => none
  | some m :: rest =>
    match collect_results rest with
    | none => none
    | some ms => some (m :: ms)

/-- `compute_matrices_parallel(matrices, count, operation)` where `count`
is the length of the list.  The first argument bounds the depth of the
recursion: `none` means that the bound was reached, `some none` is the NULL
result and `some (some m)` the result matrix. -/
def compute_matrices_parallel :
    Nat → List (matrix_t α) → Char → Option (Option (matrix_t α))
  | 0, _, _ => none
  | fuel + 1, matrices, operation =>
    let count := matrices.length
    if count = 1 then
      match matrices.head? with
      | none => some none
      | some m0 =>
        let size := (m0.rows * m0.cols).toNat
        some (some { rows := m0.rows, cols := m0.cols,
                     data := (List.range size).map (fun i => m0.data.getD i 0) })
    else if count = 2 then
      match matrices.get? 0, matrices.get? 1 with
      | some l, some r => some (matrix_operation_thread l r operation)
      | _, _ => some none
    else if operation = 'S' then
      let mid := if count / 2 = 0 then 1 else count / 2
      match compute_matrices_parallel fuel (matrices.take mid) 'S' with
      | none => none
      | some none => some none
      | some (some left_result) =>
        match compute_matrices_parallel fuel (matrices.drop mid) 'A' with
        | none => none
        | some none => some none
        | some (some right_result) =>
          some (matrix_operation_thread left_result right_result 'S')
    else
      let pairs := count / 2
      let remainder := count % 2
      match collect_results (pair_results matrices pairs operation) with
      | none => some none
      | some sums =>
        let next_level :=
          if remainder ≠ 0 then sums ++ (matrices.drop (count - 1)).take 1 else sums
        compute_matrices_parallel fuel next_level operation

end matrix

/-! ## Line execution (`execute_command.c`) -/

/-- What one call of `execute_line` does: its return value, the statistics
afterwards, the diagnostic lines printed by the shell itself, and the
pipeline handed to `execute_pipeline` (`none` when it is not called). -/
structure execute_line_t where
  result : Int
  stats : command_stats_t
  out : List CStr
  executed : Option pipeline_t
  deriving DecidableEq

/-- `execute_line(line)`.  Process creation is outside the embedding:
`execute_pipeline` is a parameter giving the exit status of a pipeline.  Of
the statistics update only the command counter is kept. -/
def execute_line (u : Nat → uninit_t) (dangerous_cmds : List CStr)
    (execute_pipeline : pipeline_t → Int) (stats : command_stats_t) (line : CStr) :
    execute_line_t :=
  if has_consecutive_spaces line then
    { result := -1, stats := stats, out := ["ERR_SPACE".toList], executed := none }
  else
    match parse_line line with
    | none => { result := -1, stats := stats, out := ["ERR_ARGS".toList], executed := none }
    | some pipeline =>
      let chk := check_dangerous_pipeline u dangerous_cmds pipeline stats
      if chk.1 = -1 then
        { result := -1, stats := chk.2.1, out := chk.2.2, executed := none }
      else
        let result := execute_pipeline pipeline
        if 0 ≤ result ∧ result ≠ 127 then
          { result := result,
            stats := { chk.2.1 with cmds_count := chk.2.1.cmds_count + 1 },
            out := chk.2.2, executed := some pipeline }
        else
          { result := result, stats := chk.2.1, out := chk.2.2, executed := some pipeline }

/-! ## Reference notions used by the statements -/

/-- Strings joined by single spaces. -/
def join_args (args : List CStr) : CStr := [' '].intercalate args

/-- The tokens of a string when no limit applies: the loop body of the
tokenizer repeated until only white space is left.  Every pass consumes a
character, so the length of the string bounds the number of passes. -/
def all_tokens_upto : Nat → CStr → List CStr
  | 0, _ => []
  | n + 1, s =>
    match tokenize_step s with
    | none => []
    | some (tok, rest) => tok :: all_tokens_upto n rest

/-- The tokens of a string when no limit applies. -/
def all_tokens (s : CStr) : List CStr := all_tokens_upto s.length s

/-- Where the tokenizer's pointer stands after `k` passes of the loop body
started at the given characters: the characters left, or `none` when fewer
than `k` tokens exist. -/
def ptr_after : Nat → CStr → Option CStr
  | 0, s => some s
  | k + 1, s =>
    match tokenize_step s with
    | none => none
    | some (_, rest) => ptr_after k rest

/-- The maximal runs of characters that are not tokenizer white space, in
order; the second argument is the run being read. -/
def runs_from : CStr → CStr → List CStr
  | [], cur => if cur = [] then [] else [cur]
  | c :: rest, cur =>
    if is_ws c then (if cur = [] then runs_from rest [] else cur :: runs_from rest [])
    else runs_from rest (cur ++ [c])

/-- The maximal runs of characters that are not tokenizer white space. -/
def runs (s : CStr) : List CStr := runs_from s []

/-- The left-to-right scan of a token list described for the command
parser: a token `2>` that is not the last one gives the next token as the
redirect target and both are dropped; every other token is an argument.  The
second argument is the redirect target found so far. -/
def scan_redirect : List CStr → Option CStr → List CStr × Option CStr
  | [], target => ([], target)
  | [t], target => ([t], target)
  | t :: t2 :: rest2, target =>
    if t = ['2', '>'] then scan_redirect rest2 (some t2)
    else
      let r := scan_redirect (t2 :: rest2) target
      (t :: r.1, r.2)

section matrix_reference
variable {α : Type} [Zero α] [Add α] [Sub α]

/-- Element-wise difference of two matrices of one shape. -/
def matrix_sub (a b : matrix_t α) : matrix_t α :=
  { rows := a.rows, cols := a.cols, data := List.zipWith (fun x y => x - y) a.data b.data }

/-- The strictly left-associative difference `((m0 - m1) - m2) - ...`. -/
def sub_left_assoc (m0 : matrix_t α) (rest : List (matrix_t α)) : matrix_t α :=
  rest.foldl matrix_sub m0

/-- A matrix has the shape `rows × cols` and as many values as that. -/
def has_shape (rows cols : Int) (m : matrix_t α) : Prop :=
  m.rows = rows ∧ m.cols = cols ∧ m.data.length = (rows * cols).toNat

instance (rows cols : Int) (m : matrix_t α) : Decidable (has_shape rows cols m) := by
  unfold has_shape; infer_instance

/-- The value of a matrix at a position of the row-major order. -/
def el (m : matrix_t α) (i : Nat) : α := m.data.getD i 0

/-- The matrix of shape `rows × cols` whose value at position `i` is `f i`. -/
def pointwise (rows cols : Int) (f : Nat → α) : matrix_t α :=
  { rows := rows, cols := cols, data := (List.range (rows * cols).toNat).map f }

/-- The next level of the addition tree, by recursion on the list: adjacent
matrices are added and a trailing unpaired matrix is carried over. -/
def next_level_of (rows cols : Int) : List (matrix_t α) → List (matrix_t α)
  | [] => []
  | [a] => [a]
  | a :: b :: rest =>
    pointwise rows cols (fun i => el a i + el b i) :: next_level_of rows cols rest

/-- The sums of the adjacent pairs of a list of matrices. -/
def pair_sums_of (rows cols : Int) : List (matrix_t α) → List (matrix_t α)
  | a :: b :: rest =>
    pointwise rows cols (fun i => el a i + el b i) :: pair_sums_of rows cols rest
  | _ => []

end matrix_reference

/-! ## Matrix literals and the matrix calculator (`builtins.c`) -/

/-- The classification `isdigit`: the characters `0` to `9`. -/
def is_digit (c : Char) : Bool := decide (48 ≤ c.toNat) && decide (c.toNat ≤ 57)

/-- The digit loop of `atoi`: the value read so far is the second
argument. -/
def atoi_digits : CStr → Int → Int
  | [], acc => acc
  | c :: rest, acc =>
    if is_digit c then atoi_digits rest (acc * 10 + ((c.toNat : Int) - 48)) else acc

/-- The whole number that a decimal text denotes: leading white space, an
optional sign, then decimal digits; 0 when no digit follows. -/
def decimal_value (s : CStr) : Int :=
  match s.dropWhile isspace with
  | [] => 0
  | c :: rest =>
    if c = '-' then - atoi_digits rest 0
    else if c = '+' then atoi_digits rest 0
    else atoi_digits (c :: rest) 0

/-- The library function `strtol` in base 10: the number that the text
denotes, replaced by `LONG_MIN` or `LONG_MAX` when it lies outside the
64-bit range of `long`. -/
def strtol (s : CStr) : Int :=
  if decimal_value s < -9223372036854775808 then -9223372036854775808
  else if 9223372036854775807 < decimal_value s then 9223372036854775807
  else decimal_value s

/-- The library function `atoi` as the C library implements it,
`(int) strtol(s, NULL, 10)`: the number read is reduced to the range of
`int`, so that the text `4294967297` reads as 1 and `-4294967295` as 1. -/
def atoi (s : CStr) : Int := to_int (strtol s)

/-- The library function `strchr`: the offset of the first occurrence of the
character, `none` for NULL. -/
def strchr : CStr → Char → Option Nat
  | [], _ => none
  | d :: rest, c => if d = c then some 0 else (strchr rest c).map (fun i => i + 1)

/-- One call of the library function `strtok` with the one-character
delimiter set `delim`, on the text at which its saved pointer stands: `none`
when only delimiters are left, otherwise the token and the text after the
delimiter that ended it. -/
def strtok (s : CStr) (delim : Char) : Option (CStr × CStr) :=
  match s.dropWhile (fun d => d == delim) with
  | [] => none
  | c :: rest =>
    some ((c :: rest).takeWhile (fun d => d != delim),
          ((c :: rest).dropWhile (fun d => d != delim)).tail)

section mcalc
variable {α : Type} [Zero α] [Add α] [Sub α]

/-- The loop `while (token && index < rows * cols)` of `parse_matrix`; the
state is the current token with the saved pointer of `strtok`, `index` and
the values stored so far.  Every pass advances `index`, so `size` passes
suffice and the first argument bounds them. -/
def parse_values_loop (atof : CStr → α) (size : Nat) :
    Nat → Option (CStr × CStr) → Nat → List α → Nat × List α
  | 0, _, index, data => (index, data)
  | fuel + 1, token, index, data =>
    match token with
    | none => (index, data)
    | some (tok, saved) =>
      if index < size then
        parse_values_loop atof size fuel (strtok saved ',') (index + 1)
          (data.set index (atof tok))
      else (index, data)

/-- `parse_matrix(str)`: `none` is the NULL result.  The conversion `atof`
of a value text to a number is a parameter.  `rows` and `cols` are the
`int`s that `atoi` returns and `rows * cols` is their product as an `int`;
when that product is negative `calloc` cannot serve it and `create_matrix`
returns NULL. -/
def parse_matrix (atof : CStr → α) (str : CStr) : Option (matrix_t α) :=
  if str.head? ≠ some '(' ∨ strchr str ')' = none then none
  else
    match strchr str.tail ',', strchr str.tail ':', strchr str.tail ')' with
    | some comma1, some colon, some end_pos =>
      if colon ≤ comma1 ∨ end_pos ≤ colon then none
      else
        let rows := atoi str.tail
        let cols := atoi (str.tail.drop (comma1 + 1))
        if rows ≤ 0 ∨ cols ≤ 0 then none
        else if to_int (rows * cols) < 0 then none
        else
          let mat : matrix_t α := create_matrix rows cols
          let values_copy := (str.tail.drop (colon + 1)).take (end_pos - (colon + 1))
          let size := (to_int (rows * cols)).toNat
          let r := parse_values_loop atof size size (strtok values_copy ',') 0 mat.data
          if (r.1 : Int) ≠ to_int (rows * cols) then none
          else some { mat with data := r.2 }
    | _, _, _ => none

/-- The text printed by `%d`. -/
def print_int (n : Int) : CStr := (toString n).toList

/-- `print_matrix(mat)`: the line printed, without its newline.  The
rendering of one value (`%d` for a whole number, `%.10g` otherwise) is a
parameter. -/
def print_matrix (print_value : α → CStr) (mat : matrix_t α) : CStr :=
  let size := (mat.rows * mat.cols).toNat
  ['('] ++ print_int mat.rows ++ [','] ++ print_int mat.cols ++ [':']
    ++ [','].intercalate ((List.range size).map (fun i => print_value (mat.data.getD i 0)))
    ++ [')']

/-- The parsing loop of `builtin_mcalc` over the operand texts that are
left; the state is the matrices parsed so far and the number of calls of
`parse_matrix`.  The result holds `none` when a literal is rejected. -/
def parse_operands_loop (atof : CStr → α) :
    List CStr → List (matrix_t α) → Nat → Option (List (matrix_t α)) × Nat
  | [], matrices, calls => (some matrices, calls)
  | arg :: rest, matrices, calls =>
    match parse_matrix atof arg with
    | none => (none, calls + 1)
    | some m => parse_operands_loop atof rest (matrices ++ [m]) (calls + 1)

/-- The compatibility loop of `builtin_mcalc`: every matrix from index 1
on is compared with `matrices[0]`. -/
def all_compatible (matrices : List (matrix_t α)) : Bool :=
  match matrices with
  | [] => true
  | m0 :: rest => rest.all (fun m => matrices_compatible m0 m)

/-- What one call of `builtin_mcalc` does: its return value, the lines it
prints, and how often it called `parse_matrix` and
`compute_matrices_parallel`. -/
structure mcalc_t where
  ret : Int
  out : List CStr
  parse_calls : Nat
  compute_calls : Nat
  deriving DecidableEq

/-- `builtin_mcalc(cmd)`.  The reduction is given a recursion bound of
`matrix_count`; the result is `none` when that bound is reached. -/
def builtin_mcalc (atof : CStr → α) (print_value : α → CStr) (cmd : command_t) :
    Option mcalc_t :=
  if cmd.argc < 4 then
    some { ret := 1, out := ["ERR_MAT_INPUT".toList], parse_calls := 0, compute_calls := 0 }
  else
    let operation := cmd.args.getD (cmd.argc - 1) []
    if operation ≠ "ADD".toList ∧ operation ≠ "SUB".toList then
      some { ret := 1, out := ["ERR_MAT_INPUT".toList], parse_calls := 0, compute_calls := 0 }
    else
      let matrix_count := cmd.argc - 2
      if matrix_count < 2 then
        some { ret := 1, out := ["ERR_MAT_INPUT".toList], parse_calls := 0,
               compute_calls := 0 }
      else
        let operands := (List.range matrix_count).map (fun i => cmd.args.getD (i + 1) [])
        match parse_operands_loop atof operands [] 0 with
        | (none, calls) =>
          some { ret := 1, out := ["ERR_MAT_INPUT".toList], parse_calls := calls,
                 compute_calls := 0 }
        | (some matrices, calls) =>
          if !all_compatible matrices then
            some { ret := 1, out := ["ERR_MAT_INPUT".toList], parse_calls := calls,
                   compute_calls := 0 }
          else
            let op := if operation = "ADD".toList then 'A' else 'S'
            match compute_matrices_parallel matrix_count matrices op with
            | none => none
            | some none =>
              some { ret := 1, out := [], parse_calls := calls, compute_calls := 1 }
            | some (some result) =>
              some { ret := 0, out := [print_matrix print_value result],
                     parse_calls := calls, compute_calls := 1 }

end mcalc

/-! ## Piped execution (`execute_command.c`) -/

/-- A wait status as the macros `WIFEXITED` and `WEXITSTATUS` show it. -/
structure wait_status_t where
  WIFEXITED : Bool
  WEXITSTATUS : Int
  deriving DecidableEq

/-- The content of `status` after the call `waitpid(pid, &status, 0)`,
whose return value the code does not look at.  `child` is the wait status of
the child and `uninit` what the never-initialised variable `status` holds
before the call.  The shell installs a handler of `SIGCHLD` that collects
every terminated child (`sigchld_handler` in `signals.c`,
`waitpid(-1, NULL, WNOHANG)`); when it has collected the child before this
call (`reaped`), the call fails and stores nothing. -/
def waitpid (reaped : Bool) (child uninit : wait_status_t) : wait_status_t :=
  if reaped then uninit else child

/-- `execute_piped_commands(pipeline)`: the return value.  Process creation
is outside the embedding: whether `pipe` succeeded, the wait statuses of the
two children, whether the handler of `SIGCHLD` collected a child before the
shell waited for it, and the contents of the uninitialised variables
`status1` and `status2` are parameters. -/
def execute_piped_commands (pipe_ok : Bool) (child1 child2 : wait_status_t)
    (reaped1 reaped2 : Bool) (uninit1 uninit2 : wait_status_t)
    (pipeline : pipeline_t) : Int :=
  if !pipe_ok then -1
  else if !pipeline.is_background then
    let status1 := waitpid reaped1 child1 uninit1
    let status2 := waitpid reaped2 child2 uninit2
    if (status1.WIFEXITED ∧ status1.WEXITSTATUS = 127) ∨
        (status2.WIFEXITED ∧ status2.WEXITSTATUS = 127) then 127
    else if status2.WIFEXITED then status2.WEXITSTATUS
    else -1
  else -2

/-! ## Diagnostics of the parser (`parse_command.c`) -/

/-- The lines printed by `parse_single_command(cmd_str, cmd)`: `ERR_ARGS`
when `tokenize` returns -1. -/
def parse_single_command_out (cmd_str : CStr) : List CStr :=
  match tokenize cmd_str MAX_ARGS with
  | none => ["ERR_ARGS".toList]
  | some _ => []

/-- The lines printed by `parse_line(line)`: those of the left command and,
when the left command parsed and a pipe was found, those of the right
command. -/
def parse_line_out (line : CStr) : List CStr :=
  let bg := check_background line
  let sp := split_on_pipe bg.1
  match parse_single_command sp.1 with
  | none => parse_single_command_out sp.1
  | some _ =>
    if sp.2.2 then
      parse_single_command_out sp.1 ++ parse_single_command_out (sp.2.1.getD [])
    else parse_single_command_out sp.1

/-! ## Further reference notions -/

/-- The operand texts of an mcalc command: `args[1 .. argc - 1)`. -/
def mcalc_operands (cmd : command_t) : List CStr :=
  (List.range (cmd.argc - 2)).map (fun i => cmd.args.getD (i + 1) [])

/-- The last argument of a command: `args[argc - 1]`. -/
def last_arg (cmd : command_t) : CStr := cmd.args.getD (cmd.argc - 1) []

/-- The tokens that successive calls of `strtok` yield on a text: its
maximal non-empty runs of characters other than the delimiter.  Every call
consumes a character, so the first argument bounds the calls. -/
def strtok_tokens : Nat → CStr → Char → List CStr
  | 0, _, _ => []
  | n + 1, s, delim =>
    match strtok s delim with
    | none => []
    | some (tok, saved) => tok :: strtok_tokens n saved delim

/-- The number of commands, from command `i` on, that
`is_dangerous_command` classifies WARN (return value 1) on their
reconstructed string. -/
def warn_count (u : Nat → uninit_t) (dangerous_cmds : List CStr) : List command_t → Nat → Nat
  | [], _ => 0
  | cmd :: rest, i =>
    (if (is_dangerous_command (u i) dangerous_cmds (reconstruct_command_string cmd) (-1)).1 = 1
      then 1 else 0) + warn_count u dangerous_cmds rest (i + 1)

/-! ## Reference notions for the later statements -/

/-- The number of commands, from command `i` on and before the first one
that `is_dangerous_command` classifies BLOCK, that it classifies WARN. -/
def warn_count_before_block (u : Nat → uninit_t) (dangerous_cmds : List CStr) :
    List command_t → Nat → Nat
  | [], _ => 0
  | cmd :: rest, i =>
    if (is_dangerous_command (u i) dangerous_cmds (reconstruct_command_string cmd) (-1)).1 = 2
    then 0
    else
      (if (is_dangerous_command (u i) dangerous_cmds (reconstruct_command_string cmd) (-1)).1 = 1
        then 1 else 0) + warn_count_before_block u dangerous_cmds rest (i + 1)

/-- The text of the matrix literal `(rows,cols:v1,...,vn)` with all its
integers in canonical decimal form. -/
def matrix_literal (rows cols : Int) (values : List Int) : CStr :=
  ['('] ++ print_int rows ++ [','] ++ print_int cols ++ [':']
    ++ [','].intercalate (values.map print_int) ++ [')']

/-! # Theorems -/

/-! ## The dangerous-command matcher -/

theorem dropWhile_isspace_ne_nil {s : CStr} (h : has_word s) : s.dropWhile isspace ≠ [] := by
  obtain ⟨c, hc, hsp⟩ := h
  intro hnil
  have hall := List.dropWhile_eq_nil_iff.mp hnil c hc
  simp [hsp] at hall

theorem has_word_of_dropWhile {s : CStr} (h : s.dropWhile isspace ≠ []) : has_word s := by
  by_contra hw
  apply h
  rw [List.dropWhile_eq_nil_iff]
  intro c hc
  by_contra hsp
  exact hw ⟨c, hc, by simpa using hsp⟩

theorem sscanf_word_of_has_word {s : CStr} (h : has_word s) :
    sscanf_word s = some (base_command s) := by
  unfold sscanf_word base_command
  have hne := dropWhile_isspace_ne_nil h
  cases hd : s.dropWhile isspace with
  | nil => exact absurd hd hne
  | cons c rest => rfl

theorem sscanf_word_of_not_has_word {s : CStr} (h : ¬ has_word s) : sscanf_word s = none := by
  unfold sscanf_word
  cases hd : s.dropWhile isspace with
  | nil => rfl
  | cons c rest => exact absurd (has_word_of_dropWhile (by simp [hd])) h

theorem extract_base_command_of_has_word {s : CStr} (h : has_word s) (b : CStr) :
    extract_base_command s b = base_command s := by
  simp [extract_base_command, sscanf_word_of_has_word h]

theorem extract_base_command_of_not_has_word {s : CStr} (h : ¬ has_word s) (b : CStr) :
    extract_base_command s b = b := by
  simp [extract_base_command, sscanf_word_of_not_has_word h]

/-- What the scan returns, in terms of the content `cmd_base` of the
command's base buffer, for a denylist whose entries all have a word. -/
theorem is_dangerous_scan_level (cmd cmd_base stale : CStr) (dl : List CStr)
    (hdl : ∀ e ∈ dl, has_word e) (i : Nat) (fb : Bool) (idx : Int) :
    ((is_dangerous_scan cmd cmd_base stale dl i fb idx).1 = 2 ↔
        ∃ e ∈ dl, base_command e = cmd_base ∧ e = cmd) ∧
    ((is_dangerous_scan cmd cmd_base stale dl i fb idx).1 = 1 ↔
        (¬ ∃ e ∈ dl, base_command e = cmd_base ∧ e = cmd) ∧
          (fb = true ∨ ∃ e ∈ dl, base_command e = cmd_base)) ∧
    ((is_dangerous_scan cmd cmd_base stale dl i fb idx).1 = 0 ↔
        fb = false ∧ ¬ ∃ e ∈ dl, base_command e = cmd_base) := by
  induction dl generalizing i fb idx with
  | nil => cases fb <;> simp [is_dangerous_scan]
  | cons entry rest ih =>
    have hrest : ∀ e ∈ rest, has_word e := fun e he => hdl e (List.mem_cons_of_mem _ he)
    have hentry : extract_base_command entry stale = base_command entry :=
      extract_base_command_of_has_word (hdl entry (List.mem_cons_self _ _)) stale
    simp only [is_dangerous_scan, hentry]
    by_cases hb : cmd_base = base_command entry
    · by_cases hc : cmd = entry
      · subst hc
        simp [hb]
      · have hc2 : ¬ entry = cmd := fun h => hc h.symm
        obtain ⟨h2, h1, h0⟩ := ih hrest (i + 1) true (i : Int)
        simp only [hb, hc, if_true, if_false] at h2 h1 h0 ⊢
        refine ⟨?_, ?_, ?_⟩
        · rw [h2]; simp [hc2]
        · rw [h1]; simp [hc2]
        · rw [h0]; simp
    · have hb2 : ¬ base_command entry = cmd_base := fun h => hb h.symm
      obtain ⟨h2, h1, h0⟩ := ih hrest (i + 1) fb idx
      simp only [hb, if_false] at h2 h1 h0 ⊢
      refine ⟨?_, ?_, ?_⟩
      · rw [h2]; simp [hb2]
      · rw [h1]; simp [hb2]
      · rw [h0]; simp [hb2]

theorem base_command_ne_nil_of_has_word {s : CStr} (h : has_word s) : base_command s ≠ [] := by
  unfold base_command
  have hne := dropWhile_isspace_ne_nil h
  cases hd : s.dropWhile isspace with
  | nil => exact absurd hd hne
  | cons c rest =>
    have hc : isspace c = false := by
      have := List.head_dropWhile_not isspace s (by simp [hd])
      simpa [hd] using this
    simp [List.takeWhile_cons, hc]

/-- The return value of `is_dangerous_command` is BLOCK exactly when an
entry equals the command, for every command and every content of the
uninitialised buffers, when all denylist entries have a word. -/
theorem is_dangerous_command_block_iff (u : uninit_t) (dl : List CStr)
    (hdl : ∀ e ∈ dl, has_word e) (cmd : CStr) (idx : Int) :
    (is_dangerous_command u dl cmd idx).1 = 2 ↔ cmd ∈ dl := by
  unfold is_dangerous_command
  rw [(is_dangerous_scan_level cmd _ _ dl hdl 0 false idx).1]
  constructor
  · rintro ⟨e, he, -, rfl⟩; exact he
  · intro hmem
    exact ⟨cmd, hmem, (extract_base_command_of_has_word (hdl cmd hmem) _).symm, rfl⟩

/-- The three-way classification of `is_dangerous_command` for a command
that has a word and a denylist whose entries all have a word. -/
theorem is_dangerous_command_classifies (u : uninit_t) (dl : List CStr)
    (hdl : ∀ e ∈ dl, has_word e) (cmd : CStr) (hcmd : has_word cmd) (idx : Int) :
    ((is_dangerous_command u dl cmd idx).1 = 2 ↔ ∃ e ∈ dl, e = cmd) ∧
    ((is_dangerous_command u dl cmd idx).1 = 1 ↔
        (¬ ∃ e ∈ dl, e = cmd) ∧ ∃ e ∈ dl, base_command e = base_command cmd) ∧
    ((is_dangerous_command u dl cmd idx).1 = 0 ↔
        ¬ ∃ e ∈ dl, base_command e = base_command cmd) := by
  have hb : extract_base_command cmd u.cmd_base = base_command cmd :=
    extract_base_command_of_has_word hcmd _
  obtain ⟨h2, h1, h0⟩ := is_dangerous_scan_level cmd (base_command cmd)
    u.dangerous_cmd_base dl hdl 0 false idx
  have hex : (∃ e ∈ dl, base_command e = base_command cmd ∧ e = cmd) ↔ ∃ e ∈ dl, e = cmd := by
    constructor
    · rintro ⟨e, he, -, h⟩; exact ⟨e, he, h⟩
    · rintro ⟨e, he, h⟩; exact ⟨e, he, by rw [h], h⟩
  unfold is_dangerous_command
  simp only [hb]
  refine ⟨by rw [h2, hex], by rw [h1, hex]; simp, by rw [h0]; simp⟩

theorem reconstruct_foldl_enumFrom (l : List CStr) (n : Nat) (acc : CStr) :
    (l.enumFrom (n + 1)).foldl
      (fun cmd_str ia => (if 0 < ia.1 then cmd_str ++ [' '] else cmd_str) ++ ia.2) acc
    = acc ++ (l.map (fun a => ' ' :: a)).flatten := by
  induction l generalizing n acc with
  | nil => simp
  | cons a rest ih =>
    simp only [List.enumFrom_cons, List.foldl_cons, Nat.succ_pos, if_true, ih]
    simp

theorem intercalate_cons_eq (a : CStr) (rest : List CStr) :
    [' '].intercalate (a :: rest) = a ++ (rest.map (fun b => ' ' :: b)).flatten := by
  induction rest generalizing a with
  | nil => simp [List.intercalate]
  | cons b rest ih =>
    have := ih b
    simp only [List.intercalate, List.intersperse, List.flatten_cons] at this ⊢
    simp [this]

/-- The reconstructed command string is the first `argc` arguments joined
by single spaces. -/
theorem reconstruct_command_string_eq (cmd : command_t) :
    reconstruct_command_string cmd = join_args (cmd.args.take cmd.argc) := by
  unfold reconstruct_command_string join_args
  cases h : cmd.args.take cmd.argc with
  | nil => simp [List.intercalate]
  | cons a rest =>
    rw [intercalate_cons_eq]
    simp only [List.enum, List.enumFrom_cons, List.foldl_cons]
    rw [reconstruct_foldl_enumFrom]
    simp

/-- The loop of `check_dangerous_pipeline`: it blocks exactly when some
command's reconstructed string is a denylist entry, returns 0 otherwise, and
a block adds one to the blocked counter. -/
theorem check_dangerous_loop_block (u : Nat → uninit_t) (dl : List CStr)
    (hdl : ∀ e ∈ dl, has_word e) (cmds : List command_t) (i : Nat)
    (stats : command_stats_t) (out : List CStr) :
    ((check_dangerous_loop u dl cmds i stats out).1 = -1 ↔
        ∃ c ∈ cmds, reconstruct_command_string c ∈ dl) ∧
    ((check_dangerous_loop u dl cmds i stats out).1 = -1 ∨
        (check_dangerous_loop u dl cmds i stats out).1 = 0) ∧
    ((check_dangerous_loop u dl cmds i stats out).1 = -1 →
        (check_dangerous_loop u dl cmds i stats out).2.1.blocked_cmd_count
          = stats.blocked_cmd_count + 1) := by
  induction cmds generalizing i stats out with
  | nil => simp [check_dangerous_loop]
  | cons cmd rest ih =>
    have hblock := is_dangerous_command_block_iff (u i) dl hdl
      (reconstruct_command_string cmd) (-1)
    simp only [check_dangerous_loop]
    by_cases h2 : (is_dangerous_command (u i) dl (reconstruct_command_string cmd) (-1)).1 = 2
    · have hmem := hblock.mp h2
      simp only [h2, if_true]
      exact ⟨⟨fun _ => ⟨cmd, List.mem_cons_self _ _, hmem⟩, fun _ => trivial⟩,
        Or.inl trivial, fun _ => trivial⟩
    · have hnot : reconstruct_command_string cmd ∉ dl := fun hm => h2 (hblock.mpr hm)
      simp only [h2, if_false]
      have key : (∃ c ∈ cmd :: rest, reconstruct_command_string c ∈ dl) ↔
          ∃ c ∈ rest, reconstruct_command_string c ∈ dl := by
        simp [hnot]
      rw [key]
      by_cases h1 : (is_dangerous_command (u i) dl (reconstruct_command_string cmd) (-1)).1 = 1
      · simp only [h1, if_true]
        exact ih (i + 1) _ _
      · simp only [h1, if_false]
        exact ih (i + 1) _ _

theorem trim_spaces_head (str : CStr) (a : Char) (tl : CStr)
    (h : trim_spaces str = a :: tl) : isspace a = false := by
  unfold trim_spaces at h
  by_cases h0 : str = []
  · simp [h0] at h
  · simp only [h0, if_false] at h
    by_cases hs : str.dropWhile isspace = []
    · simp [hs] at h
    · simp only [hs, if_false] at h
      cases hd : str.dropWhile isspace with
      | nil => exact absurd hd hs
      | cons c rest =>
        have hc : isspace c = false := by
          have := List.head_dropWhile_not isspace str (by simp [hd])
          simpa [hd] using this
        rw [hd] at h
        simp only [List.take_succ_cons, List.cons.injEq] at h
        rw [← h.1]; exact hc

theorem load_dangerous_loop_has_word (lines : List CStr) (acc : List CStr)
    (hacc : ∀ e ∈ acc, has_word e) : ∀ e ∈ load_dangerous_loop lines acc, has_word e := by
  induction lines generalizing acc with
  | nil => simpa [load_dangerous_loop] using hacc
  | cons l rest ih =>
    simp only [load_dangerous_loop]
    by_cases hlen : acc.length < MAX_DANGEROUS_CMDS
    · simp only [hlen, if_true]
      by_cases hpos : 0 < (read_line MAX_CMD_LEN l).length
      · simp only [hpos, if_true]
        apply ih
        intro e he
        rcases List.mem_append.mp he with h | h
        · exact hacc e h
        · simp only [List.mem_singleton] at h
          subst h
          cases ht : read_line MAX_CMD_LEN l with
          | nil => simp [ht] at hpos
          | cons a tl =>
            have ha : isspace a = false := trim_spaces_head _ a tl ht
            exact ⟨a, by simp [MAX_CMD_LEN, List.take_succ_cons], ha⟩
      · simp only [hpos, if_false]
        exact ih acc hacc
    · simpa [hlen] using hacc

/-- Every entry stored by `load_dangerous_commands` has a word: it is a
trimmed line that is not empty. -/
theorem load_dangerous_commands_has_word (file : Option (List CStr)) :
    ∀ e ∈ load_dangerous_commands file, has_word e := by
  cases file with
  | none => simp [load_dangerous_commands]
  | some lines => exact load_dangerous_loop_has_word lines [] (by simp)

/-- With every content of the uninitialised buffers, the denylist holding
only `rm -rf /` gives BLOCK for `rm -rf /`, WARN for `rm -rf /tmp` and SAFE
for `ls -la`. -/
theorem is_dangerous_command_examples (u : uninit_t) :
    (is_dangerous_command u ["rm -rf /".toList] "rm -rf /".toList (-1)).1 = 2 ∧
    (is_dangerous_command u ["rm -rf /".toList] "rm -rf /tmp".toList (-1)).1 = 1 ∧
    (is_dangerous_command u ["rm -rf /".toList] "ls -la".toList (-1)).1 = 0 := by
  have hdl : ∀ e ∈ ["rm -rf /".toList], has_word e := by decide
  refine ⟨?_, ?_, ?_⟩
  · exact (is_dangerous_command_classifies u _ hdl _ (by decide) _).1.mpr (by decide)
  · exact (is_dangerous_command_classifies u _ hdl _ (by decide) _).2.1.mpr (by decide)
  · exact (is_dangerous_command_classifies u _ hdl _ (by decide) _).2.2.mpr (by decide)

/-- C1, at a command without a word.  The right-hand side of the line
`rm x |` has no argument, so its reconstructed string is empty; `sscanf`
stores nothing and `cmd_base` is compared as it was found.  When it still
holds `rm` the command is classified WARN against the denylist holding only
`rm -rf /`, although no entry has the base command of the empty string; when
it holds something else the same call answers SAFE.  With the stale `rm`
the line counts two warned commands. -/
theorem is_dangerous_command_reads_uninitialised :
    (parse_line "rm x |".toList).map
        (fun p => p.commands.map reconstruct_command_string)
      = some ["rm x".toList, []] ∧
    is_dangerous_command ⟨"rm".toList, []⟩ ["rm -rf /".toList] [] (-1) = (1, 0) ∧
    is_dangerous_command ⟨[], []⟩ ["rm -rf /".toList] [] (-1) = (0, -1) ∧
    (¬ ∃ e ∈ ["rm -rf /".toList], base_command e = base_command []) ∧
    (check_dangerous_pipeline (fun _ => ⟨"rm".toList, []⟩) ["rm -rf /".toList]
        ⟨[⟨["rm".toList, "x".toList], 2, none⟩, ⟨[], 0, none⟩], 2, false⟩
        ⟨0, 0, 0⟩).2.1.unblocked_dangerous_cmds_count = 2 := by
  decide

/-- C2: for a denylist as the loader stores it (every entry has a word),
`check_dangerous_pipeline` returns -1 exactly when one of the pipeline's
`cmd_count` commands has its arguments, joined by single spaces, equal to a
denylist entry, and otherwise returns 0; a block adds exactly one to
`blocked_cmd_count` and makes `execute_line` return -1 without executing the
pipeline; with an empty denylist the result is 0 and the statistics are
unchanged. -/
theorem check_dangerous_pipeline_block_iff (u : Nat → uninit_t) (dl : List CStr)
    (hdl : ∀ e ∈ dl, has_word e) (p : pipeline_t) (stats : command_stats_t) :
    ((check_dangerous_pipeline u dl p stats).1 = -1 ↔
        ∃ c ∈ p.commands.take p.cmd_count, join_args (c.args.take c.argc) ∈ dl) ∧
    ((check_dangerous_pipeline u dl p stats).1 = -1 ∨
        (check_dangerous_pipeline u dl p stats).1 = 0) ∧
    ((check_dangerous_pipeline u dl p stats).1 = -1 →
        (check_dangerous_pipeline u dl p stats).2.1.blocked_cmd_count
          = stats.blocked_cmd_count + 1) ∧
    (∀ (execute_pipeline : pipeline_t → Int) (line : CStr),
        has_consecutive_spaces line = false → parse_line line = some p →
        (check_dangerous_pipeline u dl p stats).1 = -1 →
        (execute_line u dl execute_pipeline stats line).result = -1 ∧
        (execute_line u dl execute_pipeline stats line).executed = none ∧
        (execute_line u dl execute_pipeline stats line).stats.blocked_cmd_count
          = stats.blocked_cmd_count + 1) ∧
    (dl = [] → check_dangerous_pipeline u dl p stats = (0, stats, [])) := by
  have hloop := check_dangerous_loop_block u dl hdl (p.commands.take p.cmd_count) 0 stats []
  have hjoin : (∃ c ∈ p.commands.take p.cmd_count, reconstruct_command_string c ∈ dl) ↔
      ∃ c ∈ p.commands.take p.cmd_count, join_args (c.args.take c.argc) ∈ dl := by
    simp only [reconstruct_command_string_eq]
  have hblocked : (check_dangerous_pipeline u dl p stats).1 = -1 →
      (check_dangerous_pipeline u dl p stats).2.1.blocked_cmd_count
        = stats.blocked_cmd_count + 1 := by
    unfold check_dangerous_pipeline
    by_cases h0 : dl.length = 0
    · simp [h0]
    · simp only [h0, if_false]; exact hloop.2.2
  refine ⟨?_, ?_, hblocked, ?_, ?_⟩
  · unfold check_dangerous_pipeline
    by_cases h0 : dl.length = 0
    · have hnil : dl = [] := List.length_eq_zero.mp h0
      subst hnil
      simp
    · simp only [h0, if_false]
      rw [hloop.1, hjoin]
  · unfold check_dangerous_pipeline
    by_cases h0 : dl.length = 0
    · simp [h0]
    · simp only [h0, if_false]; exact hloop.2.1
  · intro execute_pipeline line hsp hparse hchk
    have hb := hblocked hchk
    simp only [execute_line, hsp, hparse, hchk]
    simpa using hb
  · intro hnil
    subst hnil
    simp [check_dangerous_pipeline]

/-- C2 at the line `ls | rm -rf /` with the denylist holding `rm -rf /`:
the second command is an exact match and the pipeline is blocked. -/
theorem check_dangerous_pipeline_block_iff_witness :
    (∀ e ∈ ["rm -rf /".toList], has_word e) ∧
    (check_dangerous_pipeline (fun _ => ⟨[], []⟩) ["rm -rf /".toList]
        ⟨[⟨["ls".toList], 1, none⟩,
          ⟨["rm".toList, "-rf".toList, "/".toList], 3, none⟩], 2, false⟩ ⟨0, 0, 0⟩).1 = -1 ∧
    (check_dangerous_pipeline (fun _ => ⟨[], []⟩) ["rm -rf /".toList]
        ⟨[⟨["ls".toList], 1, none⟩,
          ⟨["rm".toList, "-rf".toList, "/".toList], 3, none⟩], 2, false⟩
        ⟨0, 0, 0⟩).2.1.blocked_cmd_count = 0 + 1 :=
  ⟨by decide,
   ((check_dangerous_pipeline_block_iff (fun _ => ⟨[], []⟩) ["rm -rf /".toList] (by decide)
      ⟨[⟨["ls".toList], 1, none⟩,
        ⟨["rm".toList, "-rf".toList, "/".toList], 3, none⟩], 2, false⟩ ⟨0, 0, 0⟩).1).mpr
      (by decide),
   (check_dangerous_pipeline_block_iff (fun _ => ⟨[], []⟩) ["rm -rf /".toList] (by decide)
      ⟨[⟨["ls".toList], 1, none⟩,
        ⟨["rm".toList, "-rf".toList, "/".toList], 3, none⟩], 2, false⟩ ⟨0, 0, 0⟩).2.2.1
      (by decide)⟩

/-! ## The tokenizer -/

theorem tail_dropWhile_length_lt (p : Char → Bool) (l : CStr) (h : l ≠ []) :
    ((l.dropWhile p).tail).length < l.length := by
  have h1 : (l.dropWhile p).length ≤ l.length := (List.dropWhile_sublist p).length_le
  have h2 : 0 < l.length := List.length_pos.mpr h
  rw [List.length_tail]
  omega

/-- Every pass of the loop body that stores a token consumes a character. -/
theorem tokenize_step_length {s tok rest : CStr} (h : tokenize_step s = some (tok, rest)) :
    rest.length < s.length := by
  unfold tokenize_step at h
  have hle : (s.dropWhile is_ws).length ≤ s.length := (List.dropWhile_sublist _).length_le
  cases hd : s.dropWhile is_ws with
  | nil => simp [hd] at h
  | cons c r =>
    rw [hd] at h hle
    simp only [List.length_cons] at hle
    by_cases hq : c = '"'
    · simp only [hq, if_true, Option.some.injEq, Prod.mk.injEq] at h
      rw [← h.2, List.length_tail]
      have := (List.dropWhile_sublist (fun d => d != '"') (l := r)).length_le
      omega
    · simp only [hq, if_false, Option.some.injEq, Prod.mk.injEq] at h
      rw [← h.2]
      have := tail_dropWhile_length_lt (fun d => !is_ws d) (c :: r) (by simp)
      simp only [List.length_cons] at this
      omega

theorem tokenize_step_nil : tokenize_step [] = none := rfl

theorem all_tokens_upto_fuel (n m : Nat) (s : CStr) (hn : s.length ≤ n) (hm : s.length ≤ m) :
    all_tokens_upto n s = all_tokens_upto m s := by
  induction n generalizing m s with
  | zero =>
    have : s = [] := List.length_eq_zero.mp (by omega)
    subst this
    cases m <;> simp [all_tokens_upto, tokenize_step_nil]
  | succ n ih =>
    cases m with
    | zero =>
      have : s = [] := List.length_eq_zero.mp (by omega)
      subst this
      simp [all_tokens_upto, tokenize_step_nil]
    | succ m =>
      simp only [all_tokens_upto]
      cases hs : tokenize_step s with
      | none => rfl
      | some tr =>
        obtain ⟨tok, rest⟩ := tr
        have := tokenize_step_length hs
        simp only
        rw [ih m rest (by omega) (by omega)]

theorem all_tokens_of_step_none {s : CStr} (h : tokenize_step s = none) : all_tokens s = [] := by
  unfold all_tokens
  cases hl : s.length with
  | zero => rfl
  | succ n => simp [all_tokens_upto, h]

theorem all_tokens_of_step_some {s tok rest : CStr} (h : tokenize_step s = some (tok, rest)) :
    all_tokens s = tok :: all_tokens rest := by
  have hlt := tokenize_step_length h
  unfold all_tokens
  cases hl : s.length with
  | zero => omega
  | succ n =>
    simp only [all_tokens_upto, h]
    rw [all_tokens_upto_fuel n rest.length rest (by omega) (le_refl _)]

theorem all_tokens_nil : all_tokens [] = [] := rfl

/-- The loop of `tokenize`, when the bound on the passes is what is left of
the budget: the final pointer and the tokens stored. -/
theorem tokenize_loop_eq (fuel : Nat) (ptr : CStr) (toks : List CStr) (max_args : Int)
    (h : (toks.length : Int) + fuel = max_args) :
    tokenize_loop fuel ptr toks max_args
      = ((ptr_after fuel ptr).getD [], toks ++ (all_tokens ptr).take fuel) := by
  induction fuel generalizing ptr toks with
  | zero => simp [tokenize_loop, ptr_after]
  | succ fuel ih =>
    simp only [tokenize_loop]
    by_cases hp : ptr = []
    · subst hp
      simp [ptr_after, tokenize_step_nil, all_tokens_nil]
    · have hlt : (toks.length : Int) < max_args := by push_cast at h; omega
      simp only [hp, hlt, ne_eq, not_false_eq_true, and_self, if_true]
      cases hs : tokenize_step ptr with
      | none => simp [ptr_after, hs, all_tokens_of_step_none hs]
      | some tr =>
        obtain ⟨tok, rest⟩ := tr
        simp only [ptr_after, hs, all_tokens_of_step_some hs]
        rw [ih rest (toks ++ [tok]) (by simp only [List.length_append, List.length_singleton]; push_cast at h ⊢; omega)]
        simp

/-- The result of `tokenize` for a budget that is not negative. -/
theorem tokenize_eq (s : CStr) (max_args : Int) (h : 0 ≤ max_args) :
    tokenize s max_args
      = if max_args.toNat ≤ ((all_tokens s).take max_args.toNat).length ∧
            (ptr_after max_args.toNat s).getD [] ≠ [] then none
        else some ((all_tokens s).take max_args.toNat) := by
  unfold tokenize
  rw [tokenize_loop_eq max_args.toNat s [] max_args (by simp; omega)]
  simp only [List.nil_append]
  have hiff : max_args ≤ ((List.take max_args.toNat (all_tokens s)).length : Int) ↔
      max_args.toNat ≤ (List.take max_args.toNat (all_tokens s)).length := by
    omega
  simp only [hiff]

theorem ptr_after_all_tokens (k : Nat) (s r : CStr) (h : ptr_after k s = some r) :
    all_tokens s = (all_tokens s).take k ++ all_tokens r ∧ ((all_tokens s).take k).length = k := by
  induction k generalizing s with
  | zero =>
    simp only [ptr_after, Option.some.injEq] at h
    subst h
    simp
  | succ k ih =>
    simp only [ptr_after] at h
    cases hs : tokenize_step s with
    | none => simp [hs] at h
    | some tr =>
      obtain ⟨tok, rest⟩ := tr
      simp only [hs] at h
      obtain ⟨h1, h2⟩ := ih rest h
      rw [all_tokens_of_step_some hs]
      simp only [List.take_succ_cons, List.cons_append, List.length_cons]
      exact ⟨by rw [← h1], by rw [h2]⟩

theorem ptr_after_of_length (k : Nat) (s : CStr) (h : k ≤ (all_tokens s).length) :
    ∃ r, ptr_after k s = some r := by
  induction k generalizing s with
  | zero => exact ⟨s, rfl⟩
  | succ k ih =>
    cases hs : tokenize_step s with
    | none => rw [all_tokens_of_step_none hs] at h; simp at h
    | some tr =>
      obtain ⟨tok, rest⟩ := tr
      rw [all_tokens_of_step_some hs] at h
      simp only [List.length_cons] at h
      obtain ⟨r, hr⟩ := ih rest (by omega)
      exact ⟨r, by simp [ptr_after, hs, hr]⟩

theorem runs_from_eq (s cur : CStr) :
    runs_from s cur
      = (if cur ++ s.takeWhile (fun d => !is_ws d) = [] then []
          else [cur ++ s.takeWhile (fun d => !is_ws d)])
        ++ runs_from ((s.dropWhile (fun d => !is_ws d)).tail) [] := by
  induction s generalizing cur with
  | nil => simp [runs_from]
  | cons c rest ih =>
    by_cases hc : is_ws c = true
    · by_cases hcur : cur = [] <;> simp [runs_from, hc, hcur, List.takeWhile_cons, List.dropWhile_cons]
    · simp only [Bool.not_eq_true] at hc
      simp only [runs_from, hc, Bool.false_eq_true, if_false, List.takeWhile_cons,
        List.dropWhile_cons, Bool.not_false, if_true]
      rw [ih (cur ++ [c])]
      simp

theorem runs_from_dropWhile (s : CStr) :
    runs_from s [] = runs_from (s.dropWhile is_ws) [] := by
  induction s with
  | nil => rfl
  | cons c rest ih =>
    by_cases hc : is_ws c = true
    · simp [runs_from, hc, List.dropWhile_cons, ih]
    · simp [hc, List.dropWhile_cons]

theorem tokenize_step_quote_free (s : CStr) (hq : '"' ∉ s) :
    tokenize_step s =
      match s.dropWhile is_ws with
      | [] => none
      | c :: r => some ((c :: r).takeWhile (fun d => !is_ws d),
                        ((c :: r).dropWhile (fun d => !is_ws d)).tail) := by
  unfold tokenize_step
  cases hd : s.dropWhile is_ws with
  | nil => rfl
  | cons c r =>
    have hmem : c ∈ s := (List.dropWhile_sublist is_ws).subset (by rw [hd]; simp)
    have hne : c ≠ '"' := fun h => hq (h ▸ hmem)
    simp [hne]

theorem all_tokens_upto_eq_runs (n : Nat) (s : CStr) (hn : s.length ≤ n) (hq : '"' ∉ s) :
    all_tokens_upto n s = runs s := by
  induction n generalizing s with
  | zero =>
    have : s = [] := List.length_eq_zero.mp (by omega)
    subst this
    rfl
  | succ n ih =>
    simp only [all_tokens_upto]
    have hstep := tokenize_step_quote_free s hq
    unfold runs
    rw [runs_from_dropWhile]
    cases hd : s.dropWhile is_ws with
    | nil =>
      rw [hd] at hstep
      simp [hstep, runs_from]
    | cons c r =>
      rw [hd] at hstep
      simp only at hstep
      have hc : is_ws c = false := by
        have := List.head_dropWhile_not is_ws s (by simp [hd])
        simpa [hd] using this
      have hlen := tokenize_step_length hstep
      have hsub : ((c :: r).dropWhile (fun d => !is_ws d)).tail.Sublist s :=
        ((List.tail_sublist _).trans (List.dropWhile_sublist _)).trans
          (hd ▸ List.dropWhile_sublist is_ws)
      have hq2 : '"' ∉ ((c :: r).dropWhile (fun d => !is_ws d)).tail :=
        fun hm => hq (hsub.subset hm)
      simp only [hstep]
      rw [ih _ (by omega) hq2, runs_from_eq (c :: r) []]
      simp [List.takeWhile_cons, hc, runs]

/-- For input without a quote the tokens are the maximal runs of characters
that are not white space. -/
theorem all_tokens_eq_runs (s : CStr) (hq : '"' ∉ s) : all_tokens s = runs s :=
  all_tokens_upto_eq_runs s.length s (le_refl _) hq

theorem tokenize_none_of_lt (max_args : Int) (h0 : 0 ≤ max_args) (s : CStr)
    (h : max_args < ((all_tokens s).length : Int)) : tokenize s max_args = none := by
  have hn : max_args.toNat < (all_tokens s).length := by omega
  obtain ⟨r, hr⟩ := ptr_after_of_length max_args.toNat s (by omega)
  obtain ⟨h1, h2⟩ := ptr_after_all_tokens _ s r hr
  have hrne : r ≠ [] := by
    intro hnil
    subst hnil
    rw [all_tokens_nil, List.append_nil] at h1
    rw [← h1] at h2
    omega
  rw [tokenize_eq s max_args h0]
  simp [hr, hrne, h2]

/-- C9: for every `max_args ≥ 0`, `tokenize` returns -1 on every string
that holds more than `max_args` tokens; for a string without a quote these
are its maximal runs of characters that are not white space. -/
theorem tokenize_too_many_tokens (max_args : Int) (h0 : 0 ≤ max_args) (s : CStr) :
    (max_args < ((all_tokens s).length : Int) → tokenize s max_args = none) ∧
    ('"' ∉ s → max_args < ((runs s).length : Int) → tokenize s max_args = none) := by
  refine ⟨tokenize_none_of_lt max_args h0 s, fun hq h => ?_⟩
  rw [← all_tokens_eq_runs s hq] at h
  exact tokenize_none_of_lt max_args h0 s h

/-- C9 at `a b c` with a budget of two tokens. -/
theorem tokenize_too_many_tokens_witness :
    (0 : Int) ≤ 2 ∧ '"' ∉ "a b c".toList ∧ (2 : Int) < ((runs "a b c".toList).length : Int) ∧
    tokenize "a b c".toList 2 = none :=
  ⟨by decide, by decide, by decide,
   (tokenize_too_many_tokens 2 (by decide) "a b c".toList).2 (by decide) (by decide)⟩

/-- C10: with a budget of two tokens `tokenize` returns -1 on `a b` followed
by two spaces although the string holds two tokens, and with a budget of
one token on a quoted `a` followed by a space; in the shell the line
`a b c d e f "g" | x`, whose left command has seven tokens, is rejected
while `a b c d e f g | x` is parsed. -/
theorem tokenize_fails_on_trailing_space :
    all_tokens "a b  ".toList = ["a".toList, "b".toList] ∧
    tokenize "a b  ".toList 2 = none ∧
    all_tokens "\"a\" ".toList = ["a".toList] ∧
    tokenize "\"a\" ".toList 1 = none ∧
    tokenize "a b ".toList 2 = some ["a".toList, "b".toList] ∧
    (all_tokens "a b c d e f \"g\" ".toList).length = 7 ∧
    parse_line "a b c d e f \"g\" | x".toList = none ∧
    (parse_line "a b c d e f g | x".toList).isSome = true := by
  decide

theorem takeWhile_ne_append (q : Char) (body rest : CStr) (h : q ∉ body) :
    (body ++ q :: rest).takeWhile (fun d => d != q) = body ∧
    (body ++ q :: rest).dropWhile (fun d => d != q) = q :: rest := by
  induction body with
  | nil => simp [List.takeWhile_cons, List.dropWhile_cons]
  | cons b body ih =>
    have hb : b ≠ q := fun hbq => h (by simp [hbq])
    have hrest : q ∉ body := fun hm => h (List.mem_cons_of_mem _ hm)
    obtain ⟨h1, h2⟩ := ih hrest
    simp [List.takeWhile_cons, List.dropWhile_cons, hb, h1, h2]

theorem tokenize_step_quoted (r body rest : CStr)
    (hr : r.dropWhile is_ws = '"' :: (body ++ '"' :: rest)) (hbody : '"' ∉ body) :
    tokenize_step r = some (body, rest) := by
  unfold tokenize_step
  rw [hr]
  obtain ⟨h1, h2⟩ := takeWhile_ne_append '"' body rest hbody
  simp [h1, h2]

/-- A successful `tokenize` returns the first `max_args` tokens of the
string. -/
theorem tokenize_some_eq_take (s : CStr) (max_args : Int) (h0 : 0 ≤ max_args)
    (toks : List CStr) (h : tokenize s max_args = some toks) :
    toks = (all_tokens s).take max_args.toNat := by
  rw [tokenize_eq s max_args h0] at h
  split at h
  · exact absurd h (by simp)
  · exact (Option.some.inj h).symm

/-- C8: whenever the tokenizer stands, after `k` tokens and the white
space that follows them, at a quote that has a later quote, token `k` is
exactly the characters strictly between the two quotes (white space
included, the quotes removed) and tokenizing goes on after the closing
quote; a successful `tokenize` with a budget above `k` returns that token
at index `k`. -/
theorem tokenize_quoted_token (s r body rest : CStr) (k : Nat)
    (hk : ptr_after k s = some r)
    (hr : r.dropWhile is_ws = '"' :: (body ++ '"' :: rest))
    (hbody : '"' ∉ body) :
    (all_tokens s).get? k = some body ∧
    all_tokens s = (all_tokens s).take k ++ body :: all_tokens rest ∧
    ∀ (max_args : Int) (toks : List CStr), (k : Int) < max_args →
      tokenize s max_args = some toks → toks.get? k = some body := by
  obtain ⟨h1, h2⟩ := ptr_after_all_tokens k s r hk
  have hstep := tokenize_step_quoted r body rest hr hbody
  rw [all_tokens_of_step_some hstep] at h1
  have hget : (all_tokens s).get? k = some body := by
    rw [h1, List.get?_eq_getElem?, List.getElem?_append_right (by omega)]
    simp [h2]
  refine ⟨hget, h1, ?_⟩
  intro max_args toks hlt htok
  have := tokenize_some_eq_take s max_args (by omega) toks htok
  subst this
  rw [List.get?_eq_getElem?, List.getElem?_take_of_lt (by omega), ← List.get?_eq_getElem?]
  exact hget

/-- C8 at the input `"a b" c` and, for a quoted token that is not the
first, at `x "a b" c`. -/
theorem tokenize_quoted_token_witness :
    tokenize "\"a b\" c".toList 7 = some ["a b".toList, "c".toList] ∧
    (all_tokens "\"a b\" c".toList).get? 0 = some "a b".toList ∧
    (all_tokens "x \"a b\" c".toList).get? 1 = some "a b".toList :=
  ⟨by decide,
   (tokenize_quoted_token "\"a b\" c".toList "\"a b\" c".toList "a b".toList " c".toList 0
      (by decide) (by decide) (by decide)).1,
   (tokenize_quoted_token "x \"a b\" c".toList "\"a b\" c".toList "a b".toList " c".toList 1
      (by decide) (by decide) (by decide)).1⟩

/-! ## The command parser -/

theorem scan_redirect_cons_of_ne (t : CStr) (rest : List CStr) (target : Option CStr)
    (h : t ≠ ['2', '>']) :
    scan_redirect (t :: rest) target
      = (t :: (scan_redirect rest target).1, (scan_redirect rest target).2) := by
  cases rest with
  | nil => simp [scan_redirect]
  | cons t2 rest2 => simp [scan_redirect, h]

/-- The loop of `parse_single_command` from index `i` on computes the scan
of the remaining tokens. -/
theorem parse_args_loop_eq (tokens : List CStr) (fuel i : Nat) (args : List CStr)
    (arg_index : Nat) (sf : Option CStr) (hfuel : tokens.length ≤ i + fuel) :
    parse_args_loop tokens tokens.length fuel i args arg_index sf
      = (args ++ (scan_redirect (tokens.drop i) sf).1,
         arg_index + (scan_redirect (tokens.drop i) sf).1.length,
         (scan_redirect (tokens.drop i) sf).2) := by
  induction fuel generalizing i args arg_index sf with
  | zero =>
    have : tokens.drop i = [] := List.drop_eq_nil_of_le (by omega)
    simp [parse_args_loop, this, scan_redirect]
  | succ fuel ih =>
    simp only [parse_args_loop]
    by_cases hi : i < tokens.length
    · have hdrop : tokens.drop i = tokens.getD i [] :: tokens.drop (i + 1) := by
        rw [List.getD_eq_getElem _ _ hi]
        exact List.drop_eq_getElem_cons hi
      simp only [hi, if_true]
      by_cases h2 : tokens.getD i [] = ['2', '>'] ∧ i + 1 < tokens.length
      · have hdrop2 : tokens.drop (i + 1) = tokens.getD (i + 1) [] :: tokens.drop (i + 2) := by
          rw [List.getD_eq_getElem _ _ h2.2]
          exact List.drop_eq_getElem_cons h2.2
        simp only [h2, and_self, if_true]
        rw [ih (i + 2) args arg_index _ (by omega), hdrop, hdrop2, h2.1]
        simp [scan_redirect]
      · simp only [h2, if_false]
        rw [ih (i + 1) _ _ sf (by omega), hdrop]
        by_cases ht : tokens.getD i [] = ['2', '>']
        · have hlast : tokens.drop (i + 1) = [] :=
            List.drop_eq_nil_of_le (by
              by_contra hc
              exact h2 ⟨ht, by omega⟩)
          simp [hlast, scan_redirect]
        · rw [scan_redirect_cons_of_ne _ _ _ ht]
          simp
          omega
    · have : tokens.drop i = [] := List.drop_eq_nil_of_le (by omega)
      simp [hi, this, scan_redirect]

/-- The result of `parse_single_command` on a substring that tokenizes:
the arguments and the redirect target of the left-to-right scan. -/
theorem parse_single_command_of_tokens (cmd_str : CStr) (tokens : List CStr)
    (h : tokenize cmd_str MAX_ARGS = some tokens) :
    parse_single_command cmd_str
      = some { args := (scan_redirect tokens none).1,
               argc := (scan_redirect tokens none).1.length,
               stderr_file := (scan_redirect tokens none).2 } := by
  unfold parse_single_command
  simp only [h]
  rw [parse_args_loop_eq tokens tokens.length 0 [] 0 none (by omega)]
  simp

/-- C7: when the command substring tokenizes into `tokens`,
`parse_single_command` succeeds with the arguments and the redirect target
given by the left-to-right scan (a `2>` that is not the last token takes the
next token as target and both are left out, every other token is copied in
order) and `argc` is the number of arguments. -/
theorem parse_single_command_scan (cmd_str : CStr) (tokens : List CStr)
    (h : tokenize cmd_str MAX_ARGS = some tokens) :
    parse_single_command cmd_str
      = some { args := (scan_redirect tokens none).1,
               argc := (scan_redirect tokens none).1.length,
               stderr_file := (scan_redirect tokens none).2 } := by
  unfold parse_single_command
  simp only [h]
  rw [parse_args_loop_eq tokens tokens.length 0 [] 0 none (by omega)]
  simp

/-- C7 at `cmd1 2> errfile.txt`. -/
theorem parse_single_command_scan_witness :
    tokenize "cmd1 2> errfile.txt".toList MAX_ARGS
      = some ["cmd1".toList, "2>".toList, "errfile.txt".toList] ∧
    parse_single_command "cmd1 2> errfile.txt".toList
      = some { args := ["cmd1".toList], argc := 1, stderr_file := some "errfile.txt".toList } :=
  ⟨by decide,
   parse_single_command_scan "cmd1 2> errfile.txt".toList
     ["cmd1".toList, "2>".toList, "errfile.txt".toList] (by decide)⟩

/-! ## The pipeline parser -/

theorem split_on_pipe_absent (s : CStr) (h : '|' ∉ s) : split_on_pipe s = (s, none, false) := by
  unfold split_on_pipe
  have : s.dropWhile (fun d => d != '|') = [] := by
    rw [List.dropWhile_eq_nil_iff]
    intro c hc
    have : c ≠ '|' := fun hcp => h (hcp ▸ hc)
    simpa using this
  rw [this]

theorem split_on_pipe_first (l r : CStr) (h : '|' ∉ l) :
    split_on_pipe (l ++ '|' :: r) = (l, some r, true) := by
  unfold split_on_pipe
  obtain ⟨h1, h2⟩ := takeWhile_ne_append '|' l r h
  rw [h2, h1]

/-- C5: on every line that `parse_line` accepts, with `s` the line as
`check_background` leaves it: when `s` holds no `|` the pipeline has
`cmd_count = 1` and its only command is the parse of `s`; when `s` is `l`,
a `|` and `r` with no `|` in `l`, the pipeline has `cmd_count = 2`, command
0 is the parse of `l` and command 1 the parse of all of `r`. -/
theorem parse_line_split (line : CStr) (p : pipeline_t) (h : parse_line line = some p) :
    ('|' ∉ (check_background line).1 →
        p.cmd_count = 1 ∧ p.commands.length = 1 ∧
        p.commands.get? 0 = parse_single_command (check_background line).1) ∧
    (∀ l r : CStr, (check_background line).1 = l ++ '|' :: r → '|' ∉ l →
        p.cmd_count = 2 ∧ p.commands.length = 2 ∧
        p.commands.get? 0 = parse_single_command l ∧
        p.commands.get? 1 = parse_single_command r) := by
  simp only [parse_line, parse_stripped] at h
  constructor
  · intro hno
    rw [split_on_pipe_absent _ hno] at h
    simp only at h
    cases hl : parse_single_command (check_background line).1 with
    | none => simp [hl] at h
    | some left =>
      simp only [hl, Bool.false_eq_true, if_false, Option.some.injEq] at h
      subst h
      simp
  · intro l r hs hl
    rw [hs, split_on_pipe_first l r hl] at h
    simp only [if_true, Option.getD_some] at h
    cases hleft : parse_single_command l with
    | none => simp [hleft] at h
    | some left =>
      cases hright : parse_single_command r with
      | none => simp [hleft, hright] at h
      | some right =>
        simp only [hleft, hright, Option.some.injEq] at h
        subst h
        simp

/-- C5 at `a | b | c &`: the right-hand command keeps the second `|`. -/
theorem parse_line_split_witness :
    parse_line "a | b | c &".toList
      = some ⟨[⟨["a".toList], 1, none⟩,
               ⟨["b".toList, "|".toList, "c".toList], 3, none⟩], 2, true⟩ ∧
    ((⟨[⟨["a".toList], 1, none⟩,
        ⟨["b".toList, "|".toList, "c".toList], 3, none⟩], 2, true⟩ : pipeline_t).commands.get? 1
      = parse_single_command " b | c ".toList) :=
  ⟨by decide,
   ((parse_line_split "a | b | c &".toList
      ⟨[⟨["a".toList], 1, none⟩, ⟨["b".toList, "|".toList, "c".toList], 3, none⟩], 2, true⟩
      (by decide)).2 "a ".toList " b | c ".toList (by decide) (by decide)).2.2.2⟩

/-- The backward scan stops at an index `k` at most the start, every
character strictly after `k` up to the start is white space, and `k` is 0
or the character at `k` is not white space. -/
theorem skip_trailing_space_spec (s : CStr) (p : Nat) :
    skip_trailing_space s p ≤ p ∧
    (∀ j, skip_trailing_space s p < j → j ≤ p → isspace (s.getD j ' ') = true) ∧
    (skip_trailing_space s p = 0 ∨ isspace (s.getD (skip_trailing_space s p) ' ') = false) := by
  induction p with
  | zero => exact ⟨le_refl _, fun j hj hj0 => by simp [skip_trailing_space] at hj; omega, Or.inl rfl⟩
  | succ p ih =>
    simp only [skip_trailing_space]
    by_cases hsp : isspace (s.getD (p + 1) ' ') = true
    · simp only [hsp, if_true]
      obtain ⟨h1, h2, h3⟩ := ih
      refine ⟨by omega, ?_, h3⟩
      intro j hj hjp
      by_cases hjeq : j = p + 1
      · rw [hjeq]; exact hsp
      · exact h2 j hj (by omega)
    · simp only [hsp, Bool.false_eq_true, if_false]
      refine ⟨le_refl _, ?_, Or.inr (by simp [hsp])⟩
      intro j hj hjp
      omega

/-- A non-empty line splits at the index where the backward scan of
`check_background` stops: the characters after it are all white space. -/
theorem check_background_split (line : CStr) (hne : line ≠ []) :
    ∃ (pre post : CStr) (c : Char),
      line = pre ++ c :: post ∧ (∀ d ∈ post, isspace d = true) ∧
      (pre = [] ∨ isspace c = false) ∧
      check_background line = if c = '&' then (pre, true) else (line, false) := by
  have hlen : 0 < line.length := List.length_pos.mpr hne
  obtain ⟨h1, h2, h3⟩ := skip_trailing_space_spec line (line.length - 1)
  have hk : skip_trailing_space line (line.length - 1) < line.length := by omega
  refine ⟨line.take (skip_trailing_space line (line.length - 1)),
    line.drop (skip_trailing_space line (line.length - 1) + 1),
    line.getD (skip_trailing_space line (line.length - 1)) ' ', ?_, ?_, ?_, ?_⟩
  · rw [List.getD_eq_getElem _ _ hk, ← List.drop_eq_getElem_cons hk, List.take_append_drop]
  · intro d hd
    obtain ⟨j, hj, rfl⟩ := List.mem_iff_getElem.mp hd
    rw [List.getElem_drop]
    rw [List.length_drop] at hj
    have := h2 (skip_trailing_space line (line.length - 1) + 1 + j) (by omega) (by omega)
    rwa [List.getD_eq_getElem _ _ (by omega)] at this
  · rcases h3 with h0 | hns
    · left; rw [h0]; rfl
    · right; exact hns
  · simp only [check_background, hne, if_false]

theorem filter_not_isspace_of_all (post : CStr) (h : ∀ d ∈ post, isspace d = true) :
    post.filter (fun c => !isspace c) = [] := by
  rw [List.filter_eq_nil_iff]
  intro d hd
  simp [h d hd]

/-- C6: on every non-empty line that `parse_line` accepts, `is_background`
is true exactly when the last character of the line that is not white space
is `&`; the line is then `pre`, that `&` and trailing white space, and the
pipeline is built by splitting and tokenizing `pre` alone. -/
theorem parse_line_background (line : CStr) (hne : line ≠ []) (p : pipeline_t)
    (h : parse_line line = some p) :
    (p.is_background = true ↔
        (line.filter (fun c => !isspace c)).getLast? = some '&') ∧
    (p.is_background = true →
        ∃ pre post : CStr, line = pre ++ '&' :: post ∧ (∀ d ∈ post, isspace d = true) ∧
          parse_stripped pre true = some p) := by
  obtain ⟨pre, post, c, hline, hpost, hc, hcb⟩ := check_background_split line hne
  have hbg : p.is_background = (check_background line).2 := by
    simp only [parse_line, parse_stripped] at h
    cases hl : parse_single_command (split_on_pipe (check_background line).1).1 with
    | none => simp [hl] at h
    | some left =>
      simp only [hl] at h
      split at h
      · cases hr : parse_single_command
            ((split_on_pipe (check_background line).1).2.1.getD []) with
        | none => simp [hr] at h
        | some right =>
          simp only [hr, Option.some.injEq] at h
          rw [← h]
      · simp only [Option.some.injEq] at h
        rw [← h]
  have hfilter : (line.filter (fun c => !isspace c)).getLast? = some '&' ↔ c = '&' := by
    rw [hline, List.filter_append, List.filter_cons, filter_not_isspace_of_all post hpost]
    by_cases hsp : isspace c = true
    · have hpre : pre = [] := by
        rcases hc with h0 | h1
        · exact h0
        · rw [hsp] at h1; exact absurd h1 (by simp)
      have hne2 : c ≠ '&' := by
        intro hamp
        rw [hamp] at hsp
        exact absurd hsp (by decide)
      simp [hsp, hpre, hne2]
    · simp only [Bool.not_eq_true] at hsp
      simp [hsp, List.getLast?_append, eq_comm]
  by_cases hamp : c = '&'
  · rw [hamp] at hcb hline
    simp only [if_true] at hcb
    have hb : p.is_background = true := by rw [hbg, hcb]
    refine ⟨⟨fun _ => hfilter.mpr hamp, fun _ => hb⟩, fun _ => ⟨pre, post, hline, hpost, ?_⟩⟩
    rw [← h]
    simp only [parse_line, hcb]
  · simp only [hamp, if_false] at hcb
    have hb : p.is_background = false := by rw [hbg, hcb]
    rw [hb]
    exact ⟨⟨fun hf => absurd hf (by decide), fun hf => absurd (hfilter.mp hf) hamp⟩,
      fun hf => absurd hf (by decide)⟩

/-- C6 at `left | right &` and `left | right`. -/
theorem parse_line_background_witness :
    parse_line "left | right &".toList
      = some ⟨[⟨["left".toList], 1, none⟩, ⟨["right".toList], 1, none⟩], 2, true⟩ ∧
    parse_line "left | right".toList
      = some ⟨[⟨["left".toList], 1, none⟩, ⟨["right".toList], 1, none⟩], 2, false⟩ ∧
    ("left | right &".toList.filter (fun c => !isspace c)).getLast? = some '&' :=
  ⟨by decide, by decide,
   (parse_line_background "left | right &".toList (by decide)
      ⟨[⟨["left".toList], 1, none⟩, ⟨["right".toList], 1, none⟩], 2, true⟩ (by decide)).1.mp
      rfl⟩

/-! ## The matrix reduction -/

section matrix_theorems
set_option linter.unusedSectionVars false
variable {α : Type} [AddCommGroup α]

theorem data_eq_map_range (m : matrix_t α) (n : Nat) (h : m.data.length = n) :
    (List.range n).map (fun i => m.data.getD i 0) = m.data := by
  apply List.ext_getElem
  · simp [h]
  · intro i h1 h2
    simp only [List.length_map, List.length_range] at h1
    simp [List.getElem?_eq_getElem h2]

theorem pointwise_el (r c : Int) (m : matrix_t α) (h : has_shape r c m) :
    pointwise r c (el m) = m := by
  obtain ⟨h1, h2, h3⟩ := h
  cases m with
  | mk rows cols data =>
    simp only at h1 h2 h3
    subst h1 h2
    simp only [pointwise, el, matrix_t.mk.injEq, true_and]
    exact data_eq_map_range ⟨rows, cols, data⟩ _ h3

theorem pointwise_has_shape (r c : Int) (f : Nat → α) : has_shape r c (pointwise r c f) := by
  simp [has_shape, pointwise]

theorem el_pointwise (r c : Int) (f : Nat → α) (i : Nat) (hi : i < (r * c).toNat) :
    el (pointwise r c f) i = f i := by
  simp [el, pointwise, List.getD_eq_getElem?_getD, List.getElem?_map, List.getElem?_range hi]

theorem pointwise_congr (r c : Int) (f g : Nat → α)
    (h : ∀ i, i < (r * c).toNat → f i = g i) : pointwise r c f = pointwise r c g := by
  simp only [pointwise, matrix_t.mk.injEq, true_and]
  apply List.map_congr_left
  intro i hi
  exact h i (List.mem_range.mp hi)

theorem matrix_operation_thread_add (r c : Int) (a b : matrix_t α)
    (ha : has_shape r c a) (hb : has_shape r c b) :
    matrix_operation_thread a b 'A' = some (pointwise r c (fun i => el a i + el b i)) := by
  obtain ⟨ha1, ha2, -⟩ := ha
  obtain ⟨hb1, hb2, -⟩ := hb
  simp [matrix_operation_thread, matrices_compatible, ha1, ha2, hb1, hb2, create_matrix,
    pointwise, el]

theorem matrix_operation_thread_sub (r c : Int) (a b : matrix_t α)
    (ha : has_shape r c a) (hb : has_shape r c b) :
    matrix_operation_thread a b 'S' = some (pointwise r c (fun i => el a i - el b i)) := by
  obtain ⟨ha1, ha2, -⟩ := ha
  obtain ⟨hb1, hb2, -⟩ := hb
  have hne : ¬ ('S' = 'A') := by decide
  simp [matrix_operation_thread, matrices_compatible, ha1, ha2, hb1, hb2, create_matrix,
    pointwise, el, hne]


theorem pair_results_cons (a b : matrix_t α) (rest : List (matrix_t α)) (k : Nat) (op : Char) :
    pair_results (a :: b :: rest) (k + 1) op
      = matrix_operation_thread a b op :: pair_results rest k op := by
  have key : ∀ j, (a :: b :: rest).get? (j + 2) = rest.get? j := fun j => rfl
  unfold pair_results
  rw [List.range_succ_eq_map, List.map_cons, List.map_map]
  congr 1
  apply List.map_congr_left
  intro i _
  have e1 : (Nat.succ i) * 2 = i * 2 + 2 := by omega
  have e2 : i * 2 + 2 + 1 = (i * 2 + 1) + 2 := by omega
  simp only [Function.comp]
  rw [e1, e2, key, key]

theorem pair_results_add (r c : Int) :
    ∀ ms : List (matrix_t α), (∀ m ∈ ms, has_shape r c m) →
      collect_results (pair_results ms (ms.length / 2) 'A') = some (pair_sums_of r c ms)
  | [], _ => by simp [pair_results, pair_sums_of, collect_results]
  | [a], _ => by simp [pair_results, pair_sums_of, collect_results]
  | a :: b :: rest, h => by
    have hlen : (a :: b :: rest).length / 2 = rest.length / 2 + 1 := by
      simp only [List.length_cons]; omega
    rw [hlen, pair_results_cons,
      matrix_operation_thread_add r c a b (h a (by simp)) (h b (by simp))]
    simp only [collect_results,
      pair_results_add r c rest (fun m hm => h m (by simp [hm])), pair_sums_of]

theorem next_level_eq (r c : Int) :
    ∀ ms : List (matrix_t α),
      (if ms.length % 2 ≠ 0 then pair_sums_of r c ms ++ (ms.drop (ms.length - 1)).take 1
        else pair_sums_of r c ms) = next_level_of r c ms
  | [] => by simp [pair_sums_of, next_level_of]
  | [a] => by simp [pair_sums_of, next_level_of]
  | a :: b :: rest => by
    have ih := next_level_eq r c rest
    have hmod : (a :: b :: rest).length % 2 = rest.length % 2 := by
      simp only [List.length_cons]; omega
    rw [hmod]
    by_cases hodd : rest.length % 2 ≠ 0
    · rw [if_pos hodd] at ih ⊢
      have hdrop : (a :: b :: rest).drop ((a :: b :: rest).length - 1)
          = rest.drop (rest.length - 1) := by
        have : (a :: b :: rest).length - 1 = (rest.length - 1) + 1 + 1 := by
          simp only [List.length_cons]; omega
        rw [this]
        rfl
      rw [hdrop]
      simp only [pair_sums_of, next_level_of, List.cons_append, ih]
    · rw [if_neg hodd] at ih ⊢
      simp only [pair_sums_of, next_level_of, ih]

theorem next_level_of_length (r c : Int) :
    ∀ ms : List (matrix_t α), (next_level_of r c ms).length = (ms.length + 1) / 2
  | [] => by simp [next_level_of]
  | [a] => by simp [next_level_of]
  | a :: b :: rest => by
    simp only [next_level_of, List.length_cons, next_level_of_length r c rest]
    omega

theorem next_level_of_shape (r c : Int) :
    ∀ ms : List (matrix_t α), (∀ m ∈ ms, has_shape r c m) →
      ∀ m ∈ next_level_of r c ms, has_shape r c m
  | [], _ => by simp [next_level_of]
  | [a], h => by simpa [next_level_of] using h
  | a :: b :: rest, h => by
    intro m hm
    simp only [next_level_of, List.mem_cons] at hm
    rcases hm with rfl | hm
    · exact pointwise_has_shape r c _
    · exact next_level_of_shape r c rest (fun m hm => h m (by simp [hm])) m hm

theorem next_level_of_sum (r c : Int) (i : Nat) (hi : i < (r * c).toNat) :
    ∀ ms : List (matrix_t α),
      ((next_level_of r c ms).map (fun m => el m i)).sum = (ms.map (fun m => el m i)).sum
  | [] => by simp [next_level_of]
  | [a] => by simp [next_level_of]
  | a :: b :: rest => by
    simp only [next_level_of, List.map_cons, List.sum_cons, next_level_of_sum r c i hi rest,
      el_pointwise r c _ i hi]
    abel


/-- The addition tree: with a recursion bound of at least the number of
matrices, the result is the element-wise sum. -/
theorem compute_matrices_parallel_add_eq (r c : Int) (L : Nat) :
    ∀ (ms : List (matrix_t α)) (fuel : Nat), ms.length = L → 1 ≤ L → L ≤ fuel →
      (∀ m ∈ ms, has_shape r c m) →
      compute_matrices_parallel fuel ms 'A'
        = some (some (pointwise r c (fun i => (ms.map (fun m => el m i)).sum))) := by
  induction L using Nat.strong_induction_on with
  | _ L ih =>
    intro ms fuel hlen hL hfuel hshape
    obtain ⟨f, rfl⟩ : ∃ f, fuel = f + 1 := ⟨fuel - 1, by omega⟩
    match ms, hlen, hshape with
    | [], hlen, _ => simp at hlen; omega
    | [a], _, hshape =>
      obtain ⟨h1, h2, h3⟩ := hshape a (by simp)
      simp only [compute_matrices_parallel, List.length_singleton, if_true, List.head?_cons,
        h1, h2]
      simp [pointwise, el]
    | [a, b], _, hshape =>
      simp only [compute_matrices_parallel, List.length_cons, List.length_nil]
      simp only [Nat.reduceAdd, OfNat.ofNat_ne_one, if_false, if_true, List.get?_cons_zero,
        List.get?_cons_succ]
      rw [matrix_operation_thread_add r c a b (hshape a (by simp)) (hshape b (by simp))]
      simp
    | a :: b :: d :: rest, hlen, hshape =>
      have hcount : (a :: b :: d :: rest).length = rest.length + 3 := by simp
      have hne1 : ¬ (rest.length + 3 = 1) := by omega
      have hne2 : ¬ (rest.length + 3 = 2) := by omega
      have hop : ¬ ('A' = 'S') := by decide
      rw [compute_matrices_parallel]
      simp only [hcount, hne1, hne2, hop, if_false]
      rw [← hcount, pair_results_add r c _ hshape]
      simp only
      rw [next_level_eq r c (a :: b :: d :: rest)]
      have hnl := next_level_of_length r c (a :: b :: d :: rest)
      rw [ih (((a :: b :: d :: rest).length + 1) / 2) (by rw [hcount] at hlen ⊢; omega)
        (next_level_of r c (a :: b :: d :: rest)) f hnl (by rw [hcount]; omega)
        (by rw [hcount] at hlen ⊢; omega)
        (next_level_of_shape r c _ hshape)]
      congr 2
      apply pointwise_congr
      intro i hi
      exact next_level_of_sum r c i hi _


/-- The subtraction split: with a recursion bound of at least the number
of matrices, the result is the first matrix minus the sum of the others. -/
theorem compute_matrices_parallel_sub_eq (r c : Int) (L : Nat) :
    ∀ (m0 : matrix_t α) (rest : List (matrix_t α)) (fuel : Nat),
      (m0 :: rest).length = L → L ≤ fuel → (∀ m ∈ m0 :: rest, has_shape r c m) →
      compute_matrices_parallel fuel (m0 :: rest) 'S'
        = some (some (pointwise r c (fun i => el m0 i - (rest.map (fun m => el m i)).sum))) := by
  induction L using Nat.strong_induction_on with
  | _ L ih =>
    intro m0 rest fuel hlen hfuel hshape
    have hL : 1 ≤ L := by rw [← hlen]; simp
    obtain ⟨f, rfl⟩ : ∃ f, fuel = f + 1 := ⟨fuel - 1, by omega⟩
    match rest, hlen, hshape with
    | [], _, hshape =>
      obtain ⟨h1, h2, h3⟩ := hshape m0 (by simp)
      simp only [compute_matrices_parallel, List.length_singleton, if_true, List.head?_cons,
        h1, h2]
      simp [pointwise, el]
    | [b], _, hshape =>
      simp only [compute_matrices_parallel, List.length_cons, List.length_nil]
      simp only [Nat.reduceAdd, OfNat.ofNat_ne_one, if_false, if_true, List.get?_cons_zero,
        List.get?_cons_succ]
      rw [matrix_operation_thread_sub r c m0 b (hshape m0 (by simp)) (hshape b (by simp))]
      simp
    | b :: d :: rest2, hlen, hshape =>
      have hcount : (m0 :: b :: d :: rest2).length = rest2.length + 3 := by simp
      have hne1 : ¬ (rest2.length + 3 = 1) := by omega
      have hne2 : ¬ (rest2.length + 3 = 2) := by omega
      have hmid0 : ¬ ((rest2.length + 3) / 2 = 0) := by omega
      obtain ⟨k, hk⟩ : ∃ k, (rest2.length + 3) / 2 = k + 1 :=
        ⟨(rest2.length + 3) / 2 - 1, by omega⟩
      have htl : (b :: d :: rest2).length = rest2.length + 2 := by simp
      rw [compute_matrices_parallel]
      simp only [hcount, hne1, hne2, if_false, if_true, hk, Nat.add_one_ne_zero,
        List.take_succ_cons, List.drop_succ_cons]
      have hleft := ih (k + 1) (by omega) m0 ((b :: d :: rest2).take k) f
        (by simp only [List.length_cons, List.length_take] at htl ⊢; omega) (by omega)
        (fun m hm => hshape m (by
          rcases List.mem_cons.mp hm with h | h
          · simp [h]
          · exact List.mem_cons_of_mem _ (List.mem_of_mem_take h)))
      have hright := compute_matrices_parallel_add_eq r c (rest2.length + 2 - k)
        ((b :: d :: rest2).drop k) f
        (by rw [List.length_drop, htl]) (by omega) (by omega)
        (fun m hm => hshape m (List.mem_cons_of_mem _ (List.mem_of_mem_drop hm)))
      rw [hleft]
      simp only
      rw [hright]
      simp only
      rw [matrix_operation_thread_sub r c _ _ (pointwise_has_shape r c _)
        (pointwise_has_shape r c _)]
      congr 2
      apply pointwise_congr
      intro i hi
      rw [el_pointwise r c _ i hi, el_pointwise r c _ i hi]
      have hsum := List.sum_take_add_sum_drop ((b :: d :: rest2).map (fun m => el m i)) k
      rw [← List.map_take, ← List.map_drop] at hsum
      rw [← hsum]
      abel

theorem matrix_sub_eq_pointwise (r c : Int) (a b : matrix_t α)
    (ha : has_shape r c a) (hb : has_shape r c b) :
    matrix_sub a b = pointwise r c (fun i => el a i - el b i) := by
  obtain ⟨ha1, ha2, ha3⟩ := ha
  obtain ⟨hb1, hb2, hb3⟩ := hb
  simp only [matrix_sub, pointwise, ha1, ha2, matrix_t.mk.injEq, true_and]
  apply List.ext_getElem
  · simp [ha3, hb3]
  · intro i h1 h2
    simp only [List.length_map, List.length_range] at h2
    simp [el, List.getElem?_eq_getElem (ha3 ▸ h2), List.getElem?_eq_getElem (hb3 ▸ h2)]

/-- The strictly left-associative difference is the first matrix minus the
sum of the others. -/
theorem sub_left_assoc_eq (r c : Int) (rest : List (matrix_t α)) :
    ∀ m0 : matrix_t α, has_shape r c m0 → (∀ m ∈ rest, has_shape r c m) →
      sub_left_assoc m0 rest
        = pointwise r c (fun i => el m0 i - (rest.map (fun m => el m i)).sum) := by
  induction rest with
  | nil =>
    intro m0 h0 _
    simp only [sub_left_assoc, List.foldl_nil, List.map_nil, List.sum_nil, sub_zero]
    exact (pointwise_el r c m0 h0).symm
  | cons b rest ih =>
    intro m0 h0 hrest
    have hb := hrest b (by simp)
    have := ih (matrix_sub m0 b) (by rw [matrix_sub_eq_pointwise r c m0 b h0 hb]
                                     exact pointwise_has_shape r c _)
      (fun m hm => hrest m (List.mem_cons_of_mem _ hm))
    simp only [sub_left_assoc, List.foldl_cons] at this ⊢
    rw [this]
    apply pointwise_congr
    intro i hi
    rw [matrix_sub_eq_pointwise r c m0 b h0 hb, el_pointwise r c _ i hi]
    simp only [List.map_cons, List.sum_cons]
    abel

end matrix_theorems

/-- The spacing test answers 1 exactly on the lines that hold a tab or two
adjacent spaces. -/
theorem has_consecutive_spaces_iff (line : CStr) :
    has_consecutive_spaces line = true ↔
      ('\t' ∈ line ∨ ∃ pre post : CStr, line = pre ++ ' ' :: ' ' :: post) := by
  induction line with
  | nil => simp [has_consecutive_spaces]
  | cons c rest ih =>
    simp only [has_consecutive_spaces]
    by_cases h : c = '\t' ∨ (c = ' ' ∧ rest.head? = some ' ')
    · simp only [h, if_true, true_iff]
      rcases h with h | ⟨h1, h2⟩
      · left; simp [h]
      · right
        cases rest with
        | nil => simp at h2
        | cons d post =>
          simp only [List.head?_cons, Option.some.injEq] at h2
          exact ⟨[], post, by simp [h1, h2]⟩
    · simp only [h, if_false, ih]
      have hc : c ≠ '\t' := fun hc => h (Or.inl hc)
      constructor
      · rintro (ht | ⟨pre, post, hp⟩)
        · left; exact List.mem_cons_of_mem _ ht
        · right; exact ⟨c :: pre, post, by simp [hp]⟩
      · rintro (ht | ⟨pre, post, hp⟩)
        · left
          rcases List.mem_cons.mp ht with h1 | h1
          · exact absurd h1.symm hc
          · exact h1
        · cases pre with
          | nil =>
            simp only [List.nil_append, List.cons.injEq] at hp
            exact absurd (Or.inr ⟨hp.1, by simp [hp.2]⟩) h
          | cons p pre =>
            simp only [List.cons_append, List.cons.injEq] at hp
            right; exact ⟨pre, post, hp.2⟩

theorem block_message_ne (entry : CStr) : block_message entry ≠ "ERR_SPACE".toList := by
  intro h
  have h3 := congrArg (fun l => l.get? 3) h
  simp [block_message] at h3

theorem warn_message_ne (entry : CStr) : warn_message entry ≠ "ERR_SPACE".toList := by
  intro h
  have h0 := congrArg (fun l => l.get? 0) h
  simp [warn_message] at h0

theorem check_dangerous_loop_out (u : Nat → uninit_t) (dl : List CStr)
    (cmds : List command_t) (i : Nat) (stats : command_stats_t) (out : List CStr)
    (hout : "ERR_SPACE".toList ∉ out) :
    "ERR_SPACE".toList ∉ (check_dangerous_loop u dl cmds i stats out).2.2 := by
  induction cmds generalizing i stats out with
  | nil => simpa [check_dangerous_loop] using hout
  | cons cmd rest ih =>
    simp only [check_dangerous_loop]
    split
    · intro hm
      rcases List.mem_append.mp hm with h | h
      · exact hout h
      · exact block_message_ne _ (List.mem_singleton.mp h).symm
    · split
      · apply ih
        intro hm
        rcases List.mem_append.mp hm with h | h
        · exact hout h
        · exact warn_message_ne _ (List.mem_singleton.mp h).symm
      · exact ih _ _ _ hout

/-- C16: `has_consecutive_spaces` returns 1 exactly for the lines that
hold a tab or two adjacent spaces; on those lines `execute_line` prints
`ERR_SPACE` and returns -1 with the statistics unchanged and no pipeline
executed, whatever the denylist and the execution of pipelines; on every
other line it does not print `ERR_SPACE`. -/
theorem execute_line_spacing (u : Nat → uninit_t) (dl : List CStr)
    (execute_pipeline : pipeline_t → Int) (stats : command_stats_t) (line : CStr) :
    (has_consecutive_spaces line = true ↔
        ('\t' ∈ line ∨ ∃ pre post : CStr, line = pre ++ ' ' :: ' ' :: post)) ∧
    (('\t' ∈ line ∨ ∃ pre post : CStr, line = pre ++ ' ' :: ' ' :: post) →
        execute_line u dl execute_pipeline stats line
          = { result := -1, stats := stats, out := ["ERR_SPACE".toList], executed := none }) ∧
    (¬ ('\t' ∈ line ∨ ∃ pre post : CStr, line = pre ++ ' ' :: ' ' :: post) →
        "ERR_SPACE".toList ∉ (execute_line u dl execute_pipeline stats line).out) := by
  refine ⟨has_consecutive_spaces_iff line, ?_, ?_⟩
  · intro h
    have := (has_consecutive_spaces_iff line).mpr h
    simp [execute_line, this]
  · intro h
    have hf : has_consecutive_spaces line = false := by
      cases hv : has_consecutive_spaces line with
      | false => rfl
      | true => exact absurd ((has_consecutive_spaces_iff line).mp hv) h
    simp only [execute_line, hf, Bool.false_eq_true, if_false]
    cases hp : parse_line line with
    | none => simp only; decide
    | some p =>
      have hchk : "ERR_SPACE".toList ∉ (check_dangerous_pipeline u dl p stats).2.2 := by
        unfold check_dangerous_pipeline
        split
        · simp
        · exact check_dangerous_loop_out u dl _ 0 stats [] (by simp)
      simp only
      split
      · exact hchk
      · split <;> exact hchk

/-- C16 at a line with two adjacent spaces and at a line with a tab. -/
theorem execute_line_spacing_witness :
    execute_line (fun _ => ⟨[], []⟩) [] (fun _ => 0) ⟨0, 0, 0⟩ "ls  -l".toList
      = { result := -1, stats := ⟨0, 0, 0⟩, out := ["ERR_SPACE".toList], executed := none } ∧
    has_consecutive_spaces "ls\t-l".toList = true ∧
    has_consecutive_spaces "ls -l | wc".toList = false :=
  ⟨(execute_line_spacing (fun _ => ⟨[], []⟩) [] (fun _ => 0) ⟨0, 0, 0⟩ "ls  -l".toList).2.1
     (Or.inr ⟨"ls".toList, "-l".toList, by decide⟩),
   by decide, by decide⟩

theorem parse_single_command_none_iff (cmd_str : CStr) :
    parse_single_command cmd_str = none ↔ tokenize cmd_str MAX_ARGS = none := by
  unfold parse_single_command
  cases tokenize cmd_str MAX_ARGS <;> simp

theorem parse_single_command_out_eq (cmd_str : CStr) :
    parse_single_command_out cmd_str
      = if parse_single_command cmd_str = none then ["ERR_ARGS".toList] else [] := by
  unfold parse_single_command_out parse_single_command
  cases tokenize cmd_str MAX_ARGS <;> simp

/-- C17: with `s` the line as `check_background` leaves it, `parse_line`
returns NULL exactly when `tokenize` returns -1 on the left command
substring or, when a `|` is present, on the right one; a failing
`parse_line` prints `ERR_ARGS` once (the first failing command ends the
parse), a successful one prints nothing, and `execute_line` then returns -1
without executing anything. -/
theorem parse_line_none_iff (line : CStr) :
    ('|' ∉ (check_background line).1 →
        (parse_line line = none ↔ tokenize (check_background line).1 MAX_ARGS = none)) ∧
    (∀ l r : CStr, (check_background line).1 = l ++ '|' :: r → '|' ∉ l →
        (parse_line line = none ↔
          tokenize l MAX_ARGS = none ∨ tokenize r MAX_ARGS = none)) ∧
    (parse_line line = none → parse_line_out line = ["ERR_ARGS".toList]) ∧
    (parse_line line ≠ none → parse_line_out line = []) ∧
    (∀ (u : Nat → uninit_t) (dl : List CStr) (execute_pipeline : pipeline_t → Int)
        (stats : command_stats_t),
        has_consecutive_spaces line = false → parse_line line = none →
        execute_line u dl execute_pipeline stats line
          = { result := -1, stats := stats, out := ["ERR_ARGS".toList], executed := none }) := by
  refine ⟨?_, ?_, ?_, ?_, ?_⟩
  · intro hno
    simp only [parse_line, parse_stripped, split_on_pipe_absent _ hno]
    rw [← parse_single_command_none_iff]
    cases parse_single_command (check_background line).1 <;> simp
  · intro l r hs hl
    simp only [parse_line, parse_stripped, hs, split_on_pipe_first l r hl]
    rw [← parse_single_command_none_iff, ← parse_single_command_none_iff]
    cases hl2 : parse_single_command l with
    | none => simp
    | some left =>
      cases hr2 : parse_single_command r with
      | none => simp [hr2]
      | some right => simp [hr2]
  · intro h
    simp only [parse_line, parse_stripped] at h
    simp only [parse_line_out, parse_single_command_out_eq]
    cases hl : parse_single_command (split_on_pipe (check_background line).1).1 with
    | none => simp
    | some left =>
      simp only [hl] at h
      by_cases hp : (split_on_pipe (check_background line).1).2.2 = true
      · simp only [hp, if_true] at h ⊢
        cases hr : parse_single_command
            ((split_on_pipe (check_background line).1).2.1.getD []) with
        | none => simp
        | some right => simp [hr] at h
      · simp [hp] at h
  · intro h
    simp only [parse_line, parse_stripped] at h
    simp only [parse_line_out, parse_single_command_out_eq]
    cases hl : parse_single_command (split_on_pipe (check_background line).1).1 with
    | none => simp [hl] at h
    | some left =>
      simp only [hl] at h
      by_cases hp : (split_on_pipe (check_background line).1).2.2 = true
      · simp only [hp, if_true] at h ⊢
        cases hr : parse_single_command
            ((split_on_pipe (check_background line).1).2.1.getD []) with
        | none => simp [hr] at h
        | some right => simp
      · simp [hp]
  · intro u dl execute_pipeline stats hsp hnone
    simp [execute_line, hsp, hnone]

/-- C17 at a line whose right command has eight tokens. -/
theorem parse_line_none_iff_witness :
    parse_line "a | a b c d e f g h".toList = none ∧
    parse_line_out "a | a b c d e f g h".toList = ["ERR_ARGS".toList] :=
  ⟨((parse_line_none_iff "a | a b c d e f g h".toList).2.1 "a ".toList
      " a b c d e f g h".toList (by decide) (by decide)).mpr (Or.inr (by decide)),
   (parse_line_none_iff "a | a b c d e f g h".toList).2.2.1 (by decide)⟩

/-! ## Piped execution -/

/-- When the shell itself collects both children of a foreground pipeline
whose pipe was created, the result is 127 when either child exited normally
with status 127, whatever the other child did; otherwise it is the exit
status of the right-hand child when that child exited normally and -1 when
it did not. -/
theorem execute_piped_commands_collected (child1 child2 uninit1 uninit2 : wait_status_t)
    (pipeline : pipeline_t) (hfg : pipeline.is_background = false) :
    (((child1.WIFEXITED = true ∧ child1.WEXITSTATUS = 127) ∨
        (child2.WIFEXITED = true ∧ child2.WEXITSTATUS = 127)) →
      execute_piped_commands true child1 child2 false false uninit1 uninit2 pipeline
        = 127) ∧
    (¬ ((child1.WIFEXITED = true ∧ child1.WEXITSTATUS = 127) ∨
        (child2.WIFEXITED = true ∧ child2.WEXITSTATUS = 127)) →
      child2.WIFEXITED = true →
      execute_piped_commands true child1 child2 false false uninit1 uninit2 pipeline
        = child2.WEXITSTATUS) ∧
    (¬ ((child1.WIFEXITED = true ∧ child1.WEXITSTATUS = 127) ∨
        (child2.WIFEXITED = true ∧ child2.WEXITSTATUS = 127)) →
      child2.WIFEXITED = false →
      execute_piped_commands true child1 child2 false false uninit1 uninit2 pipeline
        = -1) := by
  refine ⟨?_, ?_, ?_⟩
  · intro h
    simp only [execute_piped_commands, waitpid, hfg]
    simp [h]
  · intro h h2
    simp only [execute_piped_commands, waitpid, hfg]
    simp only [Bool.not_true, Bool.false_eq_true, if_false, Bool.not_false, if_true]
    rw [if_neg h, if_pos h2]
  · intro h h2
    simp only [execute_piped_commands, waitpid, hfg]
    simp [h2]
    intro h1 h3
    exact absurd (Or.inl ⟨h1, h3⟩) h

/-- C15: the result of a foreground pipeline is not a function of the wait
statuses of its children.  The line `sleep 0.3 | sh -c "exit 3"` parses into
a foreground pipeline whose left-hand child exits with 0 and whose
right-hand child exits with 3.  When the handler of `SIGCHLD` collects the
right-hand child while the shell waits for the left-hand one, the call
`waitpid(pid2, &status2, 0)` stores nothing and the result is read from the
uninitialised `status2`: it is -1 when that holds no normal exit and 127
when it holds an exit with 127.  It is 3 only when the shell collects the
child itself. -/
theorem execute_piped_commands_reads_uninitialised :
    parse_line "sleep 0.3 | sh -c \"exit 3\"".toList
      = some ⟨[⟨["sleep".toList, "0.3".toList], 2, none⟩,
               ⟨["sh".toList, "-c".toList, "exit 3".toList], 3, none⟩], 2, false⟩ ∧
    execute_piped_commands true ⟨true, 0⟩ ⟨true, 3⟩ false true ⟨false, 0⟩ ⟨false, 0⟩
        ⟨[⟨["sleep".toList, "0.3".toList], 2, none⟩,
          ⟨["sh".toList, "-c".toList, "exit 3".toList], 3, none⟩], 2, false⟩ = -1 ∧
    execute_piped_commands true ⟨true, 0⟩ ⟨true, 3⟩ false true ⟨false, 0⟩ ⟨true, 127⟩
        ⟨[⟨["sleep".toList, "0.3".toList], 2, none⟩,
          ⟨["sh".toList, "-c".toList, "exit 3".toList], 3, none⟩], 2, false⟩ = 127 ∧
    execute_piped_commands true ⟨true, 0⟩ ⟨true, 3⟩ false false ⟨false, 0⟩ ⟨false, 0⟩
        ⟨[⟨["sleep".toList, "0.3".toList], 2, none⟩,
          ⟨["sh".toList, "-c".toList, "exit 3".toList], 3, none⟩], 2, false⟩ = 3 := by
  decide

/-! ## Unterminated quotes -/

theorem ptr_after_add (k j : Nat) (s : CStr) :
    ptr_after (k + j) s = (ptr_after k s).bind (ptr_after j) := by
  induction k generalizing s with
  | zero => simp [ptr_after]
  | succ k ih =>
    have e : k + 1 + j = (k + j) + 1 := by omega
    rw [e]
    simp only [ptr_after]
    cases hs : tokenize_step s with
    | none => simp
    | some tr =>
      obtain ⟨tok, rest⟩ := tr
      simp only [ih rest]

theorem ptr_after_nil_getD (j : Nat) : (ptr_after j []).getD [] = [] := by
  cases j with
  | zero => rfl
  | succ j => simp [ptr_after, tokenize_step_nil]

theorem tokenize_step_unterminated (r body : CStr)
    (hr : r.dropWhile is_ws = '"' :: body) (hbody : '"' ∉ body) :
    tokenize_step r = some (body, []) := by
  unfold tokenize_step
  rw [hr]
  have h1 : body.takeWhile (fun d => d != '"') = body := by
    rw [List.takeWhile_eq_self_iff]
    intro c hc
    have : c ≠ '"' := fun h => hbody (h ▸ hc)
    simpa using this
  have h2 : body.dropWhile (fun d => d != '"') = [] := by
    rw [List.dropWhile_eq_nil_iff]
    intro c hc
    have : c ≠ '"' := fun h => hbody (h ▸ hc)
    simpa using this
  simp [h1, h2]

/-- C20: whenever the tokenizer stands, after `k` tokens and the white
space that follows them, at a quote with no later quote, the rest of the
string after that quote is the last token; `tokenize` with a budget above
`k` succeeds and returns the `k` earlier tokens followed by that token, a
count of `k + 1`. -/
theorem tokenize_unterminated_quote (s r body : CStr) (k : Nat)
    (hk : ptr_after k s = some r)
    (hr : r.dropWhile is_ws = '"' :: body)
    (hbody : '"' ∉ body) :
    all_tokens s = (all_tokens s).take k ++ [body] ∧
    ((all_tokens s).take k ++ [body]).length = k + 1 ∧
    ∀ max_args : Int, (k : Int) < max_args →
      tokenize s max_args = some ((all_tokens s).take k ++ [body]) := by
  obtain ⟨h1, h2⟩ := ptr_after_all_tokens k s r hk
  have hstep := tokenize_step_unterminated r body hr hbody
  rw [all_tokens_of_step_some hstep, all_tokens_nil] at h1
  have hlen : (all_tokens s).length = k + 1 := by
    rw [h1, List.length_append, h2]; rfl
  refine ⟨h1, by rw [List.length_append, h2]; rfl, ?_⟩
  intro max_args hlt
  obtain ⟨j, hj⟩ : ∃ j, max_args.toNat = k + (j + 1) := ⟨max_args.toNat - k - 1, by omega⟩
  have hptr : (ptr_after max_args.toNat s).getD [] = [] := by
    rw [hj, ptr_after_add, hk]
    simp only [Option.some_bind, ptr_after, hstep]
    exact ptr_after_nil_getD j
  have htake : (all_tokens s).take max_args.toNat = all_tokens s :=
    List.take_of_length_le (by omega)
  rw [tokenize_eq s max_args (by omega), hptr, htake]
  simp only [ne_eq, not_true_eq_false, and_false, if_false]
  rw [← h1]

/-- C20 at `a "b c` with the budget of the command parser. -/
theorem tokenize_unterminated_quote_witness :
    tokenize "a \"b c".toList MAX_ARGS = some ["a".toList, "b c".toList] ∧
    tokenize "a \"b c".toList 7
      = some ((all_tokens "a \"b c".toList).take 1 ++ ["b c".toList]) :=
  ⟨by decide,
   (tokenize_unterminated_quote "a \"b c".toList "\"b c".toList "b c".toList 1
      (by decide) (by decide) (by decide)).2.2 7 (by decide)⟩

/-! ## Counting warned commands -/

theorem is_dangerous_command_nil (u : uninit_t) (cmd : CStr) (idx : Int) :
    is_dangerous_command u [] cmd idx = (0, idx) := by
  simp [is_dangerous_command, is_dangerous_scan]

theorem warn_count_le (u : Nat → uninit_t) (dl : List CStr) (cmds : List command_t) (i : Nat) :
    warn_count u dl cmds i ≤ cmds.length := by
  induction cmds generalizing i with
  | nil => simp [warn_count]
  | cons c rest ih =>
    simp only [warn_count, List.length_cons]
    have := ih (i + 1)
    split <;> omega

theorem warn_count_nil_denylist (u : Nat → uninit_t) (cmds : List command_t) (i : Nat) :
    warn_count u [] cmds i = 0 := by
  induction cmds generalizing i with
  | nil => simp [warn_count]
  | cons c rest ih => simp [warn_count, is_dangerous_command_nil, ih]

/-- The loop of `check_dangerous_pipeline`, when it does not block, adds
the number of warned commands to the warned counter and changes nothing
else. -/
theorem check_dangerous_loop_warned (u : Nat → uninit_t) (dl : List CStr)
    (cmds : List command_t) (i : Nat) (stats : command_stats_t) (out : List CStr)
    (h : (check_dangerous_loop u dl cmds i stats out).1 ≠ -1) :
    (check_dangerous_loop u dl cmds i stats out).2.1
      = { stats with
          unblocked_dangerous_cmds_count :=
            stats.unblocked_dangerous_cmds_count + (warn_count u dl cmds i : Int) } := by
  induction cmds generalizing i stats out with
  | nil => simp [check_dangerous_loop, warn_count]
  | cons cmd rest ih =>
    simp only [check_dangerous_loop] at h ⊢
    by_cases h2 : (is_dangerous_command (u i) dl (reconstruct_command_string cmd) (-1)).1 = 2
    · simp [h2] at h
    · simp only [h2, if_false] at h ⊢
      by_cases h1 : (is_dangerous_command (u i) dl (reconstruct_command_string cmd) (-1)).1 = 1
      · simp only [h1, if_true] at h ⊢
        rw [ih (i + 1) _ _ h]
        simp only [warn_count, h1, if_true]
        simp only [command_stats_t.mk.injEq, true_and]
        push_cast
        ring
      · simp only [h1, if_false] at h ⊢
        rw [ih (i + 1) _ _ h]
        simp [warn_count, h1]

/-- C19: when `check_dangerous_pipeline` does not block, the statistics
afterwards are the statistics before with `unblocked_dangerous_cmds_count`
raised by the number of the pipeline's `cmd_count` commands that
`is_dangerous_command` classifies WARN, each command counted on its own; the
other counters are unchanged, and that number is at most `cmd_count`. -/
theorem check_dangerous_pipeline_warned (u : Nat → uninit_t) (dl : List CStr)
    (p : pipeline_t) (stats : command_stats_t)
    (h : (check_dangerous_pipeline u dl p stats).1 ≠ -1) :
    (check_dangerous_pipeline u dl p stats).2.1
      = { cmds_count := stats.cmds_count,
          blocked_cmd_count := stats.blocked_cmd_count,
          unblocked_dangerous_cmds_count :=
            stats.unblocked_dangerous_cmds_count
              + (warn_count u dl (p.commands.take p.cmd_count) 0 : Int) } ∧
    warn_count u dl (p.commands.take p.cmd_count) 0 ≤ p.cmd_count := by
  constructor
  · unfold check_dangerous_pipeline at h ⊢
    by_cases h0 : dl.length = 0
    · have hnil : dl = [] := List.length_eq_zero.mp h0
      subst hnil
      simp [warn_count_nil_denylist]
    · simp only [h0, if_false] at h ⊢
      exact check_dangerous_loop_warned u dl _ 0 stats [] h
  · have := warn_count_le u dl (p.commands.take p.cmd_count) 0
    rw [List.length_take] at this
    omega

/-- C19 at the pipeline of `rm a | rm b` with the denylist holding
`rm -rf /`: both sides are warned and the counter rises by two. -/
theorem check_dangerous_pipeline_warned_witness :
    (check_dangerous_pipeline (fun _ => ⟨[], []⟩) ["rm -rf /".toList]
        ⟨[⟨["rm".toList, "a".toList], 2, none⟩, ⟨["rm".toList, "b".toList], 2, none⟩],
          2, false⟩ ⟨5, 1, 3⟩).2.1 = ⟨5, 1, 5⟩ :=
  (check_dangerous_pipeline_warned (fun _ => ⟨[], []⟩) ["rm -rf /".toList]
      ⟨[⟨["rm".toList, "a".toList], 2, none⟩, ⟨["rm".toList, "b".toList], 2, none⟩],
        2, false⟩ ⟨5, 1, 3⟩ (by decide)).1

/-! ## The index reported by the matcher -/

/-- The index that the scan reports, in terms of the content `cmd_base` of
the command's base buffer, for a denylist whose entries all have a word: on
BLOCK an entry equal to the command, on WARN the last entry whose base
command is `cmd_base` (or the index on entry when no entry of the rest
matches). -/
theorem is_dangerous_scan_index (cmd cmd_base stale : CStr) (dl : List CStr)
    (hdl : ∀ e ∈ dl, has_word e) (i : Nat) (fb : Bool) (idx : Int) :
    ((is_dangerous_scan cmd cmd_base stale dl i fb idx).1 = 2 →
        ∃ j : Nat, (is_dangerous_scan cmd cmd_base stale dl i fb idx).2 = ((i + j : Nat) : Int) ∧
          dl.get? j = some cmd) ∧
    ((is_dangerous_scan cmd cmd_base stale dl i fb idx).1 = 1 →
        (∃ (j : Nat) (e : CStr),
            (is_dangerous_scan cmd cmd_base stale dl i fb idx).2 = ((i + j : Nat) : Int) ∧
            dl.get? j = some e ∧ base_command e = cmd_base ∧
            ∀ (j2 : Nat) (e2 : CStr), j < j2 → dl.get? j2 = some e2 →
              base_command e2 ≠ cmd_base) ∨
        ((is_dangerous_scan cmd cmd_base stale dl i fb idx).2 = idx ∧
            ∀ e ∈ dl, base_command e ≠ cmd_base)) := by
  induction dl generalizing i fb idx with
  | nil =>
    cases fb <;> simp [is_dangerous_scan]
  | cons entry rest ih =>
    have hrest : ∀ e ∈ rest, has_word e := fun e he => hdl e (List.mem_cons_of_mem _ he)
    have hentry : extract_base_command entry stale = base_command entry :=
      extract_base_command_of_has_word (hdl entry (List.mem_cons_self _ _)) stale
    simp only [is_dangerous_scan, hentry]
    by_cases hb : cmd_base = base_command entry
    · by_cases hc : cmd = entry
      · subst hc
        simp only [hb, if_true]
        exact ⟨fun _ => ⟨0, by simp, by simp⟩, fun h => absurd h (by decide)⟩
      · simp only [hb, hc, if_true, if_false]
        obtain ⟨ih2, ih1⟩ := ih hrest (i + 1) true (i : Int)
        rw [hb] at ih2 ih1
        constructor
        · intro h
          obtain ⟨j, hj, hget⟩ := ih2 h
          exact ⟨j + 1, by rw [hj]; congr 1; omega, by simpa using hget⟩
        · intro h
          left
          rcases ih1 h with ⟨j, e, hj, hget, hbase, hlast⟩ | ⟨hidx, hnone⟩
          · refine ⟨j + 1, e, by rw [hj]; congr 1; omega, by simpa using hget, hbase, ?_⟩
            intro j2 e2 hlt hget2
            obtain ⟨j3, rfl⟩ : ∃ j3, j2 = j3 + 1 := ⟨j2 - 1, by omega⟩
            exact hlast j3 e2 (by omega) (by simpa using hget2)
          · refine ⟨0, entry, by rw [hidx]; simp, by simp, rfl, ?_⟩
            intro j2 e2 hlt hget2
            obtain ⟨j3, rfl⟩ : ∃ j3, j2 = j3 + 1 := ⟨j2 - 1, by omega⟩
            have hmem : e2 ∈ rest := List.get?_mem (n := j3) (by simpa using hget2)
            exact hnone e2 hmem
    · simp only [hb, if_false]
      obtain ⟨ih2, ih1⟩ := ih hrest (i + 1) fb idx
      constructor
      · intro h
        obtain ⟨j, hj, hget⟩ := ih2 h
        exact ⟨j + 1, by rw [hj]; congr 1; omega, by simpa using hget⟩
      · intro h
        rcases ih1 h with ⟨j, e, hj, hget, hbase, hlast⟩ | ⟨hidx, hnone⟩
        · left
          refine ⟨j + 1, e, by rw [hj]; congr 1; omega, by simpa using hget, hbase, ?_⟩
          intro j2 e2 hlt hget2
          obtain ⟨j3, rfl⟩ : ∃ j3, j2 = j3 + 1 := ⟨j2 - 1, by omega⟩
          exact hlast j3 e2 (by omega) (by simpa using hget2)
        · right
          refine ⟨hidx, ?_⟩
          intro e he
          rcases List.mem_cons.mp he with h1 | h1
          · rw [h1]; exact fun h2 => hb h2.symm
          · exact hnone e h1

/-- For a command that has a word and a denylist whose entries all have a
word: on BLOCK the reported index is that of an entry equal to the command,
and on WARN it is the largest index of an entry with the command's base
command. -/
theorem is_dangerous_command_index (u : uninit_t) (dl : List CStr)
    (hdl : ∀ e ∈ dl, has_word e) (cmd : CStr) (hcmd : has_word cmd) (idx : Int) :
    ((is_dangerous_command u dl cmd idx).1 = 2 →
        ∃ j : Nat, (is_dangerous_command u dl cmd idx).2 = (j : Int) ∧ dl.get? j = some cmd) ∧
    ((is_dangerous_command u dl cmd idx).1 = 1 →
        ∃ (j : Nat) (e : CStr), (is_dangerous_command u dl cmd idx).2 = (j : Int) ∧
          dl.get? j = some e ∧ base_command e = base_command cmd ∧
          ∀ (j2 : Nat) (e2 : CStr), j < j2 → dl.get? j2 = some e2 →
            base_command e2 ≠ base_command cmd) := by
  have hb : extract_base_command cmd u.cmd_base = base_command cmd :=
    extract_base_command_of_has_word hcmd _
  obtain ⟨h2, h1⟩ := is_dangerous_scan_index cmd (base_command cmd)
    u.dangerous_cmd_base dl hdl 0 false idx
  have hlevel := (is_dangerous_scan_level cmd (base_command cmd)
    u.dangerous_cmd_base dl hdl 0 false idx).2.1
  unfold is_dangerous_command
  simp only [hb]
  constructor
  · intro h
    obtain ⟨j, hj, hget⟩ := h2 h
    exact ⟨j, by rw [hj]; simp, hget⟩
  · intro h
    rcases h1 h with ⟨j, e, hj, hget, hbase, hlast⟩ | ⟨-, hnone⟩
    · exact ⟨j, e, by rw [hj]; simp, hget, hbase, hlast⟩
    · obtain ⟨-, hsome⟩ := hlevel.mp h
      rcases hsome with hf | ⟨e, he, hbe⟩
      · exact absurd hf (by decide)
      · exact absurd hbe (hnone e he)

/-- C18, at a command without a word.  For the empty command string (the
right-hand side of `rm x |`) `sscanf` stores nothing and the uninitialised
`cmd_base` is compared as found.  Against the denylist `ls -l`, `rm -rf /`
the call answers WARN with index 1 when the buffer still holds `rm` and WARN
with index 0 when it holds `ls`, although no entry has the base command of
the empty string; an exact match is still reported with its own index. -/
theorem is_dangerous_command_index_uninitialised :
    is_dangerous_command ⟨"rm".toList, []⟩ ["ls -l".toList, "rm -rf /".toList] [] (-1)
      = (1, 1) ∧
    is_dangerous_command ⟨"ls".toList, []⟩ ["ls -l".toList, "rm -rf /".toList] [] (-1)
      = (1, 0) ∧
    (¬ ∃ e ∈ ["ls -l".toList, "rm -rf /".toList], base_command e = base_command []) ∧
    is_dangerous_command ⟨[], []⟩ ["rm -r".toList, "rm -rf /".toList, "rm".toList]
      "rm x".toList (-1) = (1, 2) ∧
    is_dangerous_command ⟨[], []⟩ ["rm -r".toList, "rm -rf /".toList, "rm".toList]
      "rm -rf /".toList (-1) = (2, 1) := by
  decide

/-! ## Matrix literals -/

/-- A successful `strchr` splits the string at the first occurrence. -/
theorem strchr_some (s : CStr) (c : Char) (i : Nat) (h : strchr s c = some i) :
    s = s.take i ++ c :: s.drop (i + 1) ∧ c ∉ s.take i ∧ s.indexOf c = i ∧ i < s.length := by
  induction s generalizing i with
  | nil => simp [strchr] at h
  | cons d rest ih =>
    simp only [strchr] at h
    by_cases hd : d = c
    · simp only [hd, if_true, Option.some.injEq] at h
      subst h
      subst hd
      simp
    · simp only [hd, if_false, Option.map_eq_some'] at h
      obtain ⟨j, hj, rfl⟩ := h
      obtain ⟨h1, h2, h3, h4⟩ := ih j hj
      refine ⟨?_, ?_, ?_, ?_⟩
      · simp only [List.take_succ_cons, List.drop_succ_cons, List.cons_append]
        rw [← h1]
      · simp only [List.take_succ_cons, List.mem_cons, not_or]
        exact ⟨fun hc => hd hc.symm, h2⟩
      · rw [List.indexOf_cons_ne _ hd, h3]
      · simp only [List.length_cons]; omega

theorem strchr_none (s : CStr) (c : Char) (h : strchr s c = none) : c ∉ s := by
  induction s with
  | nil => simp
  | cons d rest ih =>
    simp only [strchr] at h
    by_cases hd : d = c
    · simp [hd] at h
    · simp only [hd, if_false, Option.map_eq_none'] at h
      simp only [List.mem_cons, not_or]
      exact ⟨fun hc => hd hc.symm, ih h⟩

theorem atoi_digits_append (x y : CStr) (c : Char) (hc : is_digit c = false) (acc : Int) :
    atoi_digits (x ++ c :: y) acc = atoi_digits x acc := by
  induction x generalizing acc with
  | nil => simp [atoi_digits, hc]
  | cons d x ih =>
    simp only [List.cons_append, atoi_digits]
    split
    · exact ih _
    · rfl

theorem decimal_value_append (x y : CStr) (c : Char) (hsp : isspace c = false)
    (hm : c ≠ '-') (hp : c ≠ '+') (hc : is_digit c = false) :
    decimal_value (x ++ c :: y) = decimal_value x := by
  unfold decimal_value
  induction x with
  | nil =>
    simp [List.dropWhile_cons, hsp, hm, hp, atoi_digits, hc]
  | cons d x ih =>
    by_cases hd : isspace d = true
    · simp only [List.cons_append, List.dropWhile_cons, hd, if_true]
      exact ih
    · simp only [List.cons_append, List.dropWhile_cons, hd, Bool.false_eq_true, if_false]
      simp only [atoi_digits_append x y c hc]
      split
      · rfl
      · split
        · rfl
        · rw [← List.cons_append, atoi_digits_append (d :: x) y c hc]

/-- The value of `atoi` is settled by the text in front of the first
character that is neither white space, a sign nor a digit. -/
theorem atoi_append (x y : CStr) (c : Char) (hsp : isspace c = false) (hm : c ≠ '-')
    (hp : c ≠ '+') (hc : is_digit c = false) : atoi (x ++ c :: y) = atoi x := by
  unfold atoi strtol
  rw [decimal_value_append x y c hsp hm hp hc]

theorem to_int_of_range (v : Int) (h1 : -2147483648 ≤ v) (h2 : v < 2147483648) :
    to_int v = v := by
  unfold to_int
  omega

theorem atoi_of_range (s : CStr) (h1 : -2147483648 ≤ decimal_value s)
    (h2 : decimal_value s < 2147483648) : atoi s = decimal_value s := by
  unfold atoi strtol
  rw [if_neg (by omega), if_neg (by omega)]
  exact to_int_of_range _ h1 h2

theorem indexOf_cons_paren (t : CStr) (c : Char) (hc : c ≠ '(') :
    ('(' :: t).indexOf c = t.indexOf c + 1 :=
  List.indexOf_cons_ne _ (fun h => hc h.symm)

section literal_theorems
set_option linter.unusedSectionVars false
variable {α : Type} [Zero α] [Add α] [Sub α]

/-- The rows and cols of a literal are the `int`s that `atoi` returns: the
texts `4294967297` and `-4294967295` read as 1 and a text beyond the range of
`long` reads as -1, so that `mcalc (4294967297,1:5) (1,1:5) ADD` adds two
matrices of one row and one column and `mcalc (4294967297,1:5) (2,1:1,2) ADD`
is a mismatch. -/
theorem parse_matrix_reduced_dimensions :
    atoi "4294967297".toList = 1 ∧ atoi "-4294967295".toList = 1 ∧
    atoi "99999999999999999999".toList = -1 ∧
    parse_matrix atoi "(4294967297,1:5)".toList = some ⟨1, 1, [5]⟩ ∧
    parse_matrix atoi "(99999999999999999999,1:5)".toList = none ∧
    builtin_mcalc atoi print_int
        ⟨["mcalc".toList, "(4294967297,1:5)".toList, "(1,1:5)".toList, "ADD".toList],
          4, none⟩
      = some { ret := 0, out := ["(1,1:10)".toList], parse_calls := 2, compute_calls := 1 } ∧
    builtin_mcalc atoi print_int
        ⟨["mcalc".toList, "(4294967297,1:5)".toList, "(2,1:1,2)".toList, "ADD".toList],
          4, none⟩
      = some { ret := 1, out := ["ERR_MAT_INPUT".toList], parse_calls := 2,
               compute_calls := 0 } := by
  decide

/-- C11: the literal `(1,2:1,2,3)` holds three values for a matrix of two
and is accepted, the third value being dropped; so is `(1,2:1,,2)`, whose
empty value `strtok` skips.  A literal with fewer values is rejected.  The
command `mcalc (1,2:1,2,3) (1,2:0,0) ADD` prints a result and returns 0. -/
theorem parse_matrix_accepts_extra_values :
    ("1,2,3".toList.splitOn ',').length = 3 ∧
    parse_matrix atoi "(1,2:1,2,3)".toList = some ⟨1, 2, [1, 2]⟩ ∧
    ("1,,2".toList.splitOn ',').length = 3 ∧
    parse_matrix atoi "(1,2:1,,2)".toList = some ⟨1, 2, [1, 2]⟩ ∧
    parse_matrix atoi "(1,2:1)".toList = none ∧
    parse_matrix atoi "(1,2:1,2)".toList = some ⟨1, 2, [1, 2]⟩ ∧
    (builtin_mcalc atoi print_int
        ⟨["mcalc".toList, "(1,2:1,2,3)".toList, "(1,2:0,0)".toList, "ADD".toList], 4, none⟩).map
        (fun r => (r.ret, r.out))
      = some (0, ["(1,2:1,2)".toList]) := by
  decide

/-! ## The matrix calculator -/

theorem parse_operands_loop_all (atof : CStr → α) (ops : List CStr) :
    ∀ (ms acc : List (matrix_t α)) (n : Nat), ops.map (parse_matrix atof) = ms.map some →
      parse_operands_loop atof ops acc n = (some (acc ++ ms), n + ops.length) := by
  induction ops with
  | nil =>
    intro ms acc n h
    cases ms with
    | nil => simp [parse_operands_loop]
    | cons m ms => simp at h
  | cons o ops ih =>
    intro ms acc n h
    cases ms with
    | nil => simp at h
    | cons m ms =>
      simp only [List.map_cons, List.cons.injEq] at h
      simp only [parse_operands_loop, h.1]
      rw [ih ms (acc ++ [m]) (n + 1) h.2]
      simp only [List.append_assoc, List.singleton_append, List.length_cons, Prod.mk.injEq,
        true_and]
      omega

theorem all_compatible_same (ms : List (matrix_t α)) (h : all_compatible ms = true) :
    ∀ a ∈ ms, ∀ b ∈ ms, a.rows = b.rows ∧ a.cols = b.cols := by
  cases ms with
  | nil => simp
  | cons m0 rest =>
    simp only [all_compatible, List.all_eq_true, matrices_compatible, Bool.and_eq_true,
      decide_eq_true_eq] at h
    have key : ∀ a ∈ m0 :: rest, m0.rows = a.rows ∧ m0.cols = a.cols := by
      intro a ha
      rcases List.mem_cons.mp ha with h1 | h1
      · rw [h1]; exact ⟨rfl, rfl⟩
      · exact h a h1
    intro a ha b hb
    obtain ⟨a1, a2⟩ := key a ha
    obtain ⟨b1, b2⟩ := key b hb
    exact ⟨by rw [← a1, b1], by rw [← a2, b2]⟩

/-- C13: when `argc < 4`, or when the last argument is neither `ADD` nor
`SUB`, `builtin_mcalc` prints `ERR_MAT_INPUT` and returns 1 without calling
`parse_matrix` or `compute_matrices_parallel`. -/
theorem builtin_mcalc_input_format (atof : CStr → α) (print_value : α → CStr)
    (cmd : command_t)
    (h : cmd.argc < 4 ∨ (last_arg cmd ≠ "ADD".toList ∧ last_arg cmd ≠ "SUB".toList)) :
    builtin_mcalc atof print_value cmd
      = some { ret := 1, out := ["ERR_MAT_INPUT".toList], parse_calls := 0,
               compute_calls := 0 } := by
  unfold builtin_mcalc
  by_cases h4 : cmd.argc < 4
  · simp [h4]
  · rcases h with h | h
    · exact absurd h h4
    · unfold last_arg at h
      simp only [h4, if_false]
      rw [if_pos h]

/-- C12: when every operand of an mcalc command parses and two of the
parsed matrices differ in rows or cols, `builtin_mcalc` returns 1 and prints
`ERR_MAT_INPUT` and nothing else, and the reduction is not called. -/
theorem builtin_mcalc_mismatch (atof : CStr → α) (print_value : α → CStr)
    (cmd : command_t) (ms : List (matrix_t α))
    (hparse : (mcalc_operands cmd).map (parse_matrix atof) = ms.map some)
    (hmis : ∃ a ∈ ms, ∃ b ∈ ms, ¬ (a.rows = b.rows ∧ a.cols = b.cols)) :
    ∃ calls : Nat,
      builtin_mcalc atof print_value cmd
        = some { ret := 1, out := ["ERR_MAT_INPUT".toList], parse_calls := calls,
                 compute_calls := 0 } := by
  unfold builtin_mcalc
  by_cases h4 : cmd.argc < 4
  · exact ⟨0, by simp [h4]⟩
  · simp only [h4, if_false]
    split
    · exact ⟨0, rfl⟩
    · split
      · exact ⟨0, rfl⟩
      · unfold mcalc_operands at hparse
        rw [parse_operands_loop_all atof _ ms [] 0 hparse]
        simp only [List.nil_append]
        have hnot : all_compatible ms = false := by
          cases hv : all_compatible ms with
          | false => rfl
          | true =>
            obtain ⟨a, ha, b, hb, hne⟩ := hmis
            exact absurd (all_compatible_same ms hv a ha b hb) hne
        simp only [hnot, Bool.not_false, if_true]
        exact ⟨_, rfl⟩

end literal_theorems

/-- C13 at a command with a single operand and at one with an unknown
operation. -/
theorem builtin_mcalc_input_format_witness :
    builtin_mcalc atoi print_int ⟨["mcalc".toList, "(1,1:1)".toList, "ADD".toList], 3, none⟩
      = some { ret := 1, out := ["ERR_MAT_INPUT".toList], parse_calls := 0,
               compute_calls := 0 } ∧
    builtin_mcalc atoi print_int
        ⟨["mcalc".toList, "(1,1:1)".toList, "(1,1:2)".toList, "MUL".toList], 4, none⟩
      = some { ret := 1, out := ["ERR_MAT_INPUT".toList], parse_calls := 0,
               compute_calls := 0 } :=
  ⟨builtin_mcalc_input_format atoi print_int _ (Or.inl (by decide)),
   builtin_mcalc_input_format atoi print_int _ (Or.inr (by decide))⟩

/-- C12 at the operands `(1,2:1,2)` and `(2,1:1,2)`. -/
theorem builtin_mcalc_mismatch_witness :
    ∃ calls : Nat,
      builtin_mcalc atoi print_int
          ⟨["mcalc".toList, "(1,2:1,2)".toList, "(2,1:1,2)".toList, "ADD".toList], 4, none⟩
        = some { ret := 1, out := ["ERR_MAT_INPUT".toList], parse_calls := calls,
                 compute_calls := 0 } :=
  builtin_mcalc_mismatch atoi print_int
    ⟨["mcalc".toList, "(1,2:1,2)".toList, "(2,1:1,2)".toList, "ADD".toList], 4, none⟩
    [⟨1, 2, [1, 2]⟩, ⟨2, 1, [1, 2]⟩] (by decide) (by decide)

/-! ## The value loop of `parse_matrix` -/

theorem strtok_length {s tok saved : CStr} {delim : Char}
    (h : strtok s delim = some (tok, saved)) : saved.length < s.length := by
  unfold strtok at h
  have hle : (s.dropWhile (fun d => d == delim)).length ≤ s.length :=
    (List.dropWhile_sublist _).length_le
  cases hd : s.dropWhile (fun d => d == delim) with
  | nil => simp [hd] at h
  | cons c r =>
    rw [hd] at h hle
    simp only [Option.some.injEq, Prod.mk.injEq] at h
    rw [← h.2]
    have := tail_dropWhile_length_lt (fun d => d != delim) (c :: r) (by simp)
    omega

theorem strtok_nil (delim : Char) : strtok [] delim = none := rfl

theorem strtok_tokens_fuel (n m : Nat) (s : CStr) (delim : Char)
    (hn : s.length ≤ n) (hm : s.length ≤ m) :
    strtok_tokens n s delim = strtok_tokens m s delim := by
  induction n generalizing m s with
  | zero =>
    have : s = [] := List.length_eq_zero.mp (by omega)
    subst this
    cases m <;> simp [strtok_tokens, strtok_nil]
  | succ n ih =>
    cases m with
    | zero =>
      have : s = [] := List.length_eq_zero.mp (by omega)
      subst this
      simp [strtok_tokens, strtok_nil]
    | succ m =>
      simp only [strtok_tokens]
      cases hs : strtok s delim with
      | none => rfl
      | some tr =>
        obtain ⟨tok, saved⟩ := tr
        have := strtok_length hs
        simp only
        rw [ih m saved (by omega) (by omega)]

theorem strtok_tokens_unfold (s : CStr) (delim : Char) :
    strtok_tokens s.length s delim
      = match strtok s delim with
        | none => []
        | some (tok, saved) => tok :: strtok_tokens saved.length saved delim := by
  cases hl : s.length with
  | zero =>
    have : s = [] := List.length_eq_zero.mp hl
    subst this
    simp [strtok_tokens, strtok_nil]
  | succ n =>
    simp only [strtok_tokens]
    cases hs : strtok s delim with
    | none => rfl
    | some tr =>
      obtain ⟨tok, saved⟩ := tr
      have := strtok_length hs
      simp only
      rw [strtok_tokens_fuel n saved.length saved delim (by omega) (le_refl _)]

section value_loop
set_option linter.unusedSectionVars false
variable {α : Type} [Zero α] [Add α] [Sub α]

/-- The value loop stops at `index = size` or when the tokens run out,
whichever comes first. -/
theorem parse_values_loop_index (atof : CStr → α) (size : Nat) (fuel : Nat) :
    ∀ (s : CStr) (index : Nat) (data : List α), index ≤ size → size ≤ index + fuel →
      (parse_values_loop atof size fuel (strtok s ',') index data).1
        = min (index + (strtok_tokens s.length s ',').length) size := by
  induction fuel with
  | zero =>
    intro s index data h1 h2
    have : index = size := by omega
    simp [parse_values_loop, this]
  | succ fuel ih =>
    intro s index data h1 h2
    rw [strtok_tokens_unfold]
    simp only [parse_values_loop]
    cases hs : strtok s ',' with
    | none => simp; omega
    | some tr =>
      obtain ⟨tok, saved⟩ := tr
      simp only
      by_cases hlt : index < size
      · simp only [hlt, if_true]
        rw [ih saved (index + 1) _ (by omega) (by omega)]
        simp only [List.length_cons]
        congr 1
        omega
      · have : index = size := by omega
        simp [this]

/-- A literal that `parse_matrix` accepts holds at least `rows * cols`
non-empty values between its first `:` and its first `)`, the product being
the `int` that the code computes: with fewer values parsing fails. -/
theorem parse_matrix_some_values (atof : CStr → α) (str : CStr) (m : matrix_t α)
    (h : parse_matrix atof str = some m) :
    (to_int (m.rows * m.cols)).toNat
      ≤ (strtok_tokens str.length
          ((str.take (str.indexOf ')')).drop (str.indexOf ':' + 1)) ',').length := by
  unfold parse_matrix at h
  split at h
  · exact absurd h (by simp)
  · rename_i hhead
    simp only [not_or, ne_eq, not_not] at hhead
    obtain ⟨hhead, -⟩ := hhead
    obtain ⟨t, rfl⟩ : ∃ t, str = '(' :: t := by
      cases str with
      | nil => simp at hhead
      | cons d t =>
        simp only [List.head?_cons, Option.some.injEq] at hhead
        exact ⟨t, by rw [hhead]⟩
    simp only [List.tail_cons] at h
    split at h
    · rename_i comma1 colon end_pos hcomma hcolon hend
      split at h
      · exact absurd h (by simp)
      · rename_i hord
        simp only [not_or, not_le] at hord
        split at h
        · exact absurd h (by simp)
        · rename_i hpos
          simp only [not_or, not_le] at hpos
          split at h
          · exact absurd h (by simp)
          rename_i hsz
          split at h
          · exact absurd h (by simp)
          · rename_i hidx
            simp only [ne_eq, not_not] at hidx
            simp only [Option.some.injEq] at h
            obtain ⟨-, -, d3, -⟩ := strchr_some t ':' colon hcolon
            obtain ⟨-, -, e3, e4⟩ := strchr_some t ')' end_pos hend
            have hvals : (('(' :: t).take (('(' :: t).indexOf ')')).drop
                (('(' :: t).indexOf ':' + 1)
                = (t.drop (colon + 1)).take (end_pos - (colon + 1)) := by
              rw [indexOf_cons_paren t ':' (by decide), indexOf_cons_paren t ')' (by decide),
                d3, e3]
              simp only [List.take_succ_cons, List.drop_succ_cons]
              rw [List.drop_take]
            rw [hvals, ← h]
            simp only [create_matrix]
            rw [parse_values_loop_index atof _ _ _ 0 _ (by omega) (by omega)] at hidx
            have hlen : ((t.drop (colon + 1)).take (end_pos - (colon + 1))).length
                ≤ ('(' :: t).length := by
              rw [List.length_take, List.length_drop, List.length_cons]
              omega
            rw [strtok_tokens_fuel _ _ _ ',' hlen (le_refl _)]
            omega
    · exact absurd h (by simp)

end value_loop

/-! ## Tokens of quote-free input and the argument bound -/

theorem tokenize_some_all (s : CStr) (max_args : Int) (toks : List CStr)
    (h : tokenize s max_args = some toks) : toks = all_tokens s := by
  by_cases h0 : 0 ≤ max_args
  · have ht := tokenize_some_eq_take s max_args h0 toks h
    have hlen : ((all_tokens s).length : Int) ≤ max_args := by
      by_contra hc
      rw [tokenize_none_of_lt max_args h0 s (by omega)] at h
      exact absurd h (by simp)
    rw [ht, List.take_of_length_le (by omega)]
  · have hz : max_args.toNat = 0 := by omega
    simp only [tokenize, hz, tokenize_loop, List.length_nil] at h
    by_cases hs : s = []
    · subst hs
      simp only [ne_eq, not_true_eq_false, and_false, if_false, Option.some.injEq] at h
      rw [← h]; rfl
    · rw [if_pos ⟨by simp; omega, hs⟩] at h
      exact absurd h (by simp)

theorem runs_from_mem (s cur : CStr) (hcur : ∀ c ∈ cur, is_ws c = false) :
    ∀ t ∈ runs_from s cur, t ≠ [] ∧ ∀ c ∈ t, is_ws c = false := by
  induction s generalizing cur with
  | nil =>
    intro t ht
    simp only [runs_from] at ht
    by_cases hc : cur = []
    · simp [hc] at ht
    · simp only [hc, if_false, List.mem_singleton] at ht
      subst ht
      exact ⟨hc, hcur⟩
  | cons c rest ih =>
    intro t ht
    simp only [runs_from] at ht
    by_cases hw : is_ws c = true
    · simp only [hw, if_true] at ht
      by_cases hc : cur = []
      · simp only [hc, if_true] at ht
        exact ih [] (by simp) t ht
      · simp only [hc, if_false, List.mem_cons] at ht
        rcases ht with h1 | h1
        · subst h1; exact ⟨hc, hcur⟩
        · exact ih [] (by simp) t h1
    · simp only [hw, Bool.false_eq_true, if_false] at ht
      apply ih (cur ++ [c]) _ t ht
      intro d hd
      rcases List.mem_append.mp hd with h1 | h1
      · exact hcur d h1
      · simp only [List.mem_singleton] at h1
        subst h1
        simpa using hw

/-- C21: for every input without a quote and every `max_args`, a
successful `tokenize` returns exactly the maximal runs of characters that
are not white space, in input order; each of them is non-empty and free of
white space and the count is the number of runs. -/
theorem tokenize_quote_free_runs (s : CStr) (hq : '"' ∉ s) (max_args : Int)
    (toks : List CStr) (h : tokenize s max_args = some toks) :
    toks = runs s ∧ toks.length = (runs s).length ∧
    ∀ t ∈ toks, t ≠ [] ∧ ∀ c ∈ t, is_ws c = false := by
  have ht : toks = runs s := by
    rw [tokenize_some_all s max_args toks h, all_tokens_eq_runs s hq]
  refine ⟨ht, by rw [ht], ?_⟩
  rw [ht]
  exact runs_from_mem s [] (by simp)

/-- C21 at a string with leading, repeated and trailing white space. -/
theorem tokenize_quote_free_runs_witness :
    tokenize " ab\tc \n d".toList 7 = some ["ab".toList, "c".toList, "d".toList] ∧
    ["ab".toList, "c".toList, "d".toList] = runs " ab\tc \n d".toList :=
  ⟨by decide,
   (tokenize_quote_free_runs " ab\tc \n d".toList (by decide) 7
      ["ab".toList, "c".toList, "d".toList] (by decide)).1⟩

theorem scan_redirect_sublist_aux (n : Nat) :
    ∀ (tokens : List CStr) (target : Option CStr), tokens.length ≤ n →
      (scan_redirect tokens target).1.Sublist tokens := by
  induction n with
  | zero =>
    intro tokens target h
    have : tokens = [] := List.length_eq_zero.mp (by omega)
    subst this
    simp [scan_redirect]
  | succ n ih =>
    intro tokens target h
    match tokens, h with
    | [], _ => simp [scan_redirect]
    | [t], _ => simp [scan_redirect]
    | t :: t2 :: rest2, h =>
      simp only [List.length_cons] at h
      by_cases h2 : t = ['2', '>']
      · simp only [scan_redirect, h2, if_true]
        exact ((ih rest2 (some t2) (by omega)).cons t2).cons _
      · simp only [scan_redirect, h2, if_false]
        exact (ih (t2 :: rest2) target (by simp only [List.length_cons]; omega)).cons₂ t

/-- The arguments kept by the scan are a sublist of the tokens. -/
theorem scan_redirect_sublist (tokens : List CStr) (target : Option CStr) :
    (scan_redirect tokens target).1.Sublist tokens :=
  scan_redirect_sublist_aux tokens.length tokens target (le_refl _)

/-- C26: for every `max_args ≥ 0` a successful `tokenize` returns at most
`max_args` tokens, and every command of a pipeline returned by `parse_line`
has `argc` equal to the number of its arguments and at most `MAX_ARGS = 7`. -/
theorem tokenize_count_bounded (max_args : Int) (h0 : 0 ≤ max_args) :
    (∀ (s : CStr) (toks : List CStr), tokenize s max_args = some toks →
        (0 : Int) ≤ (toks.length : Int) ∧ (toks.length : Int) ≤ max_args) ∧
    (∀ (line : CStr) (p : pipeline_t), parse_line line = some p →
        ∀ c ∈ p.commands, c.argc = c.args.length ∧ (0 : Int) ≤ (c.argc : Int) ∧
          (c.argc : Int) ≤ MAX_ARGS ∧ MAX_ARGS = 7) := by
  have hbound : ∀ (m : Int), 0 ≤ m → ∀ (s : CStr) (toks : List CStr),
      tokenize s m = some toks → (toks.length : Int) ≤ m := by
    intro m hm s toks h
    rw [tokenize_some_eq_take s m hm toks h, List.length_take]
    omega
  have hcmd : ∀ (s : CStr) (c : command_t), parse_single_command s = some c →
      c.argc = c.args.length ∧ (0 : Int) ≤ (c.argc : Int) ∧ (c.argc : Int) ≤ MAX_ARGS ∧
        MAX_ARGS = 7 := by
    intro s c hc
    cases ht : tokenize s MAX_ARGS with
    | none => simp [parse_single_command, ht] at hc
    | some tokens =>
      rw [parse_single_command_of_tokens s tokens ht] at hc
      simp only [Option.some.injEq] at hc
      subst hc
      have h1 := (scan_redirect_sublist tokens none).length_le
      have h2 := hbound MAX_ARGS (by decide) s tokens ht
      refine ⟨rfl, by simp, ?_, rfl⟩
      simp only
      omega
  refine ⟨fun s toks h => ⟨by omega, hbound max_args h0 s toks h⟩, ?_⟩
  intro line p hp c hc
  simp only [parse_line, parse_stripped] at hp
  cases hl : parse_single_command (split_on_pipe (check_background line).1).1 with
  | none => simp [hl] at hp
  | some left =>
    simp only [hl] at hp
    by_cases hpipe : (split_on_pipe (check_background line).1).2.2 = true
    · simp only [hpipe, if_true] at hp
      cases hr : parse_single_command
          ((split_on_pipe (check_background line).1).2.1.getD []) with
      | none => simp [hr] at hp
      | some right =>
        simp only [hr, Option.some.injEq] at hp
        subst hp
        simp only [List.mem_cons, List.mem_singleton, List.not_mem_nil, or_false] at hc
        rcases hc with rfl | rfl
        · exact hcmd _ _ hl
        · exact hcmd _ _ hr
    · simp only [hpipe, Bool.false_eq_true, if_false, Option.some.injEq] at hp
      subst hp
      simp only [List.mem_singleton] at hc
      subst hc
      exact hcmd _ _ hl

/-- C26 at `a b c` with a budget of 7. -/
theorem tokenize_count_bounded_witness :
    (0 : Int) ≤ 7 ∧
    tokenize "a b c".toList 7 = some ["a".toList, "b".toList, "c".toList] ∧
    ((["a".toList, "b".toList, "c".toList] : List CStr).length : Int) ≤ 7 :=
  ⟨by decide, by decide,
   ((tokenize_count_bounded 7 (by decide)).1 "a b c".toList
      ["a".toList, "b".toList, "c".toList] (by decide)).2⟩

/-! ## The token budget of the command parser -/

theorem tokenize_some_of_lt (max_args : Int) (s : CStr)
    (h : ((all_tokens s).length : Int) < max_args) :
    tokenize s max_args = some (all_tokens s) := by
  rw [tokenize_eq s max_args (by omega)]
  have hlen : ((all_tokens s).take max_args.toNat).length = (all_tokens s).length := by
    rw [List.length_take]; omega
  rw [if_neg (by rw [hlen]; omega), List.take_of_length_le (by omega)]

/-- C22, as stated, fails: a command substring of eight tokens (six
arguments, `2>` and a file name) is rejected. -/
theorem parse_single_command_rejects_eight_tokens :
    (all_tokens "c a1 a2 a3 a4 a5 2> f".toList).length = 8 ∧
    parse_single_command "c a1 a2 a3 a4 a5 2> f".toList = none ∧
    parse_single_command_out "c a1 a2 a3 a4 a5 2> f".toList = ["ERR_ARGS".toList] := by
  decide

/-- C22, amended: the command parser tokenizes with a budget of
`MAX_ARGS = 7` tokens, the tokens of a redirect included: a command
substring with more than 7 tokens is rejected, and one with fewer than 7
tokens is parsed, its tokens being scanned for the redirect. -/
theorem parse_single_command_budget (s : CStr) :
    MAX_ARGS = 7 ∧
    (7 < (all_tokens s).length → parse_single_command s = none) ∧
    ((all_tokens s).length < 7 →
      parse_single_command s
        = some { args := (scan_redirect (all_tokens s) none).1,
                 argc := (scan_redirect (all_tokens s) none).1.length,
                 stderr_file := (scan_redirect (all_tokens s) none).2 }) := by
  refine ⟨rfl, ?_, ?_⟩
  · intro h
    rw [parse_single_command_none_iff]
    exact tokenize_none_of_lt MAX_ARGS (by decide) s (by simp only [MAX_ARGS]; omega)
  · intro h
    exact parse_single_command_of_tokens s _
      (tokenize_some_of_lt MAX_ARGS s (by simp only [MAX_ARGS]; omega))

/-- C22, amended, at a substring of nine tokens and at one of four. -/
theorem parse_single_command_budget_witness :
    parse_single_command "c a1 a2 a3 a4 a5 a6 2> f".toList = none ∧
    parse_single_command "c a1 2> f".toList
      = some { args := ["c".toList, "a1".toList], argc := 2, stderr_file := some "f".toList } :=
  ⟨(parse_single_command_budget "c a1 a2 a3 a4 a5 a6 2> f".toList).2.1 (by decide),
   (parse_single_command_budget "c a1 2> f".toList).2.2 (by decide)⟩

/-- C23: the lines `&`, `ls |` and `2> f` are not empty, hold no tab and
no two adjacent spaces, and are parsed into pipelines with a command of
`argc = 0`, whose `args[0]` is the NULL terminator. -/
theorem parse_line_command_without_name :
    has_consecutive_spaces "&".toList = false ∧
    parse_line "&".toList = some ⟨[⟨[], 0, none⟩], 1, true⟩ ∧
    has_consecutive_spaces "ls |".toList = false ∧
    parse_line "ls |".toList = some ⟨[⟨["ls".toList], 1, none⟩, ⟨[], 0, none⟩], 2, false⟩ ∧
    has_consecutive_spaces "2> f".toList = false ∧
    parse_line "2> f".toList = some ⟨[⟨[], 0, some "f".toList⟩], 1, false⟩ := by
  decide

/-! ## Counters of a blocked pipeline and dependence on the arguments -/

/-- C25, as stated, fails: with the denylist holding `rm -rf /`, the
pipeline of `rm x | rm -rf /` is blocked and the warned counter rises from
0 to 1. -/
theorem check_dangerous_pipeline_block_after_warn :
    (check_dangerous_pipeline (fun _ => ⟨[], []⟩) ["rm -rf /".toList]
        ⟨[⟨["rm".toList, "x".toList], 2, none⟩,
          ⟨["rm".toList, "-rf".toList, "/".toList], 3, none⟩], 2, false⟩ ⟨0, 0, 0⟩).1 = -1 ∧
    (check_dangerous_pipeline (fun _ => ⟨[], []⟩) ["rm -rf /".toList]
        ⟨[⟨["rm".toList, "x".toList], 2, none⟩,
          ⟨["rm".toList, "-rf".toList, "/".toList], 3, none⟩], 2, false⟩ ⟨0, 0, 0⟩).2.1
      = ⟨0, 1, 1⟩ := by
  decide

theorem check_dangerous_loop_blocked (u : Nat → uninit_t) (dl : List CStr)
    (cmds : List command_t) (i : Nat) (stats : command_stats_t) (out : List CStr)
    (h : (check_dangerous_loop u dl cmds i stats out).1 = -1) :
    (check_dangerous_loop u dl cmds i stats out).2.1
      = { cmds_count := stats.cmds_count,
          blocked_cmd_count := stats.blocked_cmd_count + 1,
          unblocked_dangerous_cmds_count :=
            stats.unblocked_dangerous_cmds_count
              + (warn_count_before_block u dl cmds i : Int) } := by
  induction cmds generalizing i stats out with
  | nil => simp [check_dangerous_loop] at h
  | cons cmd rest ih =>
    simp only [check_dangerous_loop] at h ⊢
    by_cases h2 : (is_dangerous_command (u i) dl (reconstruct_command_string cmd) (-1)).1 = 2
    · simp [h2, warn_count_before_block]
    · simp only [h2, if_false] at h ⊢
      by_cases h1 : (is_dangerous_command (u i) dl (reconstruct_command_string cmd) (-1)).1 = 1
      · simp only [h1, if_true] at h ⊢
        rw [ih (i + 1) _ _ h]
        simp only [warn_count_before_block, h1, h2, if_true, if_false]
        simp only [command_stats_t.mk.injEq, true_and]
        push_cast
        ring
      · simp only [h1, if_false] at h ⊢
        rw [ih (i + 1) _ _ h]
        simp [warn_count_before_block, h1, h2]

/-- C25, amended: when `check_dangerous_pipeline` blocks, `blocked_cmd_count`
rises by one and `unblocked_dangerous_cmds_count` rises by the number of
commands classified WARN in front of the blocking command; the command
counter is unchanged. -/
theorem check_dangerous_pipeline_blocked_counts (u : Nat → uninit_t) (dl : List CStr)
    (p : pipeline_t) (stats : command_stats_t)
    (h : (check_dangerous_pipeline u dl p stats).1 = -1) :
    (check_dangerous_pipeline u dl p stats).2.1
      = { cmds_count := stats.cmds_count,
          blocked_cmd_count := stats.blocked_cmd_count + 1,
          unblocked_dangerous_cmds_count :=
            stats.unblocked_dangerous_cmds_count
              + (warn_count_before_block u dl (p.commands.take p.cmd_count) 0 : Int) } := by
  unfold check_dangerous_pipeline at h ⊢
  by_cases h0 : dl.length = 0
  · simp [h0] at h
  · simp only [h0, if_false] at h ⊢
    exact check_dangerous_loop_blocked u dl _ 0 stats [] h

/-- C25, amended, at the pipeline of `rm x | rm -rf /`: one warned command
stands in front of the blocking one. -/
theorem check_dangerous_pipeline_blocked_counts_witness :
    (check_dangerous_pipeline (fun _ => ⟨[], []⟩) ["rm -rf /".toList]
        ⟨[⟨["rm".toList, "x".toList], 2, none⟩,
          ⟨["rm".toList, "-rf".toList, "/".toList], 3, none⟩], 2, false⟩ ⟨4, 2, 7⟩).2.1
      = ⟨4, 3, 8⟩ :=
  check_dangerous_pipeline_blocked_counts (fun _ => ⟨[], []⟩) ["rm -rf /".toList]
    ⟨[⟨["rm".toList, "x".toList], 2, none⟩,
      ⟨["rm".toList, "-rf".toList, "/".toList], 3, none⟩], 2, false⟩ ⟨4, 2, 7⟩ (by decide)

theorem reconstruct_command_string_congr (c d : command_t)
    (h : (c.args, c.argc) = (d.args, d.argc)) :
    reconstruct_command_string c = reconstruct_command_string d := by
  simp only [Prod.mk.injEq] at h
  simp only [reconstruct_command_string, h.1, h.2]

theorem check_dangerous_loop_congr (u : Nat → uninit_t) (dl : List CStr) :
    ∀ (cmds cmds2 : List command_t) (i : Nat) (stats : command_stats_t) (out : List CStr),
      cmds.map (fun c => (c.args, c.argc)) = cmds2.map (fun c => (c.args, c.argc)) →
      check_dangerous_loop u dl cmds i stats out = check_dangerous_loop u dl cmds2 i stats out := by
  intro cmds
  induction cmds with
  | nil =>
    intro cmds2 i stats out h
    cases cmds2 with
    | nil => rfl
    | cons d rest2 => simp at h
  | cons c rest ih =>
    intro cmds2 i stats out h
    cases cmds2 with
    | nil => simp at h
    | cons d rest2 =>
      simp only [List.map_cons, List.cons.injEq] at h
      simp only [check_dangerous_loop, reconstruct_command_string_congr c d h.1]
      split
      · rfl
      · split
        · exact ih rest2 _ _ _ h.2
        · exact ih rest2 _ _ _ h.2

/-- C28: two pipelines with the same `cmd_count` and, command by command,
the same arguments (`args` and `argc`) get the same return value, the same
statistics and the same printed lines from `check_dangerous_pipeline`,
whatever their `stderr_file` fields and `is_background` flags. -/
theorem check_dangerous_pipeline_args_only (u : Nat → uninit_t) (dl : List CStr)
    (stats : command_stats_t) (p q : pipeline_t)
    (hcount : p.cmd_count = q.cmd_count)
    (hargs : p.commands.map (fun c => (c.args, c.argc))
      = q.commands.map (fun c => (c.args, c.argc))) :
    check_dangerous_pipeline u dl p stats = check_dangerous_pipeline u dl q stats := by
  unfold check_dangerous_pipeline
  split
  · rfl
  · apply check_dangerous_loop_congr
    rw [List.map_take, List.map_take, hargs, hcount]

/-- C28 at `rm -rf /` and `rm -rf / 2> e &`: both are blocked alike. -/
theorem check_dangerous_pipeline_args_only_witness :
    parse_line "rm -rf /".toList
      = some ⟨[⟨["rm".toList, "-rf".toList, "/".toList], 3, none⟩], 1, false⟩ ∧
    parse_line "rm -rf / 2> e &".toList
      = some ⟨[⟨["rm".toList, "-rf".toList, "/".toList], 3, some "e".toList⟩], 1, true⟩ ∧
    check_dangerous_pipeline (fun _ => ⟨[], []⟩) ["rm -rf /".toList]
        ⟨[⟨["rm".toList, "-rf".toList, "/".toList], 3, none⟩], 1, false⟩ ⟨0, 0, 0⟩
      = check_dangerous_pipeline (fun _ => ⟨[], []⟩) ["rm -rf /".toList]
        ⟨[⟨["rm".toList, "-rf".toList, "/".toList], 3, some "e".toList⟩], 1, true⟩ ⟨0, 0, 0⟩ ∧
    (check_dangerous_pipeline (fun _ => ⟨[], []⟩) ["rm -rf /".toList]
        ⟨[⟨["rm".toList, "-rf".toList, "/".toList], 3, some "e".toList⟩], 1, true⟩
        ⟨0, 0, 0⟩).1 = -1 :=
  ⟨by decide, by decide,
   check_dangerous_pipeline_args_only (fun _ => ⟨[], []⟩) ["rm -rf /".toList] ⟨0, 0, 0⟩
     ⟨[⟨["rm".toList, "-rf".toList, "/".toList], 3, none⟩], 1, false⟩
     ⟨[⟨["rm".toList, "-rf".toList, "/".toList], 3, some "e".toList⟩], 1, true⟩ rfl rfl,
   by decide⟩

/-! ## Termination of the matrix reduction -/

section termination
set_option linter.unusedSectionVars false
variable {α : Type} [Zero α] [Add α] [Sub α]

theorem collect_results_length (l : List (Option (matrix_t α))) :
    ∀ xs : List (matrix_t α), collect_results l = some xs → xs.length = l.length := by
  induction l with
  | nil =>
    intro xs h
    simp only [collect_results, Option.some.injEq] at h
    subst h
    rfl
  | cons o rest ih =>
    intro xs h
    cases o with
    | none => simp [collect_results] at h
    | some m =>
      simp only [collect_results] at h
      cases hr : collect_results rest with
      | none => simp [hr] at h
      | some ys =>
        simp only [hr, Option.some.injEq] at h
        rw [← h]
        simp only [List.length_cons, ih ys hr]

theorem pair_results_length (ms : List (matrix_t α)) (pairs : Nat) (op : Char) :
    (pair_results ms pairs op).length = pairs := by
  simp [pair_results]

/-- With a recursion bound of at least the number of matrices, the
reduction of a non-empty list returns, for every operation and whatever the
shapes of the matrices. -/
theorem compute_matrices_parallel_returns (L : Nat) :
    ∀ (ms : List (matrix_t α)) (op : Char) (fuel : Nat), ms.length = L → 1 ≤ L → L ≤ fuel →
      ∃ r, compute_matrices_parallel fuel ms op = some r := by
  induction L using Nat.strong_induction_on with
  | _ L ih =>
    intro ms op fuel hlen hL hfuel
    obtain ⟨f, rfl⟩ : ∃ f, fuel = f + 1 := ⟨fuel - 1, by omega⟩
    rw [compute_matrices_parallel]
    simp only [hlen]
    by_cases h1 : L = 1
    · simp only [h1, if_true]
      split <;> exact ⟨_, rfl⟩
    · simp only [h1, if_false]
      by_cases h2 : L = 2
      · simp only [h2, if_true]
        split <;> exact ⟨_, rfl⟩
      · simp only [h2, if_false]
        have hmid : ¬ (L / 2 = 0) := by omega
        by_cases hop : op = 'S'
        · simp only [hop, if_true, hmid, if_false]
          obtain ⟨r1, hr1⟩ := ih (L / 2) (by omega) (ms.take (L / 2)) 'S' f
            (by rw [List.length_take]; omega) (by omega) (by omega)
          rw [hr1]
          cases r1 with
          | none => exact ⟨_, rfl⟩
          | some left =>
            obtain ⟨r2, hr2⟩ := ih (L - L / 2) (by omega) (ms.drop (L / 2)) 'A' f
              (by rw [List.length_drop]; omega) (by omega) (by omega)
            simp only [hr2]
            cases r2 with
            | none => exact ⟨_, rfl⟩
            | some right => exact ⟨_, rfl⟩
        · simp only [hop, if_false]
          cases hc : collect_results (pair_results ms (L / 2) op) with
          | none => exact ⟨_, rfl⟩
          | some sums =>
            have hs : sums.length = L / 2 := by
              rw [collect_results_length _ sums hc, pair_results_length]
            dsimp only
            by_cases hrem : L % 2 ≠ 0
            · rw [if_pos hrem]
              exact ih (L / 2 + 1) (by omega) _ op f
                (by
                  rw [List.length_append, List.length_take, List.length_drop, hs, hlen]
                  omega)
                (by omega) (by omega)
            · rw [if_neg hrem]
              exact ih (L / 2) (by omega) sums op f hs (by omega) (by omega)

/-- C29: for a non-empty list of matrices, every operation and a recursion
bound of at least their number, `compute_matrices_parallel` returns.  For
counts 1 and 2 it returns without a recursive call; for a count of at least
3 the two halves of the subtraction branch hold between 1 and `count - 1`
matrices and the next level of the addition branch holds
`ceil(count / 2) < count` matrices. -/
theorem compute_matrices_parallel_terminates (ms : List (matrix_t α)) (hne : ms ≠ [])
    (op : Char) (fuel : Nat) (hfuel : ms.length ≤ fuel) :
    compute_matrices_parallel fuel ms op ≠ none ∧
    (ms.length = 1 ∨ ms.length = 2 → compute_matrices_parallel 1 ms op ≠ none) ∧
    (3 ≤ ms.length →
      (1 ≤ (ms.take (ms.length / 2)).length ∧
        (ms.take (ms.length / 2)).length ≤ ms.length - 1) ∧
      (1 ≤ (ms.drop (ms.length / 2)).length ∧
        (ms.drop (ms.length / 2)).length ≤ ms.length - 1) ∧
      ms.length / 2 + ms.length % 2 = (ms.length + 1) / 2 ∧
      (ms.length + 1) / 2 < ms.length) := by
  have hpos : 1 ≤ ms.length := List.length_pos.mpr hne
  refine ⟨?_, ?_, ?_⟩
  · obtain ⟨r, hr⟩ := compute_matrices_parallel_returns ms.length ms op fuel rfl hpos hfuel
    rw [hr]; simp
  · intro h
    rw [compute_matrices_parallel]
    rcases h with h | h
    · simp only [h, if_true]
      split <;> simp
    · simp only [h, OfNat.ofNat_ne_one, if_false, if_true]
      split <;> simp
  · intro h3
    rw [List.length_take, List.length_drop]
    omega

end termination

/-- C29 at five matrices of different shapes, for both operations. -/
theorem compute_matrices_parallel_terminates_witness :
    compute_matrices_parallel 5
        [⟨1, 1, [1]⟩, ⟨1, 1, [2]⟩, ⟨1, 2, [3, 4]⟩, ⟨1, 1, [5]⟩, (⟨1, 1, [6]⟩ : matrix_t Int)]
        'S' ≠ none ∧
    compute_matrices_parallel 5
        [⟨1, 1, [1]⟩, ⟨1, 1, [2]⟩, ⟨1, 2, [3, 4]⟩, ⟨1, 1, [5]⟩, (⟨1, 1, [6]⟩ : matrix_t Int)]
        'A' ≠ none :=
  ⟨(compute_matrices_parallel_terminates _ (by simp) 'S' 5 (by decide)).1,
   (compute_matrices_parallel_terminates _ (by simp) 'A' 5 (by decide)).1⟩

/-! ## Length of the reconstructed command string -/

theorem takeWhile_dropWhile_length (p : Char → Bool) (l : CStr) :
    (l.takeWhile p).length + (l.dropWhile p).length = l.length := by
  have := congrArg List.length (List.takeWhile_append_dropWhile p l)
  rwa [List.length_append] at this

/-- One pass of the tokenizer consumes the token, and one character more
unless it reaches the end of the string. -/
theorem tokenize_step_weight {s tok rest : CStr} (h : tokenize_step s = some (tok, rest)) :
    tok.length + rest.length + 1 ≤ s.length + (if rest = [] then 1 else 0) := by
  unfold tokenize_step at h
  have hle : (s.dropWhile is_ws).length ≤ s.length := (List.dropWhile_sublist _).length_le
  cases hd : s.dropWhile is_ws with
  | nil => simp [hd] at h
  | cons c r =>
    rw [hd] at h hle
    simp only [List.length_cons] at hle
    by_cases hq : c = '"'
    · simp only [hq, if_true, Option.some.injEq, Prod.mk.injEq] at h
      have hsum := takeWhile_dropWhile_length (fun d => d != '"') r
      rw [← h.1, ← h.2, List.length_tail]
      by_cases hnil : (r.dropWhile (fun d => d != '"')).tail = []
      · simp only [hnil, if_true]
        omega
      · simp only [hnil, if_false]
        have : 0 < (r.dropWhile (fun d => d != '"')).length := by
          cases hdd : r.dropWhile (fun d => d != '"') with
          | nil => simp [hdd] at hnil
          | cons x y => simp
        omega
    · simp only [hq, if_false, Option.some.injEq, Prod.mk.injEq] at h
      have hsum := takeWhile_dropWhile_length (fun d => !is_ws d) (c :: r)
      simp only [List.length_cons] at hsum
      rw [← h.1, ← h.2, List.length_tail]
      by_cases hnil : ((c :: r).dropWhile (fun d => !is_ws d)).tail = []
      · simp only [hnil, if_true]
        omega
      · simp only [hnil, if_false]
        have : 0 < ((c :: r).dropWhile (fun d => !is_ws d)).length := by
          cases hdd : (c :: r).dropWhile (fun d => !is_ws d) with
          | nil => simp [hdd] at hnil
          | cons x y => simp
        omega

/-- The tokens of a string, each counted with one separator, take at most
one character more than the string. -/
theorem all_tokens_weight (n : Nat) :
    ∀ s : CStr, s.length ≤ n →
      ((all_tokens s).map (fun t => t.length + 1)).sum ≤ s.length + 1 := by
  induction n with
  | zero =>
    intro s hs
    have : s = [] := List.length_eq_zero.mp (by omega)
    subst this
    simp [all_tokens_nil]
  | succ n ih =>
    intro s hs
    cases hstep : tokenize_step s with
    | none => simp [all_tokens_of_step_none hstep]
    | some tr =>
      obtain ⟨tok, rest⟩ := tr
      have hlt := tokenize_step_length hstep
      have hw := tokenize_step_weight hstep
      rw [all_tokens_of_step_some hstep]
      simp only [List.map_cons, List.sum_cons]
      by_cases hnil : rest = []
      · subst hnil
        simp only [all_tokens_nil, List.map_nil, List.sum_nil, if_true, List.length_nil] at hw ⊢
        omega
      · simp only [hnil, if_false] at hw
        have := ih rest (by omega)
        omega

theorem join_args_length (l : List CStr) :
    (join_args l).length + 1 ≤ (l.map (fun t => t.length + 1)).sum + (if l = [] then 1 else 0) := by
  cases l with
  | nil => simp [join_args, List.intercalate]
  | cons a rest =>
    unfold join_args
    rw [intercalate_cons_eq]
    simp only [List.length_append, List.map_cons, List.sum_cons, reduceCtorEq, if_false]
    have : ((rest.map (fun b => ' ' :: b)).flatten).length
        = (rest.map (fun t => t.length + 1)).sum := by
      induction rest with
      | nil => simp
      | cons b rest ih => simp [ih]; omega
    omega

theorem sublist_weight {l1 l2 : List CStr} (h : l1.Sublist l2) :
    (l1.map (fun t => t.length + 1)).sum ≤ (l2.map (fun t => t.length + 1)).sum := by
  induction h with
  | slnil => simp
  | cons a _ ih => simp only [List.map_cons, List.sum_cons]; omega
  | cons₂ a _ ih => simp only [List.map_cons, List.sum_cons]; omega

theorem parse_single_command_length (s : CStr) (c : command_t)
    (h : parse_single_command s = some c) :
    (reconstruct_command_string c).length ≤ s.length := by
  cases ht : tokenize s MAX_ARGS with
  | none => simp [parse_single_command, ht] at h
  | some tokens =>
    rw [parse_single_command_of_tokens s tokens ht] at h
    simp only [Option.some.injEq] at h
    subst h
    rw [reconstruct_command_string_eq]
    simp only [List.take_length]
    have h1 := join_args_length (scan_redirect tokens none).1
    have h2 := sublist_weight (scan_redirect_sublist tokens none)
    have h3 := all_tokens_weight s.length s (le_refl _)
    rw [← tokenize_some_all s MAX_ARGS tokens ht] at h3
    by_cases hnil : (scan_redirect tokens none).1 = []
    · rw [hnil]; simp [join_args, List.intercalate]
    · simp only [hnil, if_false] at h1
      omega

theorem check_background_length (line : CStr) :
    (check_background line).1.length ≤ line.length := by
  unfold check_background
  split
  · exact le_refl _
  · simp only []
    split
    · rw [List.length_take]; omega
    · exact le_refl _

theorem split_on_pipe_length (s : CStr) :
    (split_on_pipe s).1.length ≤ s.length ∧
    ((split_on_pipe s).2.1.getD []).length ≤ s.length := by
  unfold split_on_pipe
  have h1 : (s.takeWhile (fun d => d != '|')).length ≤ s.length :=
    (List.takeWhile_sublist _).length_le
  have h2 : (s.dropWhile (fun d => d != '|')).length ≤ s.length :=
    (List.dropWhile_sublist _).length_le
  cases hd : s.dropWhile (fun d => d != '|') with
  | nil => simp
  | cons x right_cmd =>
    rw [hd] at h2
    simp only [List.length_cons] at h2
    simp only [Option.getD_some]
    exact ⟨h1, by omega⟩

/-- C27: the string that `reconstruct_command_string` builds from a
command parsed out of the substring `s` is no longer than `s`; hence for a
line shorter than `MAX_CMD_LEN` the reconstructed string of every command of
its pipeline, with its terminator, fits a buffer of `MAX_CMD_LEN`
characters. -/
theorem reconstruct_command_string_fits :
    (∀ (s : CStr) (c : command_t), parse_single_command s = some c →
        (reconstruct_command_string c).length ≤ s.length) ∧
    (∀ (line : CStr) (p : pipeline_t), parse_line line = some p →
        line.length < MAX_CMD_LEN →
        ∀ c ∈ p.commands.take p.cmd_count,
          (reconstruct_command_string c).length + 1 ≤ MAX_CMD_LEN) := by
  refine ⟨parse_single_command_length, ?_⟩
  intro line p hp hlen c hc
  have hc2 : c ∈ p.commands := List.mem_of_mem_take hc
  have hcb := check_background_length line
  obtain ⟨hs1, hs2⟩ := split_on_pipe_length (check_background line).1
  simp only [parse_line, parse_stripped] at hp
  cases hl : parse_single_command (split_on_pipe (check_background line).1).1 with
  | none => simp [hl] at hp
  | some left =>
    have hleft := parse_single_command_length _ _ hl
    simp only [hl] at hp
    by_cases hpipe : (split_on_pipe (check_background line).1).2.2 = true
    · simp only [hpipe, if_true] at hp
      cases hr : parse_single_command
          ((split_on_pipe (check_background line).1).2.1.getD []) with
      | none => simp [hr] at hp
      | some right =>
        have hright := parse_single_command_length _ _ hr
        simp only [hr, Option.some.injEq] at hp
        subst hp
        simp only [List.mem_cons, List.mem_singleton, List.not_mem_nil, or_false] at hc2
        rcases hc2 with rfl | rfl <;> omega
    · simp only [hpipe, Bool.false_eq_true, if_false, Option.some.injEq] at hp
      subst hp
      simp only [List.mem_singleton] at hc2
      subst hc2
      omega

/-- C27 at a quoted and an unquoted token. -/
theorem reconstruct_command_string_fits_witness :
    parse_single_command "\"a\"b 2> e".toList
      = some ⟨["a".toList, "b".toList], 2, some "e".toList⟩ ∧
    (reconstruct_command_string ⟨["a".toList, "b".toList], 2, some "e".toList⟩).length
      ≤ "\"a\"b 2> e".toList.length :=
  ⟨by decide,
   reconstruct_command_string_fits.1 "\"a\"b 2> e".toList
     ⟨["a".toList, "b".toList], 2, some "e".toList⟩ (by decide)⟩

/-! ## Round trip of a canonical command line -/

theorem is_ws_isspace (c : Char) (h : isspace c = false) : is_ws c = false := by
  cases hw : is_ws c with
  | false => rfl
  | true =>
    simp only [is_ws, Bool.or_eq_true, decide_eq_true_eq] at hw
    rcases hw with (h1 | h1) | h1 <;> · subst h1; exact absurd h (by decide)

theorem takeWhile_append_stop (p : Char → Bool) (l : CStr) (b : Char) (r : CStr)
    (hl : ∀ a ∈ l, p a = true) (hb : p b = false) :
    (l ++ b :: r).takeWhile p = l ∧ (l ++ b :: r).dropWhile p = b :: r := by
  induction l with
  | nil => simp [List.takeWhile_cons, List.dropWhile_cons, hb]
  | cons a l ih =>
    have ha := hl a (List.mem_cons_self _ _)
    obtain ⟨h1, h2⟩ := ih (fun x hx => hl x (List.mem_cons_of_mem _ hx))
    simp [List.takeWhile_cons, List.dropWhile_cons, ha, h1, h2]

theorem takeWhile_all (p : Char → Bool) (l : CStr) (hl : ∀ a ∈ l, p a = true) :
    l.takeWhile p = l ∧ l.dropWhile p = [] := by
  constructor
  · rw [List.takeWhile_eq_self_iff]; exact hl
  · rw [List.dropWhile_eq_nil_iff]; exact hl

/-- A word: not empty, without white space, quote or pipe character. -/
theorem tokenize_step_word (w rest : CStr) (hne : w ≠ [])
    (hw : ∀ c ∈ w, isspace c = false ∧ c ≠ '"' ∧ c ≠ '|') :
    tokenize_step (w ++ ' ' :: rest) = some (w, rest) ∧ tokenize_step w = some (w, []) := by
  obtain ⟨c, w2, rfl⟩ : ∃ c w2, w = c :: w2 := by
    cases w with
    | nil => exact absurd rfl hne
    | cons c w2 => exact ⟨c, w2, rfl⟩
  have hc := hw c (List.mem_cons_self _ _)
  have hcw : is_ws c = false := is_ws_isspace c hc.1
  have hall : ∀ a ∈ c :: w2, (fun d => !is_ws d) a = true := by
    intro a ha
    simp [is_ws_isspace a (hw a ha).1]
  obtain ⟨t1, t2⟩ := takeWhile_append_stop (fun d => !is_ws d) (c :: w2) ' ' rest hall
    (by decide)
  obtain ⟨t3, t4⟩ := takeWhile_all (fun d => !is_ws d) (c :: w2) hall
  simp only [List.cons_append] at t1 t2
  have hd1 : (c :: (w2 ++ ' ' :: rest)).dropWhile is_ws = c :: (w2 ++ ' ' :: rest) := by
    simp [List.dropWhile_cons, hcw]
  have hd2 : (c :: w2).dropWhile is_ws = c :: w2 := by
    simp [List.dropWhile_cons, hcw]
  constructor
  · unfold tokenize_step
    rw [List.cons_append, hd1]
    simp only [hc.2.1, if_false]
    rw [t1, t2]
    rfl
  · unfold tokenize_step
    rw [hd2]
    simp only [hc.2.1, if_false]
    rw [t3, t4]
    rfl

theorem join_args_cons_cons (w w2 : CStr) (rest : List CStr) :
    join_args (w :: w2 :: rest) = w ++ ' ' :: join_args (w2 :: rest) := by
  unfold join_args
  rw [intercalate_cons_eq, intercalate_cons_eq]
  simp

theorem join_args_singleton (w : CStr) : join_args [w] = w := by
  simp [join_args, List.intercalate]

theorem all_tokens_join (words : List CStr) (hne : words ≠ [])
    (hw : ∀ w ∈ words, w ≠ [] ∧ ∀ c ∈ w, isspace c = false ∧ c ≠ '"' ∧ c ≠ '|') :
    all_tokens (join_args words) = words ∧
    ptr_after words.length (join_args words) = some [] := by
  induction words with
  | nil => exact absurd rfl hne
  | cons w rest ih =>
    obtain ⟨hw1, hw2⟩ := hw w (List.mem_cons_self _ _)
    cases rest with
    | nil =>
      rw [join_args_singleton]
      have hstep := (tokenize_step_word w [] hw1 hw2).2
      exact ⟨by rw [all_tokens_of_step_some hstep, all_tokens_nil],
        by simp [ptr_after, hstep]⟩
    | cons w2 rest2 =>
      rw [join_args_cons_cons]
      have hstep := (tokenize_step_word w (join_args (w2 :: rest2)) hw1 hw2).1
      obtain ⟨i1, i2⟩ := ih (by simp) (fun x hx => hw x (List.mem_cons_of_mem _ hx))
      constructor
      · rw [all_tokens_of_step_some hstep, i1]
      · simp only [List.length_cons, ptr_after, hstep]
        simpa using i2

theorem scan_redirect_no_redirect (words : List CStr) :
    (∀ w ∈ words.dropLast, w ≠ ['2', '>']) → scan_redirect words none = (words, none) := by
  induction words with
  | nil => intro _; rfl
  | cons t rest ih =>
    intro h
    cases rest with
    | nil => rfl
    | cons t2 rest2 =>
      have ht : t ≠ ['2', '>'] := h t (by simp [List.dropLast])
      have hrest := ih (fun w hw => h w (by
        simp only [List.dropLast_cons₂, List.mem_cons]
        exact Or.inr hw))
      rw [scan_redirect_cons_of_ne _ _ _ ht, hrest]

theorem mem_join_args (words : List CStr) (c : Char) (h : c ∈ join_args words) :
    c = ' ' ∨ ∃ w ∈ words, c ∈ w := by
  induction words with
  | nil => simp [join_args, List.intercalate] at h
  | cons w rest ih =>
    cases rest with
    | nil =>
      rw [join_args_singleton] at h
      exact Or.inr ⟨w, by simp, h⟩
    | cons w2 rest2 =>
      rw [join_args_cons_cons] at h
      rcases List.mem_append.mp h with h1 | h1
      · exact Or.inr ⟨w, by simp, h1⟩
      · rcases List.mem_cons.mp h1 with h2 | h2
        · exact Or.inl h2
        · rcases ih h2 with h3 | ⟨x, hx, hcx⟩
          · exact Or.inl h3
          · exact Or.inr ⟨x, List.mem_cons_of_mem _ hx, hcx⟩

theorem join_args_getLast (words : List CStr) (hne : words ≠ [])
    (hw : ∀ w ∈ words, w ≠ [] ∧ ∀ c ∈ w, isspace c = false ∧ c ≠ '"' ∧ c ≠ '|') :
    ∃ (pre : CStr) (c : Char), join_args words = pre ++ [c] ∧ isspace c = false := by
  induction words with
  | nil => exact absurd rfl hne
  | cons w rest ih =>
    cases rest with
    | nil =>
      obtain ⟨hw1, hw2⟩ := hw w (List.mem_cons_self _ _)
      rw [join_args_singleton]
      refine ⟨w.dropLast, w.getLast hw1, (List.dropLast_append_getLast hw1).symm, ?_⟩
      exact (hw2 _ (List.getLast_mem hw1)).1
    | cons w2 rest2 =>
      obtain ⟨pre, c, hp, hc⟩ := ih (by simp) (fun x hx => hw x (List.mem_cons_of_mem _ hx))
      rw [join_args_cons_cons, hp]
      exact ⟨w ++ ' ' :: pre, c, by simp, hc⟩

theorem check_background_canonical (line pre : CStr) (c : Char)
    (hline : line = pre ++ [c]) (hc : isspace c = false) (hamp : c ≠ '&') :
    check_background line = (line, false) := by
  have hne : line ≠ [] := by rw [hline]; simp
  obtain ⟨pre2, post, c2, h1, hpost, -, hcb⟩ := check_background_split line hne
  have hpost_nil : post = [] := by
    by_contra hp
    obtain ⟨q, x, hq⟩ : ∃ (q : CStr) (x : Char), post = q ++ [x] :=
      ⟨post.dropLast, post.getLast hp, (List.dropLast_append_getLast hp).symm⟩
    have hx : isspace x = true := hpost x (by rw [hq]; simp)
    have e1 : line.getLast? = some c := by rw [hline]; simp
    have e0 : line = (pre2 ++ c2 :: q) ++ [x] := by rw [h1, hq]; simp
    have e2 : line.getLast? = some x := by rw [e0, List.getLast?_concat]
    rw [e1] at e2
    rw [← Option.some.inj e2, hc] at hx
    exact absurd hx (by decide)
  subst hpost_nil
  have hcc : c2 = c := by
    have e1 : line.getLast? = some c := by rw [hline]; simp
    have e2 : line.getLast? = some c2 := by rw [h1]; simp
    rw [e1] at e2
    exact (Option.some.inj e2).symm
  rw [hcb, hcc, if_neg hamp]

/-- C30: a line of 1 to 7 words joined by single spaces, where every word
is non-empty and free of white space, quotes and pipe characters, no word
but the last is `2>`, and the line does not end with `&`, is parsed into a
foreground pipeline of one command without redirect whose arguments are the
words; `reconstruct_command_string` of that command gives back the line; and
when the line is an entry of a loaded denylist the command is classified
BLOCK. -/
theorem parse_line_canonical (words : List CStr) (hne : words ≠ [])
    (h7 : words.length ≤ 7)
    (hw : ∀ w ∈ words, w ≠ [] ∧ ∀ c ∈ w, isspace c = false ∧ c ≠ '"' ∧ c ≠ '|')
    (h2 : ∀ w ∈ words.dropLast, w ≠ ['2', '>'])
    (hamp : (join_args words).getLast? ≠ some '&') :
    parse_line (join_args words)
      = some { commands := [{ args := words, argc := words.length, stderr_file := none }],
               cmd_count := 1, is_background := false } ∧
    reconstruct_command_string { args := words, argc := words.length, stderr_file := none }
      = join_args words ∧
    ∀ (u : uninit_t) (dl : List CStr) (idx : Int), (∀ e ∈ dl, has_word e) →
      join_args words ∈ dl →
      (is_dangerous_command u dl
        (reconstruct_command_string
          { args := words, argc := words.length, stderr_file := none }) idx).1 = 2 := by
  have hrec : reconstruct_command_string
      { args := words, argc := words.length, stderr_file := none } = join_args words := by
    rw [reconstruct_command_string_eq]
    simp
  obtain ⟨pre, c, hp, hc⟩ := join_args_getLast words hne hw
  have hcamp : c ≠ '&' := by
    intro h
    apply hamp
    rw [hp, h]
    simp
  have hcb := check_background_canonical (join_args words) pre c hp hc hcamp
  have hpipe : '|' ∉ join_args words := by
    intro hm
    rcases mem_join_args words '|' hm with h | ⟨w, hwm, hcw⟩
    · exact absurd h (by decide)
    · exact ((hw w hwm).2 '|' hcw).2.2 rfl
  obtain ⟨hall, hptr⟩ := all_tokens_join words hne hw
  have htok : tokenize (join_args words) MAX_ARGS = some words := by
    rw [tokenize_eq _ MAX_ARGS (by decide)]
    have h7n : MAX_ARGS.toNat = words.length + (7 - words.length) := by
      simp only [MAX_ARGS]
      have : (7 : Int).toNat = 7 := rfl
      omega
    have hp7 : (ptr_after MAX_ARGS.toNat (join_args words)).getD [] = [] := by
      rw [h7n, ptr_after_add, hptr]
      simp only [Option.some_bind]
      exact ptr_after_nil_getD _
    rw [hp7, hall, List.take_of_length_le (by rw [h7n]; omega)]
    simp
  have hparse := parse_single_command_of_tokens (join_args words) words htok
  rw [scan_redirect_no_redirect words h2] at hparse
  refine ⟨?_, hrec, ?_⟩
  · simp only [parse_line, parse_stripped, hcb, split_on_pipe_absent _ hpipe, hparse]
    simp
  · intro u dl idx hdl hmem
    rw [hrec]
    exact (is_dangerous_command_block_iff u dl hdl _ idx).mpr hmem

/-- C30 at the line `rm -rf /` typed against a denylist that holds it. -/
theorem parse_line_canonical_witness :
    parse_line "rm -rf /".toList
      = some { commands := [{ args := ["rm".toList, "-rf".toList, "/".toList], argc := 3,
                              stderr_file := none }],
               cmd_count := 1, is_background := false } ∧
    reconstruct_command_string
        { args := ["rm".toList, "-rf".toList, "/".toList], argc := 3, stderr_file := none }
      = "rm -rf /".toList :=
  ⟨(parse_line_canonical ["rm".toList, "-rf".toList, "/".toList] (by simp) (by decide)
      (by decide) (by decide) (by decide)).1,
   (parse_line_canonical ["rm".toList, "-rf".toList, "/".toList] (by simp) (by decide)
      (by decide) (by decide) (by decide)).2.1⟩

/-! ## Decimal rendering and `atoi` -/

theorem digitChar_is_digit (m : Nat) (hm : m < 10) :
    is_digit (Nat.digitChar m) = true ∧ ((Nat.digitChar m).toNat : Int) - 48 = (m : Int) := by
  interval_cases m <;> exact ⟨by decide, by decide⟩

/-- The decimal digits that `Nat.toDigitsCore` puts in front of `ds`: they
are digits, at least one, and `atoi_digits` reads the number back. -/
theorem toDigitsCore_spec (fuel : Nat) :
    ∀ (n : Nat) (ds : CStr), n < fuel →
      ∃ (D : CStr) (k : Nat), Nat.toDigitsCore 10 fuel n ds = D ++ ds ∧ D ≠ [] ∧
        (∀ c ∈ D, is_digit c = true) ∧
        ∀ (rest : CStr) (acc : Int),
          atoi_digits (D ++ rest) acc = atoi_digits rest (acc * 10 ^ k + (n : Int)) := by
  induction fuel with
  | zero => intro n ds h; omega
  | succ fuel ih =>
    intro n ds h
    obtain ⟨hd1, hd2⟩ := digitChar_is_digit (n % 10) (Nat.mod_lt _ (by decide))
    simp only [Nat.toDigitsCore]
    by_cases h0 : n / 10 = 0
    · simp only [h0, if_true]
      have hn : n % 10 = n := Nat.mod_eq_of_lt (by omega)
      refine ⟨[Nat.digitChar (n % 10)], 1, rfl, by simp, ?_, ?_⟩
      · intro c hc
        simp only [List.mem_singleton] at hc
        rw [hc]; exact hd1
      · intro rest acc
        show atoi_digits (Nat.digitChar (n % 10) :: rest) acc = _
        simp only [atoi_digits, hd1, if_true, hd2, pow_one]
        rw [hn]
    · simp only [h0, if_false]
      obtain ⟨D, k, hD, hne, hdig, hval⟩ := ih (n / 10) (Nat.digitChar (n % 10) :: ds)
        (by omega)
      refine ⟨D ++ [Nat.digitChar (n % 10)], k + 1, by rw [hD]; simp, by simp, ?_, ?_⟩
      · intro c hc
        rcases List.mem_append.mp hc with h1 | h1
        · exact hdig c h1
        · simp only [List.mem_singleton] at h1
          rw [h1]; exact hd1
      · intro rest acc
        rw [List.append_assoc, hval]
        simp only [List.singleton_append, atoi_digits, hd1, if_true, hd2]
        congr 1
        have hdm := Nat.div_add_mod n 10
        push_cast
        rw [pow_succ]
        have : (n : Int) = 10 * ((n / 10 : Nat) : Int) + ((n % 10 : Nat) : Int) := by
          exact_mod_cast hdm.symm
        push_cast at this
        linarith

theorem is_digit_not_special (c : Char) (h : is_digit c = true) :
    isspace c = false ∧ c ≠ '-' ∧ c ≠ '+' ∧ c ≠ ',' ∧ c ≠ ':' ∧ c ≠ ')' ∧ c ≠ '(' := by
  refine ⟨?_, ?_, ?_, ?_, ?_, ?_, ?_⟩
  · cases hs : isspace c with
    | false => rfl
    | true =>
      simp only [isspace, Bool.or_eq_true, decide_eq_true_eq] at hs
      rcases hs with ((((h1 | h1) | h1) | h1) | h1) | h1 <;>
        · subst h1; exact absurd h (by decide)
  all_goals
    intro hc
    subst hc
    exact absurd h (by decide)

/-- The structure of the decimal text of an integer, and the number that
the text denotes. -/
theorem print_int_spec (v : Int) :
    print_int v ≠ [] ∧
    (∀ c ∈ print_int v, c = '-' ∨ is_digit c = true) ∧
    decimal_value (print_int v) = v := by
  cases v with
  | ofNat n =>
    obtain ⟨D, k, hD, hne, hdig, hval⟩ := toDigitsCore_spec (n + 1) n [] (by omega)
    have hp : print_int (Int.ofNat n) = D := by
      show (Nat.toDigits 10 n) = D
      rw [Nat.toDigits, hD, List.append_nil]
    rw [hp]
    refine ⟨hne, fun c hc => Or.inr (hdig c hc), ?_⟩
    obtain ⟨d, D2, rfl⟩ : ∃ d D2, D = d :: D2 := by
      cases D with
      | nil => exact absurd rfl hne
      | cons d D2 => exact ⟨d, D2, rfl⟩
    obtain ⟨s1, s2, s3, -⟩ := is_digit_not_special d (hdig d (List.mem_cons_self _ _))
    have := hval [] 0
    simp only [List.append_nil, zero_mul, zero_add] at this
    unfold decimal_value
    simp only [List.dropWhile_cons, s1, Bool.false_eq_true, if_false, s2, s3]
    rw [this]
    simp [atoi_digits]
  | negSucc m =>
    obtain ⟨D, k, hD, hne, hdig, hval⟩ := toDigitsCore_spec (m + 1 + 1) (m + 1) [] (by omega)
    have hp : print_int (Int.negSucc m) = '-' :: D := by
      show (("-" ++ Nat.repr (m + 1)).toList) = '-' :: D
      rw [String.toList, String.data_append]
      show ['-'] ++ Nat.toDigits 10 (m + 1) = '-' :: D
      rw [Nat.toDigits, hD, List.append_nil]
      rfl
    rw [hp]
    refine ⟨by simp, ?_, ?_⟩
    · intro c hc
      rcases List.mem_cons.mp hc with h1 | h1
      · exact Or.inl h1
      · exact Or.inr (hdig c h1)
    · have := hval [] 0
      simp only [List.append_nil, zero_mul, zero_add] at this
      unfold decimal_value
      have hsp : isspace '-' = false := by decide
      simp only [List.dropWhile_cons, hsp, Bool.false_eq_true, if_false, if_true]
      rw [this]
      simp only [atoi_digits]
      rw [Int.negSucc_eq]
      push_cast
      ring

theorem print_int_no_delim (v : Int) (c : Char)
    (hc : c = ',' ∨ c = ':' ∨ c = ')' ∨ c = '(') : c ∉ print_int v := by
  intro hm
  rcases (print_int_spec v).2.1 c hm with h | h
  · subst h
    rcases hc with h1 | h1 | h1 | h1 <;> exact absurd h1 (by decide)
  · obtain ⟨-, -, -, d1, d2, d3, d4⟩ := is_digit_not_special c h
    rcases hc with h1 | h1 | h1 | h1
    · exact d1 h1
    · exact d2 h1
    · exact d3 h1
    · exact d4 h1

/-- Within the range of `int`, `atoi` reads the decimal text of an integer
back. -/
theorem atoi_print_int (v : Int) (h1 : -2147483648 ≤ v) (h2 : v < 2147483648) :
    atoi (print_int v) = v := by
  have hv := (print_int_spec v).2.2
  rw [atoi_of_range _ (by rw [hv]; exact h1) (by rw [hv]; exact h2), hv]

theorem atoi_print_int_append (v : Int) (h1 : -2147483648 ≤ v) (h2 : v < 2147483648)
    (c : Char) (y : CStr) (hc : c = ',' ∨ c = ':' ∨ c = ')') :
    atoi (print_int v ++ c :: y) = v := by
  have h4 : isspace c = false ∧ c ≠ '-' ∧ c ≠ '+' ∧ is_digit c = false := by
    rcases hc with h | h | h <;> · subst h; decide
  rw [atoi_append _ _ c h4.1 h4.2.1 h4.2.2.1 h4.2.2.2]
  exact atoi_print_int v h1 h2

/-! ## Round trip of a matrix literal -/

theorem strchr_append (pre post : CStr) (c : Char) (h : c ∉ pre) :
    strchr (pre ++ c :: post) c = some pre.length := by
  induction pre with
  | nil => simp [strchr]
  | cons d pre ih =>
    have hd : d ≠ c := fun hdc => h (by simp [hdc])
    have hrest : c ∉ pre := fun hm => h (List.mem_cons_of_mem _ hm)
    simp [strchr, hd, ih hrest]

theorem intercalate_comma_cons_cons (w w2 : CStr) (rest : List CStr) :
    [','].intercalate (w :: w2 :: rest) = w ++ ',' :: [','].intercalate (w2 :: rest) := by
  simp [List.intercalate, List.intersperse]

theorem intercalate_comma_singleton (w : CStr) : [','].intercalate [w] = w := by
  simp [List.intercalate]

theorem mem_intercalate_comma (ws : List CStr) (c : Char) (h : c ∈ [','].intercalate ws) :
    c = ',' ∨ ∃ w ∈ ws, c ∈ w := by
  induction ws with
  | nil => simp [List.intercalate] at h
  | cons w rest ih =>
    cases rest with
    | nil =>
      rw [intercalate_comma_singleton] at h
      exact Or.inr ⟨w, by simp, h⟩
    | cons w2 rest2 =>
      rw [intercalate_comma_cons_cons] at h
      rcases List.mem_append.mp h with h1 | h1
      · exact Or.inr ⟨w, by simp, h1⟩
      · rcases List.mem_cons.mp h1 with h2 | h2
        · exact Or.inl h2
        · rcases ih h2 with h3 | ⟨x, hx, hcx⟩
          · exact Or.inl h3
          · exact Or.inr ⟨x, List.mem_cons_of_mem _ hx, hcx⟩

theorem strtok_word (p rest : CStr) (hne : p ≠ []) (hp : ',' ∉ p) :
    strtok (p ++ ',' :: rest) ',' = some (p, rest) ∧ strtok p ',' = some (p, []) := by
  obtain ⟨c, p2, rfl⟩ : ∃ c p2, p = c :: p2 := by
    cases p with
    | nil => exact absurd rfl hne
    | cons c p2 => exact ⟨c, p2, rfl⟩
  have hc : c ≠ ',' := fun h => hp (by simp [h])
  obtain ⟨t1, t2⟩ := takeWhile_ne_append ',' (c :: p2) rest hp
  have hall : ∀ a ∈ c :: p2, (fun d => d != ',') a = true := by
    intro a ha
    have : a ≠ ',' := fun h => hp (h ▸ ha)
    simpa using this
  obtain ⟨t3, t4⟩ := takeWhile_all (fun d => d != ',') (c :: p2) hall
  simp only [List.cons_append] at t1 t2
  have hd1 : (c :: (p2 ++ ',' :: rest)).dropWhile (fun d => d == ',')
      = c :: (p2 ++ ',' :: rest) := by
    simp [List.dropWhile_cons, hc]
  have hd2 : (c :: p2).dropWhile (fun d => d == ',') = c :: p2 := by
    simp [List.dropWhile_cons, hc]
  constructor
  · unfold strtok
    rw [List.cons_append, hd1]
    simp only
    rw [t1, t2]
    rfl
  · unfold strtok
    rw [hd2]
    simp only
    rw [t3, t4]
    rfl

/-- The value loop on the comma-joined texts `ws`, started at index
`done.length` with the values `done` stored: it stores the value of every
text in turn. -/
theorem parse_values_loop_texts (atof : CStr → Int) (size : Nat) (ws : List CStr) :
    ∀ (done zs : List Int) (fuel : Nat),
      (∀ w ∈ ws, w ≠ [] ∧ ',' ∉ w) → ws.length ≤ zs.length → ws.length ≤ fuel →
      size = done.length + zs.length →
      parse_values_loop atof size fuel (strtok ([','].intercalate ws) ',') done.length
          (done ++ zs)
        = (done.length + ws.length, done ++ ws.map atof ++ zs.drop ws.length) := by
  induction ws with
  | nil =>
    intro done zs fuel _ _ _ _
    have : strtok ([','].intercalate ([] : List CStr)) ',' = none := rfl
    rw [this]
    cases fuel <;> simp [parse_values_loop]
  | cons w rest ih =>
    intro done zs fuel hw hzs hfuel hsize
    obtain ⟨f, rfl⟩ : ∃ f, fuel = f + 1 := ⟨fuel - 1, by simp at hfuel; omega⟩
    obtain ⟨z, zs2, rfl⟩ : ∃ z zs2, zs = z :: zs2 := by
      cases zs with
      | nil => simp at hzs
      | cons z zs2 => exact ⟨z, zs2, rfl⟩
    obtain ⟨hw1, hw2⟩ := hw w (List.mem_cons_self _ _)
    have hstep : strtok ([','].intercalate (w :: rest)) ','
        = some (w, [','].intercalate rest) := by
      cases rest with
      | nil =>
        rw [intercalate_comma_singleton]
        exact (strtok_word w [] hw1 hw2).2
      | cons w2 rest2 =>
        rw [intercalate_comma_cons_cons]
        exact (strtok_word w _ hw1 hw2).1
    have hlt : done.length < size := by simp at hsize; omega
    have hset : (done ++ z :: zs2).set done.length (atof w) = (done ++ [atof w]) ++ zs2 := by
      simp
    simp only [parse_values_loop, hstep, hlt, if_true]
    rw [hset]
    have hlen : done.length + 1 = (done ++ [atof w]).length := by simp
    rw [hlen, ih (done ++ [atof w]) zs2 f (fun x hx => hw x (List.mem_cons_of_mem _ hx))
      (by simp at hzs; omega) (by simp at hfuel; omega) (by simp at hsize ⊢; omega)]
    refine Prod.ext ?_ ?_
    · simp only [List.length_append, List.length_cons, List.length_nil]
      omega
    · simp

theorem matrix_literal_eq (rows cols : Int) (values : List Int) :
    matrix_literal rows cols values
      = '(' :: (print_int rows ++ ',' :: (print_int cols ++ ':' ::
          ([','].intercalate (values.map print_int) ++ [')']))) := by
  simp [matrix_literal]

theorem intercalate_comma_length (ws : List CStr) (h : ∀ w ∈ ws, w ≠ []) :
    ws.length ≤ ([','].intercalate ws).length := by
  induction ws with
  | nil => simp
  | cons w rest ih =>
    have hw : 0 < w.length := List.length_pos.mpr (h w (List.mem_cons_self _ _))
    cases rest with
    | nil =>
      rw [intercalate_comma_singleton]
      simp only [List.length_cons, List.length_nil]
      omega
    | cons w2 rest2 =>
      rw [intercalate_comma_cons_cons]
      have := ih (fun x hx => h x (List.mem_cons_of_mem _ hx))
      simp only [List.length_append, List.length_cons] at this ⊢
      omega

/-- A canonical literal that fits a command line (fewer than `MAX_CMD_LEN`
characters) has a size far within the range of `int`. -/
theorem matrix_literal_size (rows cols : Int) (hr : 0 < rows) (hc : 0 < cols)
    (values : List Int) (hlen : values.length = (rows * cols).toNat)
    (hfit : (matrix_literal rows cols values).length < MAX_CMD_LEN) :
    rows * cols < 1024 ∧ rows * cols < 2 ^ 31 := by
  have h1 := intercalate_comma_length (values.map print_int) (by
    intro w hw
    obtain ⟨v, -, rfl⟩ := List.mem_map.mp hw
    exact (print_int_spec v).1)
  rw [matrix_literal_eq] at hfit
  simp only [List.length_cons, List.length_append, List.length_map, List.length_nil,
    MAX_CMD_LEN] at hfit h1
  have hnn : 0 ≤ rows * cols := Int.mul_nonneg (by omega) (by omega)
  have h2 : rows * cols < 1024 := by omega
  exact ⟨h2, by norm_num; omega⟩

/-- `parse_matrix`, reading values with `atoi`, accepts a canonical literal
whose size and values are within the range of `int`, and returns the matrix
it writes down. -/
theorem parse_matrix_literal (rows cols : Int) (hr : 0 < rows) (hc : 0 < cols)
    (hsize : rows * cols < 2147483648)
    (values : List Int) (hlen : values.length = (rows * cols).toNat)
    (hrange : ∀ v ∈ values, -2147483648 ≤ v ∧ v < 2147483648) :
    parse_matrix atoi (matrix_literal rows cols values)
      = some { rows := rows, cols := cols, data := values } := by
  have hrows_lt : rows < 2147483648 := by nlinarith
  have hcols_lt : cols < 2147483648 := by nlinarith
  have hnn : 0 ≤ rows * cols := Int.mul_nonneg (by omega) (by omega)
  have hti : to_int (rows * cols) = rows * cols := to_int_of_range _ (by omega) hsize
  have hV : ∀ ch, ch = ':' ∨ ch = ')' ∨ ch = '(' →
      ch ∉ [','].intercalate (values.map print_int) := by
    intro ch hch hm
    rcases mem_intercalate_comma _ ch hm with h | ⟨w, hw, hcw⟩
    · subst h
      rcases hch with h1 | h1 | h1 <;> exact absurd h1 (by decide)
    · obtain ⟨v, -, rfl⟩ := List.mem_map.mp hw
      exact print_int_no_delim v ch (by tauto) hcw
  have hcomma : strchr (print_int rows ++ ',' :: (print_int cols ++ ':' ::
      ([','].intercalate (values.map print_int) ++ [')']))) ','
      = some (print_int rows).length :=
    strchr_append _ _ ',' (print_int_no_delim rows ',' (by tauto))
  have hcolon : strchr (print_int rows ++ ',' :: (print_int cols ++ ':' ::
      ([','].intercalate (values.map print_int) ++ [')']))) ':'
      = some ((print_int rows).length + 1 + (print_int cols).length) := by
    have := strchr_append (print_int rows ++ ',' :: print_int cols)
      ([','].intercalate (values.map print_int) ++ [')']) ':' (by
        intro hm
        rcases List.mem_append.mp hm with h | h
        · exact print_int_no_delim rows ':' (by tauto) h
        · rcases List.mem_cons.mp h with h1 | h1
          · exact absurd h1 (by decide)
          · exact print_int_no_delim cols ':' (by tauto) h1)
    simp only [List.append_assoc, List.cons_append, List.length_append, List.length_cons]
      at this
    rw [this]
    congr 1
    omega
  have hend : strchr (print_int rows ++ ',' :: (print_int cols ++ ':' ::
      ([','].intercalate (values.map print_int) ++ [')']))) ')'
      = some ((print_int rows).length + 1 + (print_int cols).length + 1
          + ([','].intercalate (values.map print_int)).length) := by
    have := strchr_append (print_int rows ++ ',' :: (print_int cols ++ ':' ::
      [','].intercalate (values.map print_int))) [] ')' (by
        intro hm
        rcases List.mem_append.mp hm with h | h
        · exact print_int_no_delim rows ')' (by tauto) h
        · rcases List.mem_cons.mp h with h1 | h1
          · exact absurd h1 (by decide)
          · rcases List.mem_append.mp h1 with h2 | h2
            · exact print_int_no_delim cols ')' (by tauto) h2
            · rcases List.mem_cons.mp h2 with h3 | h3
              · exact absurd h3 (by decide)
              · exact hV ')' (by tauto) h3)
    simp only [List.append_assoc, List.cons_append, List.length_append, List.length_cons]
      at this
    rw [this]
    congr 1
    omega
  have hparen : strchr (matrix_literal rows cols values) ')' ≠ none := by
    intro hn
    apply strchr_none _ _ hn
    simp [matrix_literal]
  have hrows : atoi (print_int rows ++ ',' :: (print_int cols ++ ':' ::
      ([','].intercalate (values.map print_int) ++ [')']))) = rows :=
    atoi_print_int_append rows (by omega) hrows_lt ',' _ (by tauto)
  have hdrop1 : (print_int rows ++ ',' :: (print_int cols ++ ':' ::
      ([','].intercalate (values.map print_int) ++ [')']))).drop ((print_int rows).length + 1)
      = print_int cols ++ ':' :: ([','].intercalate (values.map print_int) ++ [')']) := by
    have e : print_int rows ++ ',' :: (print_int cols ++ ':' ::
        ([','].intercalate (values.map print_int) ++ [')']))
        = (print_int rows ++ [',']) ++ (print_int cols ++ ':' ::
          ([','].intercalate (values.map print_int) ++ [')'])) := by simp
    rw [e, List.drop_left' (by simp)]
  have hcols : atoi (print_int cols ++ ':' ::
      ([','].intercalate (values.map print_int) ++ [')'])) = cols :=
    atoi_print_int_append cols (by omega) hcols_lt ':' _ (by tauto)
  have hdrop2 : (print_int rows ++ ',' :: (print_int cols ++ ':' ::
      ([','].intercalate (values.map print_int) ++ [')']))).drop
        ((print_int rows).length + 1 + (print_int cols).length + 1)
      = [','].intercalate (values.map print_int) ++ [')'] := by
    have e : print_int rows ++ ',' :: (print_int cols ++ ':' ::
        ([','].intercalate (values.map print_int) ++ [')']))
        = (print_int rows ++ ',' :: (print_int cols ++ [':'])) ++
          ([','].intercalate (values.map print_int) ++ [')']) := by simp
    rw [e, List.drop_left' (by simp; omega)]
  have hloop := parse_values_loop_texts atoi (rows * cols).toNat (values.map print_int) []
    (List.replicate (rows * cols).toNat 0) (rows * cols).toNat
    (by
      intro w hw
      obtain ⟨v, -, rfl⟩ := List.mem_map.mp hw
      exact ⟨(print_int_spec v).1, print_int_no_delim v ',' (by tauto)⟩)
    (by simp [hlen]) (by simp [hlen]) (by simp)
  have hmap : (values.map print_int).map atoi = values := by
    rw [List.map_map]
    conv_rhs => rw [← List.map_id values]
    apply List.map_congr_left
    intro v hv
    exact atoi_print_int v (hrange v hv).1 (hrange v hv).2
  simp only [List.length_nil, List.nil_append, List.length_map, hmap, hlen,
    List.drop_replicate, Nat.sub_self, List.replicate_zero, List.append_nil, Nat.zero_add]
    at hloop
  unfold parse_matrix
  rw [if_neg (by
    simp only [not_or, ne_eq, not_not]
    exact ⟨by rw [matrix_literal_eq]; rfl, hparen⟩)]
  rw [matrix_literal_eq]
  simp only [List.tail_cons, hcomma, hcolon, hend]
  rw [if_neg (by omega)]
  simp only [hrows, hdrop1, hcols, hti]
  rw [if_neg (by omega), if_neg (by omega)]
  have e2 : (print_int rows).length + 1 + (print_int cols).length + 1
      + ([','].intercalate (values.map print_int)).length
      - ((print_int rows).length + 1 + (print_int cols).length + 1)
      = ([','].intercalate (values.map print_int)).length := by omega
  simp only [hdrop2, e2, List.take_left', create_matrix, hti, hloop]
  rw [if_neg (by
    simp only [ne_eq, not_not]
    omega)]

theorem print_matrix_literal (rows cols : Int) (values : List Int)
    (hlen : values.length = (rows * cols).toNat) :
    print_matrix print_int { rows := rows, cols := cols, data := values }
      = matrix_literal rows cols values := by
  have hmap : (List.range (rows * cols).toNat).map (fun i => print_int (values.getD i 0))
      = values.map print_int := by
    apply List.ext_getElem
    · simp [hlen]
    · intro i h1 h2
      simp only [List.length_map] at h2
      simp [List.getElem?_eq_getElem h2]
  simp only [print_matrix, matrix_literal, hmap]

/-- C24: matrix round trip.  The values are whole numbers within the range
of `int`, and so is the size `rows * cols`; there the arithmetic of `double`
and the conversion `(int)` are exact, so that the numbers are modelled by
integers, `atof` by `atoi` on a canonical decimal text and the rendering of
a value by `%d`.  For all `rows, cols > 0` and every list of `rows * cols`
such values, reading back the text of a value gives the value, and `mcalc`
on the canonical literal `(rows,cols:v1,...)` of the values, the all-zero
literal of the same shape and `ADD` returns 0 after two calls of
`parse_matrix` and one reduction, and the one line it prints is the text of
the first literal. -/
theorem builtin_mcalc_round_trip (rows cols : Int) (hr : 0 < rows) (hc : 0 < cols)
    (hsize : rows * cols < 2 ^ 31)
    (values : List Int) (hlen : values.length = (rows * cols).toNat)
    (hrange : ∀ v ∈ values, -2 ^ 31 ≤ v ∧ v < 2 ^ 31) :
    (∀ v ∈ values, atoi (print_int v) = v) ∧
    builtin_mcalc atoi print_int
        { args := ["mcalc".toList, matrix_literal rows cols values,
                   matrix_literal rows cols (List.replicate (rows * cols).toNat 0),
                   "ADD".toList],
          argc := 4, stderr_file := none }
      = some { ret := 0, out := [matrix_literal rows cols values], parse_calls := 2,
               compute_calls := 1 } := by
  have h31 : (2 : Int) ^ 31 = 2147483648 := by norm_num
  rw [h31] at hsize
  simp only [h31] at hrange
  refine ⟨fun v hv => atoi_print_int v (hrange v hv).1 (hrange v hv).2, ?_⟩
  have hm := parse_matrix_literal rows cols hr hc hsize values hlen hrange
  have hz := parse_matrix_literal rows cols hr hc hsize
    (List.replicate (rows * cols).toNat 0) (by simp) (by
      intro v hv
      rw [List.eq_of_mem_replicate hv]
      decide)
  have hops : parse_operands_loop atoi
      [matrix_literal rows cols values,
       matrix_literal rows cols (List.replicate (rows * cols).toNat 0)] [] 0
      = (some [{ rows := rows, cols := cols, data := values },
               { rows := rows, cols := cols,
                 data := List.replicate (rows * cols).toNat 0 }], 2) := by
    simp [parse_operands_loop, hm, hz]
  have hcompat : all_compatible
      [({ rows := rows, cols := cols, data := values } : matrix_t Int),
       { rows := rows, cols := cols, data := List.replicate (rows * cols).toNat 0 }]
      = true := by
    simp [all_compatible, matrices_compatible]
  have hsum : compute_matrices_parallel 2
      [({ rows := rows, cols := cols, data := values } : matrix_t Int),
       { rows := rows, cols := cols, data := List.replicate (rows * cols).toNat 0 }] 'A'
      = some (some { rows := rows, cols := cols, data := values }) := by
    have hdata : (List.range (rows * cols).toNat).map (fun i => values[i]?.getD 0)
        = values := by
      apply List.ext_getElem
      · simp [hlen]
      · intro i h1 h2
        simp [List.getElem?_eq_getElem h2]
    simp [compute_matrices_parallel, matrix_operation_thread, matrices_compatible,
      create_matrix, hdata]
  have hargs : (List.range (4 - 2)).map (fun i =>
      (["mcalc".toList, matrix_literal rows cols values,
        matrix_literal rows cols (List.replicate (rows * cols).toNat 0),
        "ADD".toList] : List CStr).getD (i + 1) [])
      = [matrix_literal rows cols values,
         matrix_literal rows cols (List.replicate (rows * cols).toNat 0)] := by
    simp [List.range_succ]
  unfold builtin_mcalc
  rw [if_neg (Nat.lt_irrefl 4)]
  simp only
  rw [if_neg (fun h => h.1 rfl)]
  rw [if_neg (by omega), hargs, hops]
  simp only [hcompat, Bool.not_true, Bool.false_eq_true, if_false]
  have hop : (["mcalc".toList, matrix_literal rows cols values,
      matrix_literal rows cols (List.replicate (rows * cols).toNat 0),
      "ADD".toList] : List CStr).getD (4 - 1) [] = "ADD".toList := rfl
  have h42 : (4 : Nat) - 2 = 2 := rfl
  rw [if_pos hop, h42, hsum]
  simp only [print_matrix_literal rows cols values hlen]

/-- C24 at `(2,2:1,2,3,4) (2,2:0,0,0,0) ADD`, which renders `(2,2:1,2,3,4)`. -/
theorem builtin_mcalc_round_trip_witness :
    builtin_mcalc atoi print_int
        { args := ["mcalc".toList, "(2,2:1,2,3,4)".toList, "(2,2:0,0,0,0)".toList,
                   "ADD".toList],
          argc := 4, stderr_file := none }
      = some { ret := 0, out := ["(2,2:1,2,3,4)".toList], parse_calls := 2,
               compute_calls := 1 } :=
  (builtin_mcalc_round_trip 2 2 (by decide) (by decide) (by decide) [1, 2, 3, 4]
    (by decide) (by decide)).2

end SecureShell
